import Mathlib

/-!
# PageFinder (filters/select_content/PageFinder.cpp)

A shallow embedding of the page box detector of `PageFinder.cpp`:
`detectBorders`, `detectEdge`, `fineTuneCorners`, `fineTuneCorner` and the
orchestration in `findPageBox`, followed by theorems about them.

Conventions.
* C++ `int` values are `Int`; every value that occurs is bounded by the image
  dimensions, so no wrap-around is modelled.
* Loops are modelled with a fuel argument and return `none` when the fuel is
  exhausted; theorems state explicitly how much fuel is enough.
* The only floating point computations of the detector, `int(double(r) * 0.382)`
  and `int(double(mid) / 4.0)`, are modelled exactly (binary64, round to nearest
  even, truncation toward zero).
-/

namespace PageFinder

/-! ## Qt value types used by the detector -/

/-- Qt::Orientation. -/
inductive Orientation where
  | Horizontal
  | Vertical
  deriving DecidableEq, Repr

/-- A one bit per pixel `QImage` as produced by `BinaryImage::toQImage()`:
its dimensions and, for every coordinate, whether the stored palette index
is 1 (black). Only coordinates inside the image are ever consulted. -/
structure QImage where
  width : Nat
  height : Nat
  black : Int → Int → Bool

/-- The value `QImage::pixelIndex` returns for a coordinate outside the image
(after printing a warning). -/
def outOfRange : Int := -12345

/-- QImage::pixelIndex(x, y) on a monochrome image. -/
def QImage.pixelIndex (img : QImage) (x y : Int) : Int :=
  if x < 0 ∨ x ≥ img.width ∨ y < 0 ∨ y ≥ img.height then outOfRange
  else if img.black x y then 1 else 0

/-- Qt::color1, the palette index the detector calls `black`. -/
def color1 : Int := 1

/-- QRect, stored as in Qt by its inclusive corner coordinates. -/
structure QRect where
  x1 : Int
  y1 : Int
  x2 : Int
  y2 : Int
  deriving DecidableEq, Repr

namespace QRect

/-- The constructor QRect(left, top, width, height). -/
def ofSize (l t w h : Int) : QRect := ⟨l, t, l + w - 1, t + h - 1⟩

def left (r : QRect) : Int := r.x1
def top (r : QRect) : Int := r.y1
def right (r : QRect) : Int := r.x2
def bottom (r : QRect) : Int := r.y2
def width (r : QRect) : Int := r.x2 - r.x1 + 1
def height (r : QRect) : Int := r.y2 - r.y1 + 1
def setLeft (r : QRect) (v : Int) : QRect := { r with x1 := v }
def setTop (r : QRect) (v : Int) : QRect := { r with y1 := v }
def setRight (r : QRect) (v : Int) : QRect := { r with x2 := v }
def setBottom (r : QRect) (v : Int) : QRect := { r with y2 := v }

/-- QRect::isEmpty(). -/
def isEmpty (r : QRect) : Bool := decide (r.x1 > r.x2 ∨ r.y1 > r.y2)

end QRect

/-! ## The two floating point expressions -/

/-- Number of low-order bits of `n` that do not fit into a 53 bit significand
(the first argument bounds the recursion; `n` itself is always enough). -/
def dropBits : Nat → Nat → Nat
  | 0, _ => 0
  | fuel + 1, n => if n < 2 ^ 53 then 0 else dropBits fuel (n / 2) + 1

/-- Rounding of a natural number to 53 significant bits, to nearest, ties to
even: the binary64 rounding of an exact product, up to the common scale. -/
def roundSig53 (n : Nat) : Nat :=
  let s := dropBits n n
  let q := n / 2 ^ s
  let rem := n % 2 ^ s
  if 2 * rem < 2 ^ s then q * 2 ^ s
  else if 2 ^ s < 2 * rem then (q + 1) * 2 ^ s
  else if q % 2 = 0 then q * 2 ^ s else (q + 1) * 2 ^ s

/-- The binary64 literal `0.382` is exactly `goldenNum / 2 ^ 53`. -/
def goldenNum : Nat := 3440750115311059

/-- The expression `int(double(r) * 0.382)`: exact product, binary64 rounding,
truncation toward zero. -/
def goldenMid (r : Int) : Int :=
  let m : Int := ((roundSig53 (r.natAbs * goldenNum) / 2 ^ 53 : Nat) : Int)
  if r < 0 then -m else m

/-- The expression `int(double(mid) / 4.0)`: division by four is exact in
binary64, the conversion truncates toward zero. -/
def quarter (mid : Int) : Int := Int.tdiv mid 4

/-! ## detectEdge -/

/-- The inner `for (int j = ms; j != me; j++)` loop of `detectEdge` on scan
line `i`, from sample `j` on. Returns the new `(edge, gap)`. -/
def scanBand (img : QImage) (orient : Orientation) (i me old_gap : Int) :
    Nat → Int → Int → Int → Option (Int × Int)
  | 0, _, _, _ => none
  | fuel + 1, j, edge, gap =>
    if j = me then some (edge, gap)
    else
      let x := if orient = Orientation.Vertical then j else i
      let y := if orient = Orientation.Vertical then i else j
      let pixel := img.pixelIndex x y
      if pixel = color1 then some (i, 0)
      else scanBand img orient i me old_gap fuel (j + 1) edge
        (if gap = old_gap then gap + 1 else gap)

/-- The value the inner loop of `detectEdge` reads for sample `j` of scan
line `i`: the pixel `(i, j)`, or `(j, i)` when the orientation is vertical. -/
def sample (img : QImage) (orient : Orientation) (i j : Int) : Int :=
  img.pixelIndex (if orient = Orientation.Vertical then j else i)
    (if orient = Orientation.Vertical then i else j)

/-- The local variables of `detectEdge` when its `while` loop is left. -/
structure ScanState where
  i : Int
  edge : Int
  gap : Int
  deriving DecidableEq, Repr

/-- The `while (i != end)` loop of `detectEdge`, returning the variables at
loop exit; `bandFuel` is the fuel handed to every run of the inner loop. -/
def detectEdgeLoop (img : QImage) (end_ inc mid : Int) (orient : Orientation)
    (bandFuel : Nat) : Nat → Int → Int → Int → Option ScanState
  | 0, _, _, _ => none
  | fuel + 1, i, edge, gap =>
    if i = end_ then some ⟨i, edge, gap⟩
    else
      let min_size : Int := 20
      let ms := mid - quarter mid
      let me := mid + quarter mid
      let old_gap := gap
      match scanBand img orient i me old_gap bandFuel ms edge gap with
      | none => none
      | some (edge', gap') =>
        if gap' > min_size then some ⟨i, edge', gap'⟩
        else detectEdgeLoop img end_ inc mid orient bandFuel fuel (i + inc) edge' gap'

/-- PageFinder::detectEdge: shift edge while points around mid are black. -/
def detectEdge (fuel : Nat) (img : QImage) (start end_ inc mid : Int)
    (orient : Orientation) : Option Int :=
  (detectEdgeLoop img end_ inc mid orient fuel fuel start start 0).map ScanState.edge

/-! ## detectBorders -/

/-- PageFinder::detectBorders. -/
def detectBorders (fuel : Nat) (img : QImage) : Option QRect :=
  let l : Int := 0
  let t : Int := 0
  let r : Int := (img.width : Int) - 1
  let b : Int := (img.height : Int) - 1
  let xmid := goldenMid r
  let ymid := goldenMid b
  (detectEdge fuel img l r 1 ymid Orientation.Horizontal).bind fun l =>
  (detectEdge fuel img t b 1 xmid Orientation.Vertical).bind fun t =>
  (detectEdge fuel img r 0 (-1) ymid Orientation.Horizontal).bind fun r =>
  (detectEdge fuel img b t (-1) xmid Orientation.Vertical).bind fun b =>
  some (QRect.ofSize l t (r - l + 1) (b - t + 1))

/-! ## fineTuneCorner, fineTuneCorners -/

/-- PageFinder::fineTuneCorner: shift edges until given corner is out of
black. Returns the final `(x, y)`. -/
def fineTuneCorner (img : QImage) (inc_x inc_y : Int) : Nat → Int → Int → Option (Int × Int)
  | 0, _, _ => none
  | fuel + 1, x, y =>
    let pixel := img.pixelIndex x y
    let tx := x + inc_x
    let ty := y + inc_y
    if pixel ≠ color1 ∨ tx < 0 ∨ tx > (img.width : Int) - 1 ∨ ty < 0
        ∨ ty > (img.height : Int) - 1 then
      some (x, y)
    else fineTuneCorner img inc_x inc_y fuel tx ty

/-- PageFinder::fineTuneCorners. The four calls share the variables
`l, t, r, b`, so each call starts from the values left by the previous ones. -/
def fineTuneCorners (fuel : Nat) (img : QImage) (rect : QRect) : Option QRect :=
  let l := rect.left
  let t := rect.top
  let r := rect.right
  let b := rect.bottom
  (fineTuneCorner img 1 1 fuel l t).bind fun (l, t) =>
  (fineTuneCorner img (-1) 1 fuel r t).bind fun (r, t) =>
  (fineTuneCorner img 1 (-1) fuel l b).bind fun (l, b) =>
  (fineTuneCorner img (-1) (-1) fuel r b).bind fun (r, b) =>
  some ((((rect.setLeft l).setTop t).setRight r).setBottom b)

/-- The scanner followed by the corner refiner, as in `findPageBox`. -/
def detectAndTune (fuel : Nat) (img : QImage) : Option QRect :=
  (detectBorders fuel img).bind fun rect => fineTuneCorners fuel img rect

/-! ## The same loops, recording every coordinate passed to `pixelIndex` -/

/-- The loop `scanBand` with the list of coordinates it reads, in order. -/
def scanBandReads (img : QImage) (orient : Orientation) (i me old_gap : Int) :
    Nat → Int → Int → Int → Option ((Int × Int) × List (Int × Int))
  | 0, _, _, _ => none
  | fuel + 1, j, edge, gap =>
    if j = me then some ((edge, gap), [])
    else
      let x := if orient = Orientation.Vertical then j else i
      let y := if orient = Orientation.Vertical then i else j
      let pixel := img.pixelIndex x y
      if pixel = color1 then some ((i, 0), [(x, y)])
      else (scanBandReads img orient i me old_gap fuel (j + 1) edge
        (if gap = old_gap then gap + 1 else gap)).map fun res => (res.1, (x, y) :: res.2)

/-- The loop `detectEdgeLoop` with the list of coordinates it reads. -/
def detectEdgeLoopReads (img : QImage) (end_ inc mid : Int) (orient : Orientation)
    (bandFuel : Nat) : Nat → Int → Int → Int → Option (ScanState × List (Int × Int))
  | 0, _, _, _ => none
  | fuel + 1, i, edge, gap =>
    if i = end_ then some (⟨i, edge, gap⟩, [])
    else
      let min_size : Int := 20
      let ms := mid - quarter mid
      let me := mid + quarter mid
      let old_gap := gap
      match scanBandReads img orient i me old_gap bandFuel ms edge gap with
      | none => none
      | some ((edge', gap'), reads) =>
        if gap' > min_size then some (⟨i, edge', gap'⟩, reads)
        else (detectEdgeLoopReads img end_ inc mid orient bandFuel fuel (i + inc) edge' gap').map
          fun res => (res.1, reads ++ res.2)

/-- The function `detectEdge` with the list of coordinates it reads. -/
def detectEdgeReads (fuel : Nat) (img : QImage) (start end_ inc mid : Int)
    (orient : Orientation) : Option (Int × List (Int × Int)) :=
  (detectEdgeLoopReads img end_ inc mid orient fuel fuel start start 0).map
    fun res => (res.1.edge, res.2)

/-- The function `detectBorders` with the list of coordinates it reads. -/
def detectBordersReads (fuel : Nat) (img : QImage) : Option (QRect × List (Int × Int)) :=
  let l : Int := 0
  let t : Int := 0
  let r : Int := (img.width : Int) - 1
  let b : Int := (img.height : Int) - 1
  let xmid := goldenMid r
  let ymid := goldenMid b
  (detectEdgeReads fuel img l r 1 ymid Orientation.Horizontal).bind fun (l, rl) =>
  (detectEdgeReads fuel img t b 1 xmid Orientation.Vertical).bind fun (t, rt) =>
  (detectEdgeReads fuel img r 0 (-1) ymid Orientation.Horizontal).bind fun (r, rr) =>
  (detectEdgeReads fuel img b t (-1) xmid Orientation.Vertical).bind fun (b, rb) =>
  some (QRect.ofSize l t (r - l + 1) (b - t + 1), rl ++ rt ++ rr ++ rb)

/-- The loop of `fineTuneCorner` with the list of coordinates it reads. -/
def fineTuneCornerReads (img : QImage) (inc_x inc_y : Int) :
    Nat → Int → Int → Option ((Int × Int) × List (Int × Int))
  | 0, _, _ => none
  | fuel + 1, x, y =>
    let pixel := img.pixelIndex x y
    let tx := x + inc_x
    let ty := y + inc_y
    if pixel ≠ color1 ∨ tx < 0 ∨ tx > (img.width : Int) - 1 ∨ ty < 0
        ∨ ty > (img.height : Int) - 1 then
      some ((x, y), [(x, y)])
    else (fineTuneCornerReads img inc_x inc_y fuel tx ty).map
      fun res => (res.1, (x, y) :: res.2)

/-- The function `fineTuneCorners` with the list of coordinates it reads. -/
def fineTuneCornersReads (fuel : Nat) (img : QImage) (rect : QRect) :
    Option (QRect × List (Int × Int)) :=
  let l := rect.left
  let t := rect.top
  let r := rect.right
  let b := rect.bottom
  (fineTuneCornerReads img 1 1 fuel l t).bind fun ((l, t), r1) =>
  (fineTuneCornerReads img (-1) 1 fuel r t).bind fun ((r, t), r2) =>
  (fineTuneCornerReads img 1 (-1) fuel l b).bind fun ((l, b), r3) =>
  (fineTuneCornerReads img (-1) (-1) fuel r b).bind fun ((r, b), r4) =>
  some ((((rect.setLeft l).setTop t).setRight r).setBottom b, r1 ++ r2 ++ r3 ++ r4)

/-- A coordinate lies inside the image. -/
def QImage.inside (img : QImage) (p : Int × Int) : Prop :=
  0 ≤ p.1 ∧ p.1 ≤ (img.width : Int) - 1 ∧ 0 ≤ p.2 ∧ p.2 ≤ (img.height : Int) - 1

instance (img : QImage) (p : Int × Int) : Decidable (img.inside p) := by
  unfold QImage.inside; infer_instance

/-! ## findPageBox

`QRectF`, `QPolygonF` and `QTransform` carry rational numbers: the exact
values the binary64 computation approximates, and equal to them whenever the
transforms are the identity and the coordinates are integers. -/

/-- QRectF. -/
structure QRectF where
  xp : ℚ
  yp : ℚ
  w : ℚ
  h : ℚ
  deriving DecidableEq

/-- The default constructed (null) QRectF(). -/
def QRectF.null : QRectF := ⟨0, 0, 0, 0⟩

/-- The converting constructor QRectF(QRect). -/
def QRectF.ofQRect (r : QRect) : QRectF := ⟨r.x1, r.y1, r.width, r.height⟩

/-- The converting constructor QPolygonF(QRectF): the closed five point
outline. -/
def QRectF.toPolygon (r : QRectF) : List (ℚ × ℚ) :=
  [(r.xp, r.yp), (r.xp + r.w, r.yp), (r.xp + r.w, r.yp + r.h), (r.xp, r.yp + r.h), (r.xp, r.yp)]

/-- The update of one coordinate range in the loop of
QPolygonF::boundingRect(): `if (v < min) min = v; else if (v > max) max = v;`. -/
def extend (lo hi v : ℚ) : ℚ × ℚ :=
  if v < lo then (v, hi) else if v > hi then (lo, v) else (lo, hi)

/-- One step of the loop of QPolygonF::boundingRect() on the running
`(minx, maxx, miny, maxy)`. -/
def boundingStep (acc : ℚ × ℚ × ℚ × ℚ) (p : ℚ × ℚ) : ℚ × ℚ × ℚ × ℚ :=
  let xs := extend acc.1 acc.2.1 p.1
  let ys := extend acc.2.2.1 acc.2.2.2 p.2
  (xs.1, xs.2, ys.1, ys.2)

/-- QPolygonF::boundingRect(). -/
def boundingRect : List (ℚ × ℚ) → QRectF
  | [] => ⟨0, 0, 0, 0⟩
  | p :: ps =>
    let acc := ps.foldl boundingStep (p.1, p.1, p.2, p.2)
    ⟨acc.1, acc.2.2.1, acc.2.1 - acc.1, acc.2.2.2 - acc.2.2.1⟩

/-- An affine QTransform. -/
structure QTransform where
  m11 : ℚ
  m12 : ℚ
  m21 : ℚ
  m22 : ℚ
  dx : ℚ
  dy : ℚ
  deriving DecidableEq

namespace QTransform

/-- The default constructed QTransform(). -/
def identity : QTransform := ⟨1, 0, 0, 1, 0, 0⟩

/-- The product `a * b`: first `a`, then `b`. -/
def mul (a b : QTransform) : QTransform :=
  ⟨a.m11 * b.m11 + a.m12 * b.m21, a.m11 * b.m12 + a.m12 * b.m22,
   a.m21 * b.m11 + a.m22 * b.m21, a.m21 * b.m12 + a.m22 * b.m22,
   a.dx * b.m11 + a.dy * b.m21 + b.dx, a.dx * b.m12 + a.dy * b.m22 + b.dy⟩

/-- QTransform::inverted(); the identity when the matrix is singular. -/
def inverted (a : QTransform) : QTransform :=
  let det := a.m11 * a.m22 - a.m12 * a.m21
  if det = 0 then identity
  else ⟨a.m22 / det, -a.m12 / det, -a.m21 / det, a.m11 / det,
        (a.m21 * a.dy - a.m22 * a.dx) / det, (a.m12 * a.dx - a.m11 * a.dy) / det⟩

/-- QTransform::map(QPointF). -/
def mapPoint (a : QTransform) (p : ℚ × ℚ) : ℚ × ℚ :=
  (a.m11 * p.1 + a.m21 * p.2 + a.dx, a.m12 * p.1 + a.m22 * p.2 + a.dy)

/-- QTransform::map(QPolygonF). -/
def map (a : QTransform) (poly : List (ℚ × ℚ)) : List (ℚ × ℚ) := poly.map a.mapPoint

end QTransform

/-- What `findPageBox` receives from its collaborators `ImageTransformation`,
`transformToGray` and `binarizeOtsu`, which are taken as given. -/
structure FilterData where
  /-- The value of `xform_150dpi.resultingRect().toRect()`. -/
  resultingRect : QRect
  /-- The value of `xform_150dpi.transform()`. -/
  xform150 : QTransform
  /-- The value of `data.xform().transform()`. -/
  xform : QTransform
  /-- The image `bw150.toQImage()` the normalizer and the binarizer produce. -/
  bwimg : QImage

/-- PageFinder::findPageBox. -/
def findPageBox (fuel : Nat) (data : FilterData) : Option QRectF :=
  if data.resultingRect.isEmpty then some QRectF.null
  else
    let bwimg := data.bwimg
    (detectBorders fuel bwimg).bind fun content_rect =>
    (fineTuneCorners fuel bwimg content_rect).bind fun content_rect =>
    let combined_xform := (data.xform150.inverted).mul data.xform
    some (boundingRect (combined_xform.map (QRectF.ofQRect content_rect).toPolygon))

/-- What an observer of `findPageBox` can see it do. -/
inductive Event where
  | normalizer
  | binarizer
  | detectBordersCall
  | fineTuneCornersCall
  | pixelRead (x y : Int)
  deriving DecidableEq, Repr

/-- The function `findPageBox` with the list of events it causes, in order. -/
def findPageBoxLog (fuel : Nat) (data : FilterData) : Option (QRectF × List Event) :=
  if data.resultingRect.isEmpty then some (QRectF.null, [])
  else
    let bwimg := data.bwimg
    (detectBordersReads fuel bwimg).bind fun (content_rect, reads1) =>
    (fineTuneCornersReads fuel bwimg content_rect).bind fun (content_rect, reads2) =>
    let combined_xform := (data.xform150.inverted).mul data.xform
    some (boundingRect (combined_xform.map (QRectF.ofQRect content_rect).toPolygon),
      [Event.normalizer, Event.binarizer, Event.detectBordersCall]
        ++ reads1.map (fun p => Event.pixelRead p.1 p.2)
        ++ [Event.fineTuneCornersCall]
        ++ reads2.map (fun p => Event.pixelRead p.1 p.2))

/-! ## Test images -/

/-- The 400x300 image that is white except for the black rectangle
(50,50)-(349,249). -/
def scenarioImage : QImage :=
  ⟨400, 300, fun x y => decide (50 ≤ x ∧ x ≤ 349 ∧ 50 ≤ y ∧ y ≤ 249)⟩

/-- The all-black image of the given size. -/
def allBlack (w h : Nat) : QImage := ⟨w, h, fun _ _ => true⟩

/-- The all-white image of the given size. -/
def allWhite (w h : Nat) : QImage := ⟨w, h, fun _ _ => false⟩

/-- Every edge of `rect` is at most 5 pixels away from the corresponding edge
of the black rectangle (50,50)-(349,249) of the scenario image. -/
def nearScenarioBox (rect : QRect) : Prop :=
  |rect.left - 50| ≤ 5 ∧ |rect.top - 50| ≤ 5 ∧ |rect.right - 349| ≤ 5 ∧ |rect.bottom - 249| ≤ 5

/-- The `break` condition of the loop of `fineTuneCorner` at `(x, y)`: the
pixel is not black, or the next diagonal step leaves the image. -/
def cornerStuck (img : QImage) (inc_x inc_y x y : Int) : Prop :=
  img.pixelIndex x y ≠ color1 ∨ x + inc_x < 0 ∨ x + inc_x > (img.width : Int) - 1
    ∨ y + inc_y < 0 ∨ y + inc_y > (img.height : Int) - 1

instance (img : QImage) (inc_x inc_y x y : Int) : Decidable (cornerStuck img inc_x inc_y x y) := by
  unfold cornerStuck; infer_instance

/-- The four corners of `rect` lie inside the image. -/
def QImage.contains (img : QImage) (rect : QRect) : Prop :=
  0 ≤ rect.left ∧ rect.left ≤ (img.width : Int) - 1 ∧
  0 ≤ rect.right ∧ rect.right ≤ (img.width : Int) - 1 ∧
  0 ≤ rect.top ∧ rect.top ≤ (img.height : Int) - 1 ∧
  0 ≤ rect.bottom ∧ rect.bottom ≤ (img.height : Int) - 1

instance (img : QImage) (rect : QRect) : Decidable (img.contains rect) := by
  unfold QImage.contains; infer_instance

/-- A 3x3 image with black pixels at (0,1) and (2,2) only. -/
def twoDots : QImage := ⟨3, 3, fun x y => decide ((x = 0 ∧ y = 1) ∨ (x = 2 ∧ y = 2))⟩

/-- The collaborators' answers for the all-black 12x12 page under identity
transforms. -/
def blackPage : FilterData :=
  ⟨⟨0, 0, 11, 11⟩, QTransform.identity, QTransform.identity, allBlack 12 12⟩

/-- The collaborators' answers when the normalisation transform yields the
empty rectangle of width 0. -/
def emptyPage : FilterData :=
  ⟨QRect.ofSize 0 0 0 10, QTransform.identity, QTransform.identity, allBlack 12 12⟩

/-- A 3x3 image with black pixels at (0,0) and (2,1) only. -/
def cornerDots : QImage := ⟨3, 3, fun x y => decide ((x = 0 ∧ y = 0) ∨ (x = 2 ∧ y = 1))⟩

/-- The coordinate `(x, y)` the inner loop of `detectEdge` passes to
`pixelIndex` for sample `j` of scan line `i`. -/
def coord (orient : Orientation) (i j : Int) : Int × Int :=
  (if orient = Orientation.Vertical then j else i, if orient = Orientation.Vertical then i else j)

/-- The midpoint `floor(0.382 x extent)` computed from the full extent of the
image along an axis, in exact arithmetic. -/
def claimedMid (extent : Int) : Int := (382 * extent) / 1000

/-- The 12x12 image that is white except for the black pixel (5,3). -/
def speckImage : QImage := ⟨12, 12, fun x y => decide (x = 5 ∧ y = 3)⟩

/-- The 12x12 image that is white except for the black pixel (0,0). -/
def cornerSpeck : QImage := ⟨12, 12, fun x y => decide (x = 0 ∧ y = 0)⟩

/-- The `w` x `h` image made of a black frame of thickness `k` around a white
interior. -/
def frameImage (w h k : Nat) : QImage :=
  ⟨w, h, fun x y => decide (x < k ∨ y < k ∨ (w : Int) - k ≤ x ∨ (h : Int) - k ≤ y)⟩

/-! ## Reference definition of one side scan

The definitions below follow the words of the specification, not the code:
a scan line is a hit when some pixel of its band is black, and the scan
returns the last hit that is not preceded by 21 consecutive misses. -/

/-- Scan line `i` is a hit: some sample of the band
`[mid - mid/4, mid + mid/4)` on line `i` is black. -/
def lineHit (img : QImage) (orient : Orientation) (mid i : Int) : Bool :=
  (List.range (2 * quarter mid).toNat).any fun k : Nat =>
    decide (sample img orient i (mid - quarter mid + k) = color1)

/-- Before the `k`-th scan line there is a run of 21 consecutive misses: the
lines `a, a+1, ..., a+20`, all before line `k`, are misses. -/
def missRunBefore (hit : Nat → Bool) (k : Nat) : Prop :=
  ∃ a, a < k ∧ (a + 21 ≤ k ∧ ∀ b, b < k → a ≤ b → b < a + 21 → hit b = false)

instance (hit : Nat → Bool) (k : Nat) : Decidable (missRunBefore hit k) := by
  unfold missRunBefore; infer_instance

/-- The `k`-th scan line is a hit that is not preceded by a run of 21
consecutive misses. -/
def goodLine (hit : Nat → Bool) (k : Nat) : Bool :=
  hit k && !decide (missRunBefore hit k)

/-- The last index below `n` at which `good` holds, if there is one. -/
def lastGood (good : Nat → Bool) : Nat → Option Nat
  | 0 => none
  | n + 1 => if good n then some n else lastGood good n

/-- The coordinate of the `k`-th scan line, or `start` when there is no line. -/
def lineOrStart (start inc : Int) : Option Nat → Int
  | some k => start + k * inc
  | none => start

/-- The edge the specification describes for a scan over the lines
`start, start + inc, ..., end_ - inc`: the last line that is a hit and is not
preceded by 21 consecutive misses, and `start` when there is none. -/
def referenceEdge (img : QImage) (orient : Orientation) (mid start end_ inc : Int) : Int :=
  lineOrStart start inc
    (lastGood (goodLine fun k : Nat => lineHit img orient mid (start + k * inc))
      (end_ - start).natAbs)

/-! ## Facts about the floating point expressions -/

theorem dropBits_pow (fuel n : Nat) :
    dropBits fuel n = 0 ∨ 2 ^ (dropBits fuel n + 52) ≤ n := by
  induction fuel generalizing n with
  | zero => left; rfl
  | succ k ih =>
    unfold dropBits
    split
    · left; rfl
    · right
      rename_i hn
      rcases ih (n / 2) with h | h
      · rw [h]
        have : (2:Nat) ^ (0 + 1 + 52) = 2 ^ 53 := by norm_num
        omega
      · have h2 : 2 ^ (dropBits k (n / 2) + 1 + 52) = 2 * 2 ^ (dropBits k (n / 2) + 52) := by
          rw [show dropBits k (n / 2) + 1 + 52 = (dropBits k (n / 2) + 52) + 1 by omega, pow_succ]
          ring
        omega

theorem roundSig53_bounds (n : Nat) :
    roundSig53 n * 2 ^ 52 ≤ n * 2 ^ 52 + n ∧ n * 2 ^ 52 ≤ roundSig53 n * 2 ^ 52 + n := by
  unfold roundSig53
  simp only
  generalize hs : dropBits n n = s
  have hdm := Nat.div_add_mod n (2 ^ s)
  have hlt : n % 2 ^ s < 2 ^ s := Nat.mod_lt _ (by positivity)
  have hpos : 0 < 2 ^ s := by positivity
  have hP : n % 2 ^ s = 0 ∨ 2 ^ s * 2 ^ 52 ≤ n := by
    rcases dropBits_pow n n with h | h
    · rw [hs] at h; subst h; left; simp only [pow_zero, Nat.mod_one]
    · rw [hs, pow_add] at h; right; exact h
  have hq : (n / 2 ^ s + 1) * 2 ^ s = n / 2 ^ s * 2 ^ s + 2 ^ s := by ring
  have hc : 2 ^ s * (n / 2 ^ s) = n / 2 ^ s * 2 ^ s := by ring
  rw [hc] at hdm
  generalize n / 2 ^ s * 2 ^ s = a at *
  generalize n % 2 ^ s = rem at *
  generalize 2 ^ s = P at *
  split_ifs <;> (try rw [hq]) <;> omega


theorem goldenMid_of_nonneg (r : Int) (hr : 0 ≤ r) :
    0 ≤ goldenMid r ∧ 5 * goldenMid r ≤ 2 * r ∧ (11 ≤ r → 4 ≤ goldenMid r) := by
  obtain ⟨k, rfl⟩ := Int.eq_ofNat_of_zero_le hr
  unfold goldenMid
  simp only [Int.natAbs_ofNat]
  have hb := roundSig53_bounds (k * goldenNum)
  have h1 := Nat.div_mul_le_self (roundSig53 (k * goldenNum)) (2 ^ 53)
  have h2 := Nat.lt_mul_div_succ (roundSig53 (k * goldenNum)) (show 0 < 2 ^ 53 by norm_num)
  unfold goldenNum at *
  generalize roundSig53 (k * 3440750115311059) = R at *
  generalize R / 2 ^ 53 = m at *
  have : ¬ ((k : Int) < 0) := by omega
  simp only [this, if_false]
  refine ⟨by omega, by omega, fun h => by omega⟩

/-! ## The loops of detectEdge -/

theorem quarter_of_nonneg (mid : Int) (h : 0 ≤ mid) :
    0 ≤ quarter mid ∧ 4 * quarter mid ≤ mid ∧ mid < 4 * quarter mid + 4 := by
  unfold quarter
  rw [Int.tdiv_eq_ediv h (by norm_num)]
  omega

theorem scanBand_succ (img : QImage) (orient : Orientation) (i me og : Int) (fuel : Nat)
    (j edge gap : Int) :
    scanBand img orient i me og (fuel + 1) j edge gap =
      if j = me then some (edge, gap)
      else if sample img orient i j = color1 then some (i, 0)
      else scanBand img orient i me og fuel (j + 1) edge (if gap = og then gap + 1 else gap) :=
  rfl

/-- A band without a black sample leaves `edge` alone and counts one miss,
whatever its width. -/
theorem scanBand_miss (img : QImage) (orient : Orientation) (i me og : Int) :
    ∀ (fuel : Nat) (j edge gap : Int), j ≤ me → (me - j).toNat < fuel →
      (∀ j', j ≤ j' → j' < me → sample img orient i j' ≠ color1) →
      scanBand img orient i me og fuel j edge gap =
        some (edge, if j < me ∧ gap = og then gap + 1 else gap) := by
  intro fuel
  induction fuel with
  | zero => intro j edge gap _ h; omega
  | succ k ih =>
    intro j edge gap hj hf hw
    rw [scanBand_succ]
    by_cases hje : j = me
    · subst hje; simp
    · have hlt : j < me := by omega
      have hs := hw j (le_refl _) hlt
      rw [if_neg hje, if_neg hs, ih (j + 1) edge _ (by omega) (by omega)
        (fun j' h1 h2 => hw j' (by omega) h2)]
      by_cases hg : gap = og
      · subst hg; simp [hlt]
      · simp [hg]

/-- A band with a black sample sets `edge` to the scan line and clears `gap`. -/
theorem scanBand_hit (img : QImage) (orient : Orientation) (i me og : Int) (j0 : Int)
    (h0 : sample img orient i j0 = color1) (h0me : j0 < me) :
    ∀ (fuel : Nat) (j edge gap : Int), j ≤ j0 → (j0 - j).toNat < fuel →
      scanBand img orient i me og fuel j edge gap = some (i, 0) := by
  intro fuel
  induction fuel with
  | zero => intro j edge gap _ h; omega
  | succ k ih =>
    intro j edge gap hj hf
    rw [scanBand_succ, if_neg (by omega)]
    by_cases hs : sample img orient i j = color1
    · rw [if_pos hs]
    · rw [if_neg hs]
      have : j ≠ j0 := fun h => hs (h ▸ h0)
      exact ih (j + 1) edge _ (by omega) (by omega)

/-- With enough fuel the inner loop returns, and the new `edge` is the old one
or the scan line. -/
theorem scanBand_total (img : QImage) (orient : Orientation) (i me og : Int)
    (fuel : Nat) (j edge gap : Int) (hj : j ≤ me) (hf : (me - j).toNat < fuel) :
    ∃ e g, scanBand img orient i me og fuel j edge gap = some (e, g) ∧
      ((e = edge ∧ gap ≤ g ∧ g ≤ gap + 1) ∨ (e = i ∧ g = 0)) := by
  by_cases hex : ∃ j0, j ≤ j0 ∧ j0 < me ∧ sample img orient i j0 = color1
  · obtain ⟨j0, h1, h2, h3⟩ := hex
    exact ⟨i, 0, scanBand_hit img orient i me og j0 h3 h2 fuel j edge gap h1 (by omega),
      Or.inr ⟨rfl, rfl⟩⟩
  · have hw : ∀ j', j ≤ j' → j' < me → sample img orient i j' ≠ color1 :=
      fun j' h1 h2 h3 => hex ⟨j', h1, h2, h3⟩
    refine ⟨edge, _, scanBand_miss img orient i me og fuel j edge gap hj hf hw, Or.inl ⟨rfl, ?_⟩⟩
    split_ifs <;> omega

theorem detectEdgeLoop_succ (img : QImage) (end_ inc mid : Int) (orient : Orientation)
    (bandFuel fuel : Nat) (i edge gap : Int) :
    detectEdgeLoop img end_ inc mid orient bandFuel (fuel + 1) i edge gap =
      if i = end_ then some ⟨i, edge, gap⟩
      else
        match scanBand img orient i (mid + quarter mid) gap bandFuel (mid - quarter mid)
            edge gap with
        | none => none
        | some (edge', gap') =>
          if gap' > 20 then some ⟨i, edge', gap'⟩
          else detectEdgeLoop img end_ inc mid orient bandFuel fuel (i + inc) edge' gap' :=
  rfl

/-- One turn of the outer loop, given what the inner loop returned. -/
theorem detectEdgeLoop_step (img : QImage) (end_ inc mid : Int) (orient : Orientation)
    (bandFuel fuel : Nat) (i edge gap e g : Int) (hi : i ≠ end_)
    (hb : scanBand img orient i (mid + quarter mid) gap bandFuel (mid - quarter mid)
      edge gap = some (e, g)) :
    detectEdgeLoop img end_ inc mid orient bandFuel (fuel + 1) i edge gap =
      if g > 20 then some ⟨i, e, g⟩
      else detectEdgeLoop img end_ inc mid orient bandFuel fuel (i + inc) e g := by
  rw [detectEdgeLoop_succ, if_neg hi, hb]

/-- While no band contains a black sample the scan keeps its `edge`: it stops
after the 21st miss, or at `end_` when that comes first (or the band is
empty). Only the scan lines reached with `gap ≤ 20` matter. -/
theorem detectEdgeLoop_miss (img : QImage) (end_ inc mid : Int) (orient : Orientation)
    (bandFuel : Nat) (hq : 0 ≤ quarter mid) (hbf : (2 * quarter mid).toNat < bandFuel)
    (hinc : inc ≠ 0) :
    ∀ (n fuel : Nat) (i edge gap : Int), end_ = i + n * inc → n < fuel → gap ≤ 20 →
      (∀ k : Nat, k < n → gap + k ≤ 20 → ∀ j, mid - quarter mid ≤ j → j < mid + quarter mid →
        sample img orient (i + k * inc) j ≠ color1) →
      ∃ st, detectEdgeLoop img end_ inc mid orient bandFuel fuel i edge gap = some st ∧
        st.edge = edge := by
  intro n
  induction n with
  | zero =>
    intro fuel i edge gap he hf _ _
    obtain ⟨f, rfl⟩ : ∃ f, fuel = f + 1 := ⟨fuel - 1, by omega⟩
    refine ⟨⟨i, edge, gap⟩, ?_, rfl⟩
    rw [detectEdgeLoop_succ, if_pos (by simpa using he.symm)]
  | succ n ih =>
    intro fuel i edge gap he hf hg hw
    obtain ⟨f, rfl⟩ : ∃ f, fuel = f + 1 := ⟨fuel - 1, by omega⟩
    have hne : i ≠ end_ := by
      intro h
      have : ((n : Int) + 1) * inc = 0 := by push_cast at he; linarith
      rcases mul_eq_zero.mp this with h1 | h1
      · omega
      · exact hinc h1
    have hb := scanBand_miss img orient i (mid + quarter mid) gap bandFuel (mid - quarter mid)
      edge gap (by omega) (by omega) (fun j h1 h2 => by
        have := hw 0 (by omega) (by simpa using hg) j h1 h2
        simpa using this)
    by_cases hband : mid - quarter mid < mid + quarter mid
    · rw [if_pos ⟨hband, rfl⟩] at hb
      rw [detectEdgeLoop_step img end_ inc mid orient bandFuel f i edge gap _ _ hne hb]
      split_ifs with h1
      · exact ⟨_, rfl, rfl⟩
      · apply ih f (i + inc) edge (gap + 1) (by push_cast at he ⊢; linarith) (by omega)
          (by omega)
        intro k hk hgk j hj1 hj2
        have := hw (k + 1) (by omega) (by push_cast; omega) j hj1 hj2
        rw [show i + inc + (k : Int) * inc = i + ((k + 1 : Nat) : Int) * inc by push_cast; ring]
        exact this
    · rw [if_neg (fun h => hband h.1)] at hb
      rw [detectEdgeLoop_step img end_ inc mid orient bandFuel f i edge gap _ _ hne hb,
        if_neg (by omega)]
      apply ih f (i + inc) edge gap (by push_cast at he ⊢; linarith) (by omega) hg
      intro k _ _ j hj1 hj2
      omega

/-- While the first sample of every band is black the scan runs up to `end_`
with `gap = 0`, and `edge` is the last scan line before `end_`. -/
theorem detectEdgeLoop_allHit (img : QImage) (end_ inc mid : Int) (orient : Orientation)
    (bandFuel : Nat) (hq : 1 ≤ quarter mid) (hbf : 1 ≤ bandFuel) (hinc : inc ≠ 0) :
    ∀ (n fuel : Nat) (i edge gap : Int), end_ = i + n * inc → n < fuel →
      (∀ k : Nat, k < n → sample img orient (i + k * inc) (mid - quarter mid) = color1) →
      detectEdgeLoop img end_ inc mid orient bandFuel fuel i edge gap =
        some ⟨end_, if n = 0 then edge else end_ - inc, if n = 0 then gap else 0⟩ := by
  intro n
  induction n with
  | zero =>
    intro fuel i edge gap he hf _
    obtain ⟨f, rfl⟩ : ∃ f, fuel = f + 1 := ⟨fuel - 1, by omega⟩
    have : i = end_ := by simpa using he.symm
    rw [detectEdgeLoop_succ, if_pos this]
    simp [this]
  | succ n ih =>
    intro fuel i edge gap he hf hw
    obtain ⟨f, rfl⟩ : ∃ f, fuel = f + 1 := ⟨fuel - 1, by omega⟩
    have hne : i ≠ end_ := by
      intro h
      have : ((n : Int) + 1) * inc = 0 := by push_cast at he; linarith
      rcases mul_eq_zero.mp this with h1 | h1
      · omega
      · exact hinc h1
    have h0 : sample img orient i (mid - quarter mid) = color1 := by
      simpa using hw 0 (by omega)
    have hb := scanBand_hit img orient i (mid + quarter mid) gap (mid - quarter mid) h0
      (by omega) bandFuel (mid - quarter mid) edge gap (le_refl _) (by omega)
    rw [detectEdgeLoop_step img end_ inc mid orient bandFuel f i edge gap _ _ hne hb,
      if_neg (by norm_num),
      ih f (i + inc) i 0 (by push_cast at he ⊢; linarith) (by omega) (fun k hk => by
        have := hw (k + 1) (by omega)
        rw [show i + inc + (k : Int) * inc = i + ((k + 1 : Nat) : Int) * inc by push_cast; ring]
        exact this)]
    have hend : end_ - inc = i + n * inc := by push_cast at he; linarith
    by_cases hn : n = 0
    · subst hn; simp at hend; simp [hend]
    · simp [hn]

/-- With enough fuel every scan towards `end_` returns, and the returned
`edge` is the initial one or a scan line strictly before `end_`. -/
theorem detectEdgeLoop_total (img : QImage) (end_ inc mid : Int) (orient : Orientation)
    (bandFuel : Nat) (hq : 0 ≤ quarter mid) (hbf : (2 * quarter mid).toNat < bandFuel)
    (hinc : inc ≠ 0) :
    ∀ (n fuel : Nat) (i edge gap : Int), end_ = i + n * inc → n < fuel →
      ∃ st, detectEdgeLoop img end_ inc mid orient bandFuel fuel i edge gap = some st ∧
        (st.edge = edge ∨ ∃ k : Nat, k < n ∧ st.edge = i + k * inc) := by
  intro n
  induction n with
  | zero =>
    intro fuel i edge gap he hf
    obtain ⟨f, rfl⟩ : ∃ f, fuel = f + 1 := ⟨fuel - 1, by omega⟩
    refine ⟨⟨i, edge, gap⟩, ?_, Or.inl rfl⟩
    rw [detectEdgeLoop_succ, if_pos (by simpa using he.symm)]
  | succ n ih =>
    intro fuel i edge gap he hf
    obtain ⟨f, rfl⟩ : ∃ f, fuel = f + 1 := ⟨fuel - 1, by omega⟩
    have hne : i ≠ end_ := by
      intro h
      have : ((n : Int) + 1) * inc = 0 := by push_cast at he; linarith
      rcases mul_eq_zero.mp this with h1 | h1
      · omega
      · exact hinc h1
    obtain ⟨e, g, hb, he'⟩ := scanBand_total img orient i (mid + quarter mid) gap bandFuel
      (mid - quarter mid) edge gap (by omega) (by omega)
    rw [detectEdgeLoop_step img end_ inc mid orient bandFuel f i edge gap _ _ hne hb]
    have hcur : e = edge ∨ e = i + ((0 : Nat) : Int) * inc := by
      rcases he' with ⟨h, _⟩ | ⟨h, _⟩
      · exact Or.inl h
      · right; simp [h]
    split_ifs with h1
    · refine ⟨_, rfl, ?_⟩
      rcases hcur with h | h
      · exact Or.inl h
      · exact Or.inr ⟨0, by omega, h⟩
    · obtain ⟨st, hst, hr⟩ := ih f (i + inc) e g (by push_cast at he ⊢; linarith) (by omega)
      refine ⟨st, hst, ?_⟩
      rcases hr with h | ⟨k, hk, h⟩
      · rcases hcur with h2 | h2
        · exact Or.inl (h.trans h2)
        · exact Or.inr ⟨0, by omega, h.trans h2⟩
      · refine Or.inr ⟨k + 1, by omega, ?_⟩
        rw [h]; push_cast; ring

/-! ## More fuel never changes a result -/

theorem scanBand_mono (img : QImage) (orient : Orientation) (i me og : Int) :
    ∀ (fuel fuel' : Nat) (j edge gap : Int) (res : Int × Int), fuel ≤ fuel' →
      scanBand img orient i me og fuel j edge gap = some res →
      scanBand img orient i me og fuel' j edge gap = some res := by
  intro fuel
  induction fuel with
  | zero => intro fuel' j edge gap res _ h; simp [scanBand] at h
  | succ k ih =>
    intro fuel' j edge gap res hle h
    obtain ⟨f, rfl⟩ : ∃ f, fuel' = f + 1 := ⟨fuel' - 1, by omega⟩
    rw [scanBand_succ] at h ⊢
    by_cases h1 : j = me
    · rw [if_pos h1] at h ⊢; exact h
    · rw [if_neg h1] at h ⊢
      by_cases h2 : sample img orient i j = color1
      · rw [if_pos h2] at h ⊢; exact h
      · rw [if_neg h2] at h ⊢
        exact ih f (j + 1) edge _ res (by omega) h

theorem detectEdgeLoop_mono (img : QImage) (end_ inc mid : Int) (orient : Orientation)
    (bandFuel bandFuel' : Nat) (hb : bandFuel ≤ bandFuel') :
    ∀ (fuel fuel' : Nat) (i edge gap : Int) (st : ScanState), fuel ≤ fuel' →
      detectEdgeLoop img end_ inc mid orient bandFuel fuel i edge gap = some st →
      detectEdgeLoop img end_ inc mid orient bandFuel' fuel' i edge gap = some st := by
  intro fuel
  induction fuel with
  | zero => intro fuel' i edge gap st _ h; simp [detectEdgeLoop] at h
  | succ k ih =>
    intro fuel' i edge gap st hle h
    obtain ⟨f, rfl⟩ : ∃ f, fuel' = f + 1 := ⟨fuel' - 1, by omega⟩
    rw [detectEdgeLoop_succ] at h ⊢
    by_cases h1 : i = end_
    · rw [if_pos h1] at h ⊢; exact h
    · rw [if_neg h1] at h ⊢
      cases hs : scanBand img orient i (mid + quarter mid) gap bandFuel (mid - quarter mid)
        edge gap with
      | none => rw [hs] at h; simp at h
      | some res =>
        obtain ⟨e, g⟩ := res
        rw [hs] at h
        rw [scanBand_mono img orient i _ gap bandFuel bandFuel' _ edge gap (e, g) hb hs]
        simp only at h ⊢
        split_ifs at h ⊢ with h2
        · exact h
        · exact ih f (i + inc) e g st (by omega) h

theorem detectEdge_mono (fuel fuel' : Nat) (hle : fuel ≤ fuel') (img : QImage)
    (start end_ inc mid : Int) (orient : Orientation) (e : Int)
    (h : detectEdge fuel img start end_ inc mid orient = some e) :
    detectEdge fuel' img start end_ inc mid orient = some e := by
  unfold detectEdge at h ⊢
  cases hs : detectEdgeLoop img end_ inc mid orient fuel fuel start start 0 with
  | none => rw [hs] at h; simp at h
  | some st =>
    rw [hs] at h
    rw [detectEdgeLoop_mono img end_ inc mid orient fuel fuel' hle fuel fuel' start start 0 st
      hle hs]
    exact h

theorem detectBorders_mono (fuel fuel' : Nat) (hle : fuel ≤ fuel') (img : QImage)
    (rect : QRect) (h : detectBorders fuel img = some rect) :
    detectBorders fuel' img = some rect := by
  unfold detectBorders at h ⊢
  simp only [Option.bind_eq_some] at h ⊢
  obtain ⟨l, hl, t, ht, r, hr, b, hb, hres⟩ := h
  exact ⟨l, detectEdge_mono fuel fuel' hle _ _ _ _ _ _ _ hl,
    t, detectEdge_mono fuel fuel' hle _ _ _ _ _ _ _ ht,
    r, detectEdge_mono fuel fuel' hle _ _ _ _ _ _ _ hr,
    b, detectEdge_mono fuel fuel' hle _ _ _ _ _ _ _ hb, hres⟩

theorem fineTuneCorner_succ (img : QImage) (inc_x inc_y : Int) (fuel : Nat) (x y : Int) :
    fineTuneCorner img inc_x inc_y (fuel + 1) x y =
      if img.pixelIndex x y ≠ color1 ∨ x + inc_x < 0 ∨ x + inc_x > (img.width : Int) - 1
          ∨ y + inc_y < 0 ∨ y + inc_y > (img.height : Int) - 1 then
        some (x, y)
      else fineTuneCorner img inc_x inc_y fuel (x + inc_x) (y + inc_y) :=
  rfl

theorem fineTuneCorner_mono (img : QImage) (inc_x inc_y : Int) :
    ∀ (fuel fuel' : Nat) (x y : Int) (res : Int × Int), fuel ≤ fuel' →
      fineTuneCorner img inc_x inc_y fuel x y = some res →
      fineTuneCorner img inc_x inc_y fuel' x y = some res := by
  intro fuel
  induction fuel with
  | zero => intro fuel' x y res _ h; simp [fineTuneCorner] at h
  | succ k ih =>
    intro fuel' x y res hle h
    obtain ⟨f, rfl⟩ : ∃ f, fuel' = f + 1 := ⟨fuel' - 1, by omega⟩
    rw [fineTuneCorner_succ] at h ⊢
    split_ifs at h ⊢ with h1
    · exact h
    · exact ih f _ _ res (by omega) h

theorem fineTuneCorners_mono (fuel fuel' : Nat) (hle : fuel ≤ fuel') (img : QImage)
    (rect res : QRect) (h : fineTuneCorners fuel img rect = some res) :
    fineTuneCorners fuel' img rect = some res := by
  unfold fineTuneCorners at h ⊢
  simp only [Option.bind_eq_some] at h ⊢
  obtain ⟨p1, h1, p2, h2, p3, h3, p4, h4, hres⟩ := h
  exact ⟨p1, fineTuneCorner_mono img _ _ fuel fuel' _ _ _ hle h1,
    p2, fineTuneCorner_mono img _ _ fuel fuel' _ _ _ hle h2,
    p3, fineTuneCorner_mono img _ _ fuel fuel' _ _ _ hle h3,
    p4, fineTuneCorner_mono img _ _ fuel fuel' _ _ _ hle h4, hres⟩

theorem detectAndTune_mono (fuel fuel' : Nat) (hle : fuel ≤ fuel') (img : QImage)
    (res : QRect) (h : detectAndTune fuel img = some res) :
    detectAndTune fuel' img = some res := by
  unfold detectAndTune at h ⊢
  simp only [Option.bind_eq_some] at h ⊢
  obtain ⟨rect, h1, h2⟩ := h
  exact ⟨rect, detectBorders_mono fuel fuel' hle img rect h1,
    fineTuneCorners_mono fuel fuel' hle img rect res h2⟩

/-- Whatever the fuel, two runs that return agree. -/
theorem detectAndTune_det (fuel fuel' : Nat) (img : QImage) (res res' : QRect)
    (h : detectAndTune fuel img = some res) (h' : detectAndTune fuel' img = some res') :
    res = res' := by
  have a := detectAndTune_mono fuel (max fuel fuel') (le_max_left _ _) img res h
  have b := detectAndTune_mono fuel' (max fuel fuel') (le_max_right _ _) img res' h'
  rw [a] at b
  exact Option.some.inj b

/-! ## detectEdge on particular kinds of scan -/

/-- The inner loop needs at most `mid` units of fuel. -/
theorem band_fuel (mid : Int) (fuel : Nat) (hmid : 0 ≤ mid) (hf : mid < fuel) :
    0 ≤ quarter mid ∧ (2 * quarter mid).toNat < fuel := by
  have := quarter_of_nonneg mid hmid
  omega

/-- A scan whose first 21 bands (or all of them, when there are fewer) hold no
black sample returns `start`. -/
theorem detectEdge_of_miss (fuel : Nat) (img : QImage) (start end_ inc mid : Int)
    (orient : Orientation) (n : Nat) (hmid : 0 ≤ mid) (hbf : mid < fuel) (hinc : inc ≠ 0)
    (he : end_ = start + n * inc) (hn : n < fuel)
    (hw : ∀ k : Nat, k < n → k ≤ 20 → ∀ j, mid - quarter mid ≤ j → j < mid + quarter mid →
      sample img orient (start + k * inc) j ≠ color1) :
    detectEdge fuel img start end_ inc mid orient = some start := by
  obtain ⟨hq, hb⟩ := band_fuel mid fuel hmid hbf
  obtain ⟨st, hst, hedge⟩ := detectEdgeLoop_miss img end_ inc mid orient fuel hq hb hinc n fuel
    start start 0 he hn (by norm_num) (fun k hk hk' => hw k hk (by omega))
  unfold detectEdge
  rw [hst]
  simp [hedge]

/-- A scan over at least one line whose bands all start with a black sample
runs up to `end_` with `gap = 0` and returns the line before `end_`. -/
theorem detectEdge_of_allHit (fuel : Nat) (img : QImage) (start end_ inc mid : Int)
    (orient : Orientation) (n : Nat) (hmid : 4 ≤ mid) (hinc : inc ≠ 0)
    (he : end_ = start + n * inc) (hn0 : 0 < n) (hn : n < fuel)
    (hw : ∀ k : Nat, k < n → sample img orient (start + k * inc) (mid - quarter mid) = color1) :
    detectEdgeLoop img end_ inc mid orient fuel fuel start start 0 = some ⟨end_, end_ - inc, 0⟩ ∧
    detectEdge fuel img start end_ inc mid orient = some (end_ - inc) := by
  have hq : 1 ≤ quarter mid := by
    have := quarter_of_nonneg mid (by omega)
    omega
  have h := detectEdgeLoop_allHit img end_ inc mid orient fuel hq (by omega) hinc n fuel
    start start 0 he hn hw
  rw [if_neg (by omega), if_neg (by omega)] at h
  refine ⟨h, ?_⟩
  unfold detectEdge
  rw [h]
  rfl

/-- With enough fuel a scan towards `end_` returns `start` or a scan line
strictly before `end_`. -/
theorem detectEdge_total (fuel : Nat) (img : QImage) (start end_ inc mid : Int)
    (orient : Orientation) (n : Nat) (hmid : 0 ≤ mid) (hbf : mid < fuel) (hinc : inc ≠ 0)
    (he : end_ = start + n * inc) (hn : n < fuel) :
    ∃ e, detectEdge fuel img start end_ inc mid orient = some e ∧
      (e = start ∨ ∃ k : Nat, k < n ∧ e = start + k * inc) := by
  obtain ⟨hq, hb⟩ := band_fuel mid fuel hmid hbf
  obtain ⟨st, hst, hedge⟩ := detectEdgeLoop_total img end_ inc mid orient fuel hq hb hinc n fuel
    start start 0 he hn
  refine ⟨st.edge, ?_, hedge⟩
  unfold detectEdge
  rw [hst]
  rfl

/-- On an image without black pixels no sample is black. -/
theorem sample_ne_of_white (img : QImage) (hwhite : ∀ x y, img.black x y = false)
    (orient : Orientation) (i j : Int) : sample img orient i j ≠ color1 := by
  unfold sample QImage.pixelIndex color1 outOfRange
  split_ifs <;> simp_all

/-- The midpoints of `detectBorders` are within the image and need less fuel
than `width + height`. -/
theorem goldenMid_fuel (img : QImage) (hw : 1 ≤ img.width) (hh : 1 ≤ img.height) (fuel : Nat)
    (hf : img.width + img.height < fuel) :
    0 ≤ goldenMid ((img.width : Int) - 1) ∧ goldenMid ((img.width : Int) - 1) < fuel ∧
    0 ≤ goldenMid ((img.height : Int) - 1) ∧ goldenMid ((img.height : Int) - 1) < fuel := by
  have a := goldenMid_of_nonneg ((img.width : Int) - 1) (by omega)
  have b := goldenMid_of_nonneg ((img.height : Int) - 1) (by omega)
  omega

theorem detectBorders_of_edges (fuel : Nat) (img : QImage) (l t r b : Int)
    (hl : detectEdge fuel img 0 ((img.width : Int) - 1) 1 (goldenMid ((img.height : Int) - 1))
      Orientation.Horizontal = some l)
    (ht : detectEdge fuel img 0 ((img.height : Int) - 1) 1 (goldenMid ((img.width : Int) - 1))
      Orientation.Vertical = some t)
    (hr : detectEdge fuel img ((img.width : Int) - 1) 0 (-1)
      (goldenMid ((img.height : Int) - 1)) Orientation.Horizontal = some r)
    (hb : detectEdge fuel img ((img.height : Int) - 1) t (-1)
      (goldenMid ((img.width : Int) - 1)) Orientation.Vertical = some b) :
    detectBorders fuel img = some ⟨l, t, r, b⟩ := by
  unfold detectBorders
  simp only [hl, ht, hr, hb, Option.some_bind, QRect.ofSize]
  congr 2 <;> omega

/-- The four scans of an image without black pixels. -/
theorem white_edges (img : QImage) (hw : 1 ≤ img.width) (hh : 1 ≤ img.height)
    (hwhite : ∀ x y, img.black x y = false) (fuel : Nat)
    (hf : img.width + img.height < fuel) :
    detectEdge fuel img 0 ((img.width : Int) - 1) 1 (goldenMid ((img.height : Int) - 1))
      Orientation.Horizontal = some 0 ∧
    detectEdge fuel img 0 ((img.height : Int) - 1) 1 (goldenMid ((img.width : Int) - 1))
      Orientation.Vertical = some 0 ∧
    detectEdge fuel img ((img.width : Int) - 1) 0 (-1) (goldenMid ((img.height : Int) - 1))
      Orientation.Horizontal = some ((img.width : Int) - 1) ∧
    detectEdge fuel img ((img.height : Int) - 1) 0 (-1) (goldenMid ((img.width : Int) - 1))
      Orientation.Vertical = some ((img.height : Int) - 1) := by
  obtain ⟨hx0, hxf, hy0, hyf⟩ := goldenMid_fuel img hw hh fuel hf
  refine ⟨?_, ?_, ?_, ?_⟩
  · exact detectEdge_of_miss fuel img _ _ 1 _ _ (img.width - 1) hy0 hyf (by norm_num)
      (by push_cast [Nat.cast_sub hw]; ring) (by omega)
      (fun k _ _ j _ _ => sample_ne_of_white img hwhite _ _ _)
  · exact detectEdge_of_miss fuel img _ _ 1 _ _ (img.height - 1) hx0 hxf (by norm_num)
      (by push_cast [Nat.cast_sub hh]; ring) (by omega)
      (fun k _ _ j _ _ => sample_ne_of_white img hwhite _ _ _)
  · exact detectEdge_of_miss fuel img _ _ (-1) _ _ (img.width - 1) hy0 hyf (by norm_num)
      (by push_cast [Nat.cast_sub hw]; ring) (by omega)
      (fun k _ _ j _ _ => sample_ne_of_white img hwhite _ _ _)
  · exact detectEdge_of_miss fuel img _ _ (-1) _ _ (img.height - 1) hx0 hxf (by norm_num)
      (by push_cast [Nat.cast_sub hh]; ring) (by omega)
      (fun k _ _ j _ _ => sample_ne_of_white img hwhite _ _ _)

/-! ## fineTuneCorner -/

/-- A corner that is not black (or lies outside the image) is not moved. -/
theorem fineTuneCorner_of_not_black (img : QImage) (inc_x inc_y : Int) (fuel : Nat)
    (x y : Int) (hf : 0 < fuel) (h : img.pixelIndex x y ≠ color1) :
    fineTuneCorner img inc_x inc_y fuel x y = some (x, y) := by
  obtain ⟨f, rfl⟩ : ∃ f, fuel = f + 1 := ⟨fuel - 1, by omega⟩
  rw [fineTuneCorner_succ, if_pos (Or.inl h)]

/-- A rectangle whose four corners are not black is left as it is. -/
theorem fineTuneCorners_of_not_black (fuel : Nat) (img : QImage) (rect : QRect) (hf : 0 < fuel)
    (h1 : img.pixelIndex rect.left rect.top ≠ color1)
    (h2 : img.pixelIndex rect.right rect.top ≠ color1)
    (h3 : img.pixelIndex rect.left rect.bottom ≠ color1)
    (h4 : img.pixelIndex rect.right rect.bottom ≠ color1) :
    fineTuneCorners fuel img rect = some rect := by
  unfold fineTuneCorners
  simp only [fineTuneCorner_of_not_black img _ _ fuel _ _ hf h1,
    fineTuneCorner_of_not_black img _ _ fuel _ _ hf h2,
    fineTuneCorner_of_not_black img _ _ fuel _ _ hf h3,
    fineTuneCorner_of_not_black img _ _ fuel _ _ hf h4, Option.some_bind]
  rfl

/-! ## The 400x300 scenario -/

theorem scenario_mids : goldenMid 399 = 152 ∧ goldenMid 299 = 114 ∧
    quarter 152 = 38 ∧ quarter 114 = 28 := by decide

theorem scenario_sample (orient : Orientation) (i j : Int)
    (h : (orient = Orientation.Horizontal ∧ (i < 50 ∨ 349 < i)) ∨
      (orient = Orientation.Vertical ∧ (i < 50 ∨ 249 < i))) :
    sample scenarioImage orient i j ≠ color1 := by
  unfold sample QImage.pixelIndex scenarioImage color1 outOfRange
  rcases h with ⟨rfl, h⟩ | ⟨rfl, h⟩
  · simp only [reduceCtorEq, if_false]
    split_ifs with h1 h2
    · norm_num
    · simp only [decide_eq_true_eq] at h2; omega
    · norm_num
  · simp only [if_true]
    split_ifs with h1 h2
    · norm_num
    · simp only [decide_eq_true_eq] at h2; omega
    · norm_num

theorem scenario_detectBorders (fuel : Nat) (hf : 700 < fuel) :
    detectBorders fuel scenarioImage = some ⟨0, 0, 399, 299⟩ := by
  obtain ⟨hx, hy, _, _⟩ := scenario_mids
  have hw : ((scenarioImage.width : Int) - 1) = 399 := by norm_num [scenarioImage]
  have hh : ((scenarioImage.height : Int) - 1) = 299 := by norm_num [scenarioImage]
  apply detectBorders_of_edges <;> simp only [hw, hh, hx, hy]
  · exact detectEdge_of_miss fuel _ _ _ 1 _ _ 399 (by norm_num) (by omega) (by norm_num)
      (by norm_num) (by omega)
      (fun k _ hk j _ _ => scenario_sample _ _ _ (Or.inl ⟨rfl, Or.inl (by omega)⟩))
  · exact detectEdge_of_miss fuel _ _ _ 1 _ _ 299 (by norm_num) (by omega) (by norm_num)
      (by norm_num) (by omega)
      (fun k _ hk j _ _ => scenario_sample _ _ _ (Or.inr ⟨rfl, Or.inl (by omega)⟩))
  · exact detectEdge_of_miss fuel _ _ _ (-1) _ _ 399 (by norm_num) (by omega) (by norm_num)
      (by norm_num) (by omega)
      (fun k _ hk j _ _ => scenario_sample _ _ _ (Or.inl ⟨rfl, Or.inr (by omega)⟩))
  · exact detectEdge_of_miss fuel _ _ _ (-1) _ _ 299 (by norm_num) (by omega) (by norm_num)
      (by norm_num) (by omega)
      (fun k _ hk j _ _ => scenario_sample _ _ _ (Or.inr ⟨rfl, Or.inr (by omega)⟩))

theorem scenario_detectAndTune (fuel : Nat) (hf : 700 < fuel) :
    detectAndTune fuel scenarioImage = some ⟨0, 0, 399, 299⟩ := by
  unfold detectAndTune
  rw [scenario_detectBorders fuel hf, Option.some_bind]
  apply fineTuneCorners_of_not_black _ _ _ (by omega) <;> decide

/-! ## C1: the 400x300 scenario -/

/-- C1, refuted as stated: on the 400x300 image that is white except for the
black rectangle (50,50)-(349,249), detectBorders followed by fineTuneCorners
does return a rectangle, and whatever the fuel no rectangle it returns has its
four edges within 5 pixels of (50,50)-(349,249). -/
theorem scenario_edges_not_near_box :
    (∃ fuel rect, detectAndTune fuel scenarioImage = some rect) ∧
    ∀ fuel rect, detectAndTune fuel scenarioImage = some rect → ¬ nearScenarioBox rect := by
  refine ⟨⟨701, _, scenario_detectAndTune 701 (by norm_num)⟩, ?_⟩
  intro fuel rect h hnear
  have := detectAndTune_det fuel 701 scenarioImage rect _ h
    (scenario_detectAndTune 701 (by norm_num))
  subst this
  unfold nearScenarioBox QRect.left at hnear
  have h1 := hnear.1
  norm_num at h1

/-- C1, amended: on the 400x300 image that is white except for the black
rectangle (50,50)-(349,249), every side scan gives up after 21 white scan
lines, so detectBorders followed by fineTuneCorners returns the whole image,
left = 0, top = 0, right = 399, bottom = 299 (width 400, height 300). -/
theorem scenario_returns_full_image (fuel : Nat) (hf : 700 < fuel) :
    detectBorders fuel scenarioImage = some ⟨0, 0, 399, 299⟩ ∧
    detectAndTune fuel scenarioImage = some ⟨0, 0, 399, 299⟩ ∧
    QRect.width ⟨0, 0, 399, 299⟩ = 400 ∧ QRect.height ⟨0, 0, 399, 299⟩ = 300 :=
  ⟨scenario_detectBorders fuel hf, scenario_detectAndTune fuel hf, by decide, by decide⟩

/-- C1, witness of the amended statement with fuel 701. -/
theorem scenario_returns_full_image_witness :
    700 < 701 ∧ detectAndTune 701 scenarioImage = some ⟨0, 0, 399, 299⟩ :=
  ⟨by decide, (scenario_returns_full_image 701 (by decide)).2.1⟩

/-! ## C5: images without black pixels -/

/-- C5: on every image of width and height at least 1 without a black pixel,
each of the four scans of detectBorders returns its start value, so
detectBorders returns left = 0, top = 0, right = width - 1, bottom = height - 1,
a rectangle of the width and height of the image. -/
theorem white_image_full_rect (img : QImage) (hw : 1 ≤ img.width) (hh : 1 ≤ img.height)
    (hwhite : ∀ x y, img.black x y = false) (fuel : Nat)
    (hf : img.width + img.height < fuel) :
    detectEdge fuel img 0 ((img.width : Int) - 1) 1 (goldenMid ((img.height : Int) - 1))
      Orientation.Horizontal = some 0 ∧
    detectEdge fuel img 0 ((img.height : Int) - 1) 1 (goldenMid ((img.width : Int) - 1))
      Orientation.Vertical = some 0 ∧
    detectEdge fuel img ((img.width : Int) - 1) 0 (-1) (goldenMid ((img.height : Int) - 1))
      Orientation.Horizontal = some ((img.width : Int) - 1) ∧
    detectEdge fuel img ((img.height : Int) - 1) 0 (-1) (goldenMid ((img.width : Int) - 1))
      Orientation.Vertical = some ((img.height : Int) - 1) ∧
    ∃ rect, detectBorders fuel img = some rect ∧
      rect.left = 0 ∧ rect.top = 0 ∧ rect.right = (img.width : Int) - 1 ∧
      rect.bottom = (img.height : Int) - 1 ∧
      rect.width = img.width ∧ rect.height = img.height := by
  obtain ⟨h1, h2, h3, h4⟩ := white_edges img hw hh hwhite fuel hf
  refine ⟨h1, h2, h3, h4, _, detectBorders_of_edges fuel img _ _ _ _ h1 h2 h3 h4,
    rfl, rfl, rfl, rfl, ?_, ?_⟩
  · simp [QRect.width]
  · simp [QRect.height]

/-- C5, witness: the all-white 30x20 image. -/
theorem white_image_full_rect_witness :
    (1 ≤ (allWhite 30 20).width ∧ 1 ≤ (allWhite 30 20).height ∧
      (∀ x y, (allWhite 30 20).black x y = false) ∧
      (allWhite 30 20).width + (allWhite 30 20).height < 51) ∧
    ∃ rect, detectBorders 51 (allWhite 30 20) = some rect ∧
      rect.left = 0 ∧ rect.top = 0 ∧ rect.right = ((allWhite 30 20).width : Int) - 1 ∧
      rect.bottom = ((allWhite 30 20).height : Int) - 1 ∧
      rect.width = (allWhite 30 20).width ∧ rect.height = (allWhite 30 20).height :=
  ⟨⟨by decide, by decide, fun _ _ => rfl, by decide⟩,
    (white_image_full_rect (allWhite 30 20) (by decide) (by decide) (fun _ _ => rfl) 51
      (by decide)).2.2.2.2⟩

theorem fineTuneCornerReads_succ (img : QImage) (inc_x inc_y : Int) (fuel : Nat) (x y : Int) :
    fineTuneCornerReads img inc_x inc_y (fuel + 1) x y =
      if cornerStuck img inc_x inc_y x y then some ((x, y), [(x, y)])
      else (fineTuneCornerReads img inc_x inc_y fuel (x + inc_x) (y + inc_y)).map
        fun res => (res.1, (x, y) :: res.2) :=
  rfl

theorem fineTuneCorner_stuck (img : QImage) (inc_x inc_y : Int) (fuel : Nat) (x y : Int) :
    fineTuneCorner img inc_x inc_y (fuel + 1) x y =
      if cornerStuck img inc_x inc_y x y then some (x, y)
      else fineTuneCorner img inc_x inc_y fuel (x + inc_x) (y + inc_y) := by
  rw [fineTuneCorner_succ]
  unfold cornerStuck
  split_ifs <;> rfl

/-- Dropping the list of reads gives `fineTuneCorner`. -/
theorem fineTuneCornerReads_fst (img : QImage) (inc_x inc_y : Int) :
    ∀ (fuel : Nat) (x y : Int),
      (fineTuneCornerReads img inc_x inc_y fuel x y).map Prod.fst =
        fineTuneCorner img inc_x inc_y fuel x y := by
  intro fuel
  induction fuel with
  | zero => intro x y; rfl
  | succ k ih =>
    intro x y
    rw [fineTuneCornerReads_succ, fineTuneCorner_stuck]
    by_cases h : cornerStuck img inc_x inc_y x y
    · rw [if_pos h, if_pos h]; rfl
    · rw [if_neg h, if_neg h, ← ih]
      simp [Option.map_map, Function.comp_def]

/-- The walk of one corner: it returns after `k` diagonal steps, `k = 0`
exactly when the start is already stuck, the corner it returns is stuck, and a
walk that starts inside the image stays and reads inside the image. -/
theorem fineTuneCornerReads_spec (img : QImage) (inc_x inc_y : Int)
    (hx : inc_x = 1 ∨ inc_x = -1) :
    ∀ (n fuel : Nat) (x y : Int), n < fuel →
      (if inc_x = 1 then (img.width : Int) - 1 - x else x) ≤ n →
      ∃ (k : Nat) (reads : List (Int × Int)),
        fineTuneCornerReads img inc_x inc_y fuel x y =
          some ((x + k * inc_x, y + k * inc_y), reads) ∧
        (k = 0 ↔ cornerStuck img inc_x inc_y x y) ∧
        cornerStuck img inc_x inc_y (x + k * inc_x) (y + k * inc_y) ∧
        (img.inside (x, y) →
          img.inside (x + k * inc_x, y + k * inc_y) ∧ ∀ p ∈ reads, img.inside p) := by
  intro n
  induction n with
  | zero =>
    intro fuel x y hf hm
    obtain ⟨f, rfl⟩ : ∃ f, fuel = f + 1 := ⟨fuel - 1, by omega⟩
    have hs : cornerStuck img inc_x inc_y x y := by
      unfold cornerStuck
      by_contra hc
      push_neg at hc
      rcases hx with h | h <;> subst h <;> simp at hm <;> omega
    refine ⟨0, [(x, y)], ?_, by simp [hs], by simpa using hs, ?_⟩
    · rw [fineTuneCornerReads_succ, if_pos hs]; simp
    · intro hin
      simpa using hin
  | succ n ih =>
    intro fuel x y hf hm
    obtain ⟨f, rfl⟩ : ∃ f, fuel = f + 1 := ⟨fuel - 1, by omega⟩
    by_cases hs : cornerStuck img inc_x inc_y x y
    · refine ⟨0, [(x, y)], ?_, by simp [hs], by simpa using hs, ?_⟩
      · rw [fineTuneCornerReads_succ, if_pos hs]; simp
      · intro hin
        simpa using hin
    · have hs' := hs
      unfold cornerStuck at hs'
      push_neg at hs'
      obtain ⟨hpix, h1, h2, h3, h4⟩ := hs'
      obtain ⟨k, reads, hres, _, hstuck, hin⟩ := ih f (x + inc_x) (y + inc_y) (by omega)
        (by rcases hx with h | h <;> subst h <;> simp at hm ⊢ <;> omega)
      have hnext : img.inside (x + inc_x, y + inc_y) := ⟨h1, h2, h3, h4⟩
      have e1 : x + inc_x + (k : Int) * inc_x = x + ((k + 1 : Nat) : Int) * inc_x := by
        push_cast; ring
      have e2 : y + inc_y + (k : Int) * inc_y = y + ((k + 1 : Nat) : Int) * inc_y := by
        push_cast; ring
      rw [e1, e2] at hres hstuck hin
      refine ⟨k + 1, (x, y) :: reads, ?_, ?_, hstuck, ?_⟩
      · rw [fineTuneCornerReads_succ, if_neg hs, hres]; rfl
      · constructor
        · intro h; omega
        · intro h; exact absurd h hs
      · intro hxy
        obtain ⟨ha, hb⟩ := hin hnext
        refine ⟨ha, ?_⟩
        intro p hp
        rcases List.mem_cons.mp hp with h | h
        · rw [h]; exact hxy
        · exact hb p h

/-- The walk of one corner with enough fuel, whatever the start. -/
theorem fineTuneCornerReads_returns (img : QImage) (inc_x inc_y : Int)
    (hx : inc_x = 1 ∨ inc_x = -1) (fuel : Nat) (hf : img.width < fuel) (x y : Int) :
    ∃ (k : Nat) (reads : List (Int × Int)),
      fineTuneCornerReads img inc_x inc_y fuel x y =
        some ((x + k * inc_x, y + k * inc_y), reads) ∧
      fineTuneCorner img inc_x inc_y fuel x y = some (x + k * inc_x, y + k * inc_y) ∧
      (k = 0 ↔ cornerStuck img inc_x inc_y x y) ∧
      cornerStuck img inc_x inc_y (x + k * inc_x) (y + k * inc_y) ∧
      (img.inside (x, y) →
        img.inside (x + k * inc_x, y + k * inc_y) ∧ ∀ p ∈ reads, img.inside p) := by
  have key : ∃ n : Nat, n < fuel ∧ ((if inc_x = 1 then (img.width : Int) - 1 - x else x) ≤ n ∨
      cornerStuck img inc_x inc_y x y) := by
    by_cases hr : 0 ≤ x ∧ x ≤ (img.width : Int) - 1
    · refine ⟨img.width, hf, Or.inl ?_⟩
      split_ifs <;> omega
    · refine ⟨0, by omega, Or.inr (Or.inl ?_)⟩
      unfold QImage.pixelIndex color1 outOfRange
      rw [if_pos (by omega)]
      norm_num
  obtain ⟨n, hn, hcase⟩ := key
  have main : ∃ (k : Nat) (reads : List (Int × Int)),
      fineTuneCornerReads img inc_x inc_y fuel x y =
        some ((x + k * inc_x, y + k * inc_y), reads) ∧
      (k = 0 ↔ cornerStuck img inc_x inc_y x y) ∧
      cornerStuck img inc_x inc_y (x + k * inc_x) (y + k * inc_y) ∧
      (img.inside (x, y) →
        img.inside (x + k * inc_x, y + k * inc_y) ∧ ∀ p ∈ reads, img.inside p) := by
    rcases hcase with h | hs
    · exact fineTuneCornerReads_spec img inc_x inc_y hx n fuel x y hn h
    · obtain ⟨f, rfl⟩ : ∃ f, fuel = f + 1 := ⟨fuel - 1, by omega⟩
      refine ⟨0, [(x, y)], ?_, by simp [hs], by simpa using hs, ?_⟩
      · rw [fineTuneCornerReads_succ, if_pos hs]; simp
      · intro hin
        simpa using hin
  obtain ⟨k, reads, h1, h2, h3, h4⟩ := main
  refine ⟨k, reads, h1, ?_, h2, h3, h4⟩
  rw [← fineTuneCornerReads_fst, h1]
  rfl

/-- Dropping the list of reads gives `fineTuneCorners`. -/
theorem fineTuneCornersReads_fst (fuel : Nat) (img : QImage) (rect : QRect) :
    (fineTuneCornersReads fuel img rect).map Prod.fst = fineTuneCorners fuel img rect := by
  unfold fineTuneCornersReads fineTuneCorners
  simp only [← fineTuneCornerReads_fst]
  cases h1 : fineTuneCornerReads img 1 1 fuel rect.left rect.top with
  | none => rfl
  | some p1 =>
    obtain ⟨⟨l1, t1⟩, r1⟩ := p1
    simp only [Option.some_bind, Option.map_some']
    cases h2 : fineTuneCornerReads img (-1) 1 fuel rect.right t1 with
    | none => rfl
    | some p2 =>
      obtain ⟨⟨r2, t2⟩, rd2⟩ := p2
      simp only [Option.some_bind, Option.map_some']
      cases h3 : fineTuneCornerReads img 1 (-1) fuel l1 rect.bottom with
      | none => rfl
      | some p3 =>
        obtain ⟨⟨l3, b3⟩, rd3⟩ := p3
        simp only [Option.some_bind, Option.map_some']
        cases h4 : fineTuneCornerReads img (-1) (-1) fuel r2 b3 with
        | none => rfl
        | some p4 =>
          obtain ⟨⟨r4, b4⟩, rd4⟩ := p4
          rfl

/-- The four corner walks of `fineTuneCorners` in terms of their step counts
`k1 .. k4`: each walk starts from the edges the earlier walks left behind. -/
theorem fineTuneCornersReads_spec (fuel : Nat) (img : QImage) (rect : QRect)
    (hf : img.width < fuel) :
    ∃ (k1 k2 k3 k4 : Nat) (reads : List (Int × Int)),
      fineTuneCornersReads fuel img rect =
        some (⟨rect.left + k1 + k3, rect.top + k1 + k2, rect.right - k2 - k4,
          rect.bottom - k3 - k4⟩, reads) ∧
      (k1 = 0 ↔ cornerStuck img 1 1 rect.left rect.top) ∧
      (k2 = 0 ↔ cornerStuck img (-1) 1 rect.right (rect.top + k1)) ∧
      (k3 = 0 ↔ cornerStuck img 1 (-1) (rect.left + k1) rect.bottom) ∧
      (k4 = 0 ↔ cornerStuck img (-1) (-1) (rect.right - k2) (rect.bottom - k3)) ∧
      fineTuneCorner img (-1) (-1) fuel (rect.right - k2) (rect.bottom - k3) =
        some (rect.right - k2 - k4, rect.bottom - k3 - k4) ∧
      (img.contains rect →
        img.contains ⟨rect.left + k1 + k3, rect.top + k1 + k2, rect.right - k2 - k4,
          rect.bottom - k3 - k4⟩ ∧ ∀ p ∈ reads, img.inside p) := by
  obtain ⟨k1, rd1, h1, _, z1, _, i1⟩ := fineTuneCornerReads_returns img 1 1 (Or.inl rfl) fuel hf
    rect.left rect.top
  obtain ⟨k2, rd2, h2, _, z2, _, i2⟩ := fineTuneCornerReads_returns img (-1) 1 (Or.inr rfl) fuel
    hf rect.right (rect.top + k1 * 1)
  obtain ⟨k3, rd3, h3, _, z3, _, i3⟩ := fineTuneCornerReads_returns img 1 (-1) (Or.inl rfl) fuel
    hf (rect.left + k1 * 1) rect.bottom
  obtain ⟨k4, rd4, h4, c4, z4, _, i4⟩ := fineTuneCornerReads_returns img (-1) (-1) (Or.inr rfl)
    fuel hf (rect.right + k2 * (-1)) (rect.bottom + k3 * (-1))
  have e1 : rect.top + (k1 : Int) * 1 = rect.top + k1 := by ring
  have e2 : rect.left + (k1 : Int) * 1 = rect.left + k1 := by ring
  have e3 : rect.right + (k2 : Int) * (-1) = rect.right - k2 := by ring
  have e4 : rect.bottom + (k3 : Int) * (-1) = rect.bottom - k3 := by ring
  refine ⟨k1, k2, k3, k4, rd1 ++ rd2 ++ rd3 ++ rd4, ?_, z1, ?_, ?_, ?_, ?_, ?_⟩
  · unfold fineTuneCornersReads
    simp only [h1, h2, h3, h4, Option.some_bind, QRect.setLeft, QRect.setTop, QRect.setRight,
      QRect.setBottom]
    congr 3 <;> ring
  · rw [← e1]; exact z2
  · rw [← e2]; exact z3
  · rw [← e3, ← e4]; exact z4
  · rw [← e3, ← e4, c4]
    congr 2 <;> ring
  · intro hin
    obtain ⟨a1, a2, a3, a4, a5, a6, a7, a8⟩ := hin
    obtain ⟨⟨p1, p2, p3, p4⟩, q1⟩ := i1 ⟨a1, a2, a5, a6⟩
    obtain ⟨⟨p5, p6, p7, p8⟩, q2⟩ := i2 ⟨a3, a4, p3, p4⟩
    obtain ⟨⟨p9, p10, p11, p12⟩, q3⟩ := i3 ⟨p1, p2, a7, a8⟩
    obtain ⟨⟨p13, p14, p15, p16⟩, q4⟩ := i4 ⟨p5, p6, p11, p12⟩
    simp only at p1 p2 p3 p4 p5 p6 p7 p8 p9 p10 p11 p12 p13 p14 p15 p16
    refine ⟨?_, ?_⟩
    · unfold QImage.contains QRect.left QRect.right QRect.top QRect.bottom
      simp only
      unfold QRect.left QRect.right QRect.top QRect.bottom at *
      refine ⟨?_, ?_, ?_, ?_, ?_, ?_, ?_, ?_⟩ <;> omega
    · intro p hp
      simp only [List.mem_append] at hp
      rcases hp with ((hp | hp) | hp) | hp
      · exact q1 p hp
      · exact q2 p hp
      · exact q3 p hp
      · exact q4 p hp

/-- A pixel that is not black is not read as black, inside the image or not. -/
theorem pixelIndex_ne_of_not_black (img : QImage) (x y : Int) (h : img.black x y = false) :
    img.pixelIndex x y ≠ color1 := by
  unfold QImage.pixelIndex color1 outOfRange
  split_ifs <;> simp_all

/-- The corner `fineTuneCorner` returns is stuck. -/
theorem fineTuneCorner_result_stuck (img : QImage) (inc_x inc_y : Int) :
    ∀ (fuel : Nat) (x y : Int) (p : Int × Int),
      fineTuneCorner img inc_x inc_y fuel x y = some p → cornerStuck img inc_x inc_y p.1 p.2 := by
  intro fuel
  induction fuel with
  | zero => intro x y p h; simp [fineTuneCorner] at h
  | succ k ih =>
    intro x y p h
    rw [fineTuneCorner_stuck] at h
    by_cases hs : cornerStuck img inc_x inc_y x y
    · rw [if_pos hs] at h
      cases h
      exact hs
    · rw [if_neg hs] at h
      exact ih _ _ p h

/-- A stuck corner is returned as it is. -/
theorem fineTuneCorner_of_stuck (img : QImage) (inc_x inc_y : Int) (fuel : Nat) (x y : Int)
    (hf : 0 < fuel) (hs : cornerStuck img inc_x inc_y x y) :
    fineTuneCorner img inc_x inc_y fuel x y = some (x, y) := by
  obtain ⟨f, rfl⟩ : ∃ f, fuel = f + 1 := ⟨fuel - 1, by omega⟩
  rw [fineTuneCorner_stuck, if_pos hs]

theorem fineTuneCorners_det (fuel fuel' : Nat) (img : QImage) (rect res res' : QRect)
    (h : fineTuneCorners fuel img rect = some res)
    (h' : fineTuneCorners fuel' img rect = some res') : res = res' := by
  have a := fineTuneCorners_mono fuel (max fuel fuel') (le_max_left _ _) img rect res h
  have b := fineTuneCorners_mono fuel' (max fuel fuel') (le_max_right _ _) img rect res' h'
  rw [a] at b
  exact Option.some.inj b

/-! ## C2: corner refinement applied twice -/

/-- C2, refuted as stated: on the 3x3 image with black pixels at (0,1) and
(2,2), the rectangle (0,0)-(2,2) has its corners inside the image, a first
fineTuneCorners gives (0,0)-(1,1), and a second one moves on to left = 1,
top = 0, right = 1, bottom = 0; whatever the fuel, twice never equals once. -/
theorem twoDots_second_pass_moves :
    twoDots.contains ⟨0, 0, 2, 2⟩ ∧
    fineTuneCorners 4 twoDots ⟨0, 0, 2, 2⟩ = some ⟨0, 0, 1, 1⟩ ∧
    fineTuneCorners 4 twoDots ⟨0, 0, 1, 1⟩ = some ⟨1, 0, 1, 0⟩ ∧
    ∀ fuel r1 r2, fineTuneCorners fuel twoDots ⟨0, 0, 2, 2⟩ = some r1 →
      fineTuneCorners fuel twoDots r1 = some r2 → r2 ≠ r1 := by
  have h1 : fineTuneCorners 4 twoDots ⟨0, 0, 2, 2⟩ = some ⟨0, 0, 1, 1⟩ := by decide
  have h2 : fineTuneCorners 4 twoDots ⟨0, 0, 1, 1⟩ = some ⟨1, 0, 1, 0⟩ := by decide
  refine ⟨by decide, h1, h2, ?_⟩
  intro fuel r1 r2 e1 e2
  have := fineTuneCorners_det fuel 4 twoDots _ _ _ e1 h1
  subst this
  have := fineTuneCorners_det fuel 4 twoDots _ _ _ e2 h2
  subst this
  decide

/-- C2, amended: for every binary image and every rectangle, (a) a single
corner walk is a fixed point: fineTuneCorner started again from the coordinate
it returned does not move; (b) fineTuneCorners returns a rectangle, and
applying it a second time yields that same rectangle exactly when every corner
of the once-refined rectangle is stuck (its pixel is not black or its next
diagonal step leaves the image). The four walks share the edge variables, so
(b) can fail. -/
theorem corner_refinement_twice (img : QImage) (rect : QRect) (fuel : Nat)
    (hf : img.width < fuel) :
    (∀ inc_x inc_y x y p, fineTuneCorner img inc_x inc_y fuel x y = some p →
      fineTuneCorner img inc_x inc_y fuel p.1 p.2 = some p) ∧
    ∃ res, fineTuneCorners fuel img rect = some res ∧
      (fineTuneCorners fuel img res = some res ↔
        cornerStuck img 1 1 res.left res.top ∧ cornerStuck img (-1) 1 res.right res.top ∧
        cornerStuck img 1 (-1) res.left res.bottom ∧
        cornerStuck img (-1) (-1) res.right res.bottom) := by
  constructor
  · intro inc_x inc_y x y p h
    exact fineTuneCorner_of_stuck img inc_x inc_y fuel p.1 p.2 (by omega)
      (fineTuneCorner_result_stuck img inc_x inc_y fuel x y p h)
  · obtain ⟨k1, k2, k3, k4, reads, h, _⟩ := fineTuneCornersReads_spec fuel img rect hf
    have hres := fineTuneCornersReads_fst fuel img rect
    rw [h] at hres
    simp only [Option.map_some'] at hres
    refine ⟨_, hres.symm, ?_⟩
    generalize (⟨rect.left + k1 + k3, rect.top + k1 + k2, rect.right - k2 - k4,
      rect.bottom - k3 - k4⟩ : QRect) = res
    obtain ⟨m1, m2, m3, m4, reads', h', z1, z2, z3, z4, _⟩ :=
      fineTuneCornersReads_spec fuel img res hf
    have hres' := fineTuneCornersReads_fst fuel img res
    rw [h'] at hres'
    simp only [Option.map_some'] at hres'
    rw [← hres']
    constructor
    · intro heq
      have heq' := Option.some.inj heq
      have e1 : res.left + m1 + m3 = res.x1 := congrArg QRect.x1 heq'
      have e2 : res.top + m1 + m2 = res.y1 := congrArg QRect.y1 heq'
      have e3 : res.right - m2 - m4 = res.x2 := congrArg QRect.x2 heq'
      have e4 : res.bottom - m3 - m4 = res.y2 := congrArg QRect.y2 heq'
      unfold QRect.left at e1
      unfold QRect.top at e2
      unfold QRect.right at e3
      unfold QRect.bottom at e4
      have a1 : m1 = 0 := by omega
      have a2 : m2 = 0 := by omega
      have a3 : m3 = 0 := by omega
      have a4 : m4 = 0 := by omega
      subst a1 a2 a3 a4
      simp only [Nat.cast_zero, add_zero, sub_zero, true_iff] at z1 z2 z3 z4
      exact ⟨z1, z2, z3, z4⟩
    · rintro ⟨s1, s2, s3, s4⟩
      have a1 : m1 = 0 := z1.mpr s1
      subst a1
      simp only [Nat.cast_zero, add_zero, sub_zero] at z2 z3
      have a2 : m2 = 0 := z2.mpr s2
      have a3 : m3 = 0 := z3.mpr s3
      subst a2 a3
      simp only [Nat.cast_zero, add_zero, sub_zero] at z4
      have a4 : m4 = 0 := z4.mpr s4
      subst a4
      simp [QRect.left, QRect.top, QRect.right, QRect.bottom]

/-- C2, witness of the amended statement: the 3x3 image with two black pixels
and the rectangle (0,0)-(2,2), fuel 4. -/
theorem corner_refinement_twice_witness :
    twoDots.width < 4 ∧
    ∃ res, fineTuneCorners 4 twoDots ⟨0, 0, 2, 2⟩ = some res ∧
      (fineTuneCorners 4 twoDots res = some res ↔
        cornerStuck twoDots 1 1 res.left res.top ∧ cornerStuck twoDots (-1) 1 res.right res.top ∧
        cornerStuck twoDots 1 (-1) res.left res.bottom ∧
        cornerStuck twoDots (-1) (-1) res.right res.bottom) :=
  ⟨by decide, (corner_refinement_twice twoDots ⟨0, 0, 2, 2⟩ 4 (by decide)).2⟩

/-! ## C7: corner refinement stays inside the image -/

/-- C7: for every binary image and every rectangle whose edges lie inside the
image (0 <= left, right <= width-1 and 0 <= top, bottom <= height-1),
fineTuneCorners returns, every coordinate it passes to pixelIndex lies inside
the image, and the edges of the resulting rectangle lie inside the image
again. -/
theorem corner_refinement_inside (img : QImage) (rect : QRect) (hin : img.contains rect)
    (fuel : Nat) (hf : img.width < fuel) :
    ∃ res reads, fineTuneCornersReads fuel img rect = some (res, reads) ∧
      fineTuneCorners fuel img rect = some res ∧
      (∀ p ∈ reads, 0 ≤ p.1 ∧ p.1 ≤ (img.width : Int) - 1 ∧
        0 ≤ p.2 ∧ p.2 ≤ (img.height : Int) - 1) ∧
      0 ≤ res.left ∧ res.left ≤ (img.width : Int) - 1 ∧
      0 ≤ res.right ∧ res.right ≤ (img.width : Int) - 1 ∧
      0 ≤ res.top ∧ res.top ≤ (img.height : Int) - 1 ∧
      0 ≤ res.bottom ∧ res.bottom ≤ (img.height : Int) - 1 := by
  obtain ⟨k1, k2, k3, k4, reads, h, _, _, _, _, _, hc⟩ :=
    fineTuneCornersReads_spec fuel img rect hf
  obtain ⟨hres, hreads⟩ := hc hin
  have hfst := fineTuneCornersReads_fst fuel img rect
  rw [h] at hfst
  exact ⟨_, reads, h, hfst.symm, hreads, hres⟩

/-- C7, witness: the 3x3 image with two black pixels, the rectangle
(0,0)-(2,2), fuel 4. -/
theorem corner_refinement_inside_witness :
    (twoDots.contains ⟨0, 0, 2, 2⟩ ∧ twoDots.width < 4) ∧
    ∃ res reads, fineTuneCornersReads 4 twoDots ⟨0, 0, 2, 2⟩ = some (res, reads) ∧
      fineTuneCorners 4 twoDots ⟨0, 0, 2, 2⟩ = some res ∧
      (∀ p ∈ reads, 0 ≤ p.1 ∧ p.1 ≤ (twoDots.width : Int) - 1 ∧
        0 ≤ p.2 ∧ p.2 ≤ (twoDots.height : Int) - 1) ∧
      0 ≤ res.left ∧ res.left ≤ (twoDots.width : Int) - 1 ∧
      0 ≤ res.right ∧ res.right ≤ (twoDots.width : Int) - 1 ∧
      0 ≤ res.top ∧ res.top ≤ (twoDots.height : Int) - 1 ∧
      0 ≤ res.bottom ∧ res.bottom ≤ (twoDots.height : Int) - 1 :=
  ⟨⟨by decide, by decide⟩,
    corner_refinement_inside twoDots ⟨0, 0, 2, 2⟩ (by decide) 4 (by decide)⟩

/-! ## C10: corners that are not black -/

/-- C10: for every binary image, fineTuneCorner started on a pixel that is not
black returns its start coordinate after a single pixel read, that is without
a move, whatever the direction; and fineTuneCorners leaves every rectangle
whose four corner pixels (left,top), (right,top), (left,bottom),
(right,bottom) are not black unchanged. -/
theorem nonblack_corners_unchanged (img : QImage) (fuel : Nat) (hf : 0 < fuel) :
    (∀ inc_x inc_y x y, img.black x y = false →
      fineTuneCorner img inc_x inc_y fuel x y = some (x, y) ∧
      fineTuneCornerReads img inc_x inc_y fuel x y = some ((x, y), [(x, y)])) ∧
    (∀ rect : QRect, img.black rect.left rect.top = false →
      img.black rect.right rect.top = false → img.black rect.left rect.bottom = false →
      img.black rect.right rect.bottom = false →
      fineTuneCorners fuel img rect = some rect) := by
  constructor
  · intro inc_x inc_y x y h
    have hp := pixelIndex_ne_of_not_black img x y h
    refine ⟨fineTuneCorner_of_not_black img inc_x inc_y fuel x y hf hp, ?_⟩
    obtain ⟨f, rfl⟩ : ∃ f, fuel = f + 1 := ⟨fuel - 1, by omega⟩
    rw [fineTuneCornerReads_succ, if_pos (show cornerStuck img inc_x inc_y x y from Or.inl hp)]
  · intro rect h1 h2 h3 h4
    exact fineTuneCorners_of_not_black fuel img rect hf
      (pixelIndex_ne_of_not_black img _ _ h1) (pixelIndex_ne_of_not_black img _ _ h2)
      (pixelIndex_ne_of_not_black img _ _ h3) (pixelIndex_ne_of_not_black img _ _ h4)

/-- C10, witness: on the 3x3 image with black pixels at (0,1) and (2,2) the
rectangle (0,0)-(2,0) has white corners and is left unchanged. -/
theorem nonblack_corners_unchanged_witness :
    0 < 1 ∧ fineTuneCorners 1 twoDots ⟨0, 0, 2, 0⟩ = some ⟨0, 0, 2, 0⟩ :=
  ⟨by decide, (nonblack_corners_unchanged twoDots 1 (by decide)).2 ⟨0, 0, 2, 0⟩ rfl rfl rfl rfl⟩

/-! ## Images without white pixels -/

/-- On an image without white pixels every sample inside the image is black. -/
theorem sample_of_black (img : QImage) (hblack : ∀ x y, img.black x y = true)
    (orient : Orientation) (i j : Int)
    (h : (orient = Orientation.Horizontal ∧ 0 ≤ i ∧ i < img.width ∧ 0 ≤ j ∧ j < img.height) ∨
      (orient = Orientation.Vertical ∧ 0 ≤ j ∧ j < img.width ∧ 0 ≤ i ∧ i < img.height)) :
    sample img orient i j = color1 := by
  unfold sample QImage.pixelIndex color1 outOfRange
  rcases h with ⟨rfl, h1, h2, h3, h4⟩ | ⟨rfl, h1, h2, h3, h4⟩
  · simp only [reduceCtorEq, if_false]
    rw [if_neg (by omega), hblack]
    rfl
  · simp only [if_true]
    rw [if_neg (by omega), hblack]
    rfl

/-- The four scans of an image without white pixels, of width and height at
least 12: each runs up to its `end_` with `gap = 0`. -/
theorem black_edges (img : QImage) (hw : 12 ≤ img.width) (hh : 12 ≤ img.height)
    (hblack : ∀ x y, img.black x y = true) (fuel : Nat)
    (hf : img.width + img.height < fuel) :
    detectEdgeLoop img ((img.width : Int) - 1) 1 (goldenMid ((img.height : Int) - 1))
      Orientation.Horizontal fuel fuel 0 0 0
      = some ⟨(img.width : Int) - 1, (img.width : Int) - 2, 0⟩ ∧
    detectEdgeLoop img ((img.height : Int) - 1) 1 (goldenMid ((img.width : Int) - 1))
      Orientation.Vertical fuel fuel 0 0 0
      = some ⟨(img.height : Int) - 1, (img.height : Int) - 2, 0⟩ ∧
    detectEdgeLoop img 0 (-1) (goldenMid ((img.height : Int) - 1))
      Orientation.Horizontal fuel fuel ((img.width : Int) - 1) ((img.width : Int) - 1) 0
      = some ⟨0, 1, 0⟩ ∧
    detectEdgeLoop img ((img.height : Int) - 2) (-1) (goldenMid ((img.width : Int) - 1))
      Orientation.Vertical fuel fuel ((img.height : Int) - 1) ((img.height : Int) - 1) 0
      = some ⟨(img.height : Int) - 2, (img.height : Int) - 1, 0⟩ ∧
    detectBorders fuel img
      = some ⟨(img.width : Int) - 2, (img.height : Int) - 2, 1, (img.height : Int) - 1⟩ := by
  have gx := goldenMid_of_nonneg ((img.width : Int) - 1) (by omega)
  have gy := goldenMid_of_nonneg ((img.height : Int) - 1) (by omega)
  have qx := quarter_of_nonneg (goldenMid ((img.width : Int) - 1)) gx.1
  have qy := quarter_of_nonneg (goldenMid ((img.height : Int) - 1)) gy.1
  have hx4 := gx.2.2 (by omega)
  have hy4 := gy.2.2 (by omega)
  have a := detectEdge_of_allHit fuel img 0 ((img.width : Int) - 1) 1
    (goldenMid ((img.height : Int) - 1)) Orientation.Horizontal (img.width - 1) hy4
    (by norm_num) (by push_cast [Nat.cast_sub (show 1 ≤ img.width by omega)]; ring) (by omega)
    (by omega)
    (fun k hk => sample_of_black img hblack _ _ _ (Or.inl ⟨rfl, by omega, by omega, by omega,
      by omega⟩))
  have b := detectEdge_of_allHit fuel img 0 ((img.height : Int) - 1) 1
    (goldenMid ((img.width : Int) - 1)) Orientation.Vertical (img.height - 1) hx4
    (by norm_num) (by push_cast [Nat.cast_sub (show 1 ≤ img.height by omega)]; ring) (by omega)
    (by omega)
    (fun k hk => sample_of_black img hblack _ _ _ (Or.inr ⟨rfl, by omega, by omega, by omega,
      by omega⟩))
  have c := detectEdge_of_allHit fuel img ((img.width : Int) - 1) 0 (-1)
    (goldenMid ((img.height : Int) - 1)) Orientation.Horizontal (img.width - 1) hy4
    (by norm_num) (by push_cast [Nat.cast_sub (show 1 ≤ img.width by omega)]; ring) (by omega)
    (by omega)
    (fun k hk => sample_of_black img hblack _ _ _ (Or.inl ⟨rfl, by omega, by omega, by omega,
      by omega⟩))
  have d := detectEdge_of_allHit fuel img ((img.height : Int) - 1) ((img.height : Int) - 2) (-1)
    (goldenMid ((img.width : Int) - 1)) Orientation.Vertical 1 hx4
    (by norm_num) (by push_cast; ring) (by omega) (by omega)
    (fun k hk => sample_of_black img hblack _ _ _ (Or.inr ⟨rfl, by omega, by omega, by omega,
      by omega⟩))
  have e1 : (img.width : Int) - 1 - 1 = (img.width : Int) - 2 := by ring
  have e2 : (img.height : Int) - 1 - 1 = (img.height : Int) - 2 := by ring
  have e3 : (0 : Int) - -1 = 1 := by norm_num
  have e4 : (img.height : Int) - 2 - -1 = (img.height : Int) - 1 := by ring
  rw [e1] at a
  rw [e2] at b
  rw [e3] at c
  rw [e4] at d
  exact ⟨a.1, b.1, c.1, d.1, detectBorders_of_edges fuel img _ _ _ _ a.2 b.2 c.2 d.2⟩

theorem detectBorders_det (fuel fuel' : Nat) (img : QImage) (res res' : QRect)
    (h : detectBorders fuel img = some res) (h' : detectBorders fuel' img = some res') :
    res = res' := by
  have a := detectBorders_mono fuel (max fuel fuel') (le_max_left _ _) img res h
  have b := detectBorders_mono fuel' (max fuel fuel') (le_max_right _ _) img res' h'
  rw [a] at b
  exact Option.some.inj b

theorem allBlack12_detectBorders : detectBorders 25 (allBlack 12 12) = some ⟨10, 10, 1, 11⟩ :=
  (black_edges (allBlack 12 12) (by decide) (by decide) (fun _ _ => rfl) 25 (by decide)).2.2.2.2

/-! ## C4: the all-black image -/

/-- C4, refuted as stated: on the all-black 12x12 image detectBorders returns
left = 10, top = 10, right = 1, bottom = 11, so whatever the fuel the returned
rectangle never has left <= 1, top <= 1, right >= 10 and bottom >= 10. -/
theorem black12_does_not_span :
    detectBorders 25 (allBlack 12 12) = some ⟨10, 10, 1, 11⟩ ∧
    ∀ fuel rect, detectBorders fuel (allBlack 12 12) = some rect →
      ¬ (rect.left ≤ 1 ∧ rect.top ≤ 1 ∧ rect.right ≥ 12 - 2 ∧ rect.bottom ≥ 12 - 2) := by
  refine ⟨allBlack12_detectBorders, ?_⟩
  intro fuel rect h hc
  have := detectBorders_det fuel 25 _ _ _ h allBlack12_detectBorders
  subst this
  have := hc.1
  simp [QRect.left] at this

/-- C4, amended: for every all-black binary image of width w >= 12 and height
h >= 12, each of the four detectEdge calls of detectBorders runs until
i == end with gap = 0 (so gap is at most 1 when the scan stops) and returns
the scan line next to its end; the left, top and right scans cross the whole
image and the bottom scan ends at the detected top, so detectBorders returns
left = w-2, top = h-2, right = 1, bottom = h-1. -/
theorem black_image_rect (img : QImage) (hw : 12 ≤ img.width) (hh : 12 ≤ img.height)
    (hblack : ∀ x y, img.black x y = true) (fuel : Nat)
    (hf : img.width + img.height < fuel) :
    detectEdgeLoop img ((img.width : Int) - 1) 1 (goldenMid ((img.height : Int) - 1))
      Orientation.Horizontal fuel fuel 0 0 0
      = some ⟨(img.width : Int) - 1, (img.width : Int) - 2, 0⟩ ∧
    detectEdgeLoop img ((img.height : Int) - 1) 1 (goldenMid ((img.width : Int) - 1))
      Orientation.Vertical fuel fuel 0 0 0
      = some ⟨(img.height : Int) - 1, (img.height : Int) - 2, 0⟩ ∧
    detectEdgeLoop img 0 (-1) (goldenMid ((img.height : Int) - 1))
      Orientation.Horizontal fuel fuel ((img.width : Int) - 1) ((img.width : Int) - 1) 0
      = some ⟨0, 1, 0⟩ ∧
    detectEdgeLoop img ((img.height : Int) - 2) (-1) (goldenMid ((img.width : Int) - 1))
      Orientation.Vertical fuel fuel ((img.height : Int) - 1) ((img.height : Int) - 1) 0
      = some ⟨(img.height : Int) - 2, (img.height : Int) - 1, 0⟩ ∧
    ∃ rect, detectBorders fuel img = some rect ∧
      rect.left = (img.width : Int) - 2 ∧ rect.top = (img.height : Int) - 2 ∧
      rect.right = 1 ∧ rect.bottom = (img.height : Int) - 1 := by
  obtain ⟨a, b, c, d, e⟩ := black_edges img hw hh hblack fuel hf
  exact ⟨a, b, c, d, _, e, rfl, rfl, rfl, rfl⟩

/-- C4, witness of the amended statement: the all-black 12x12 image. -/
theorem black_image_rect_witness :
    (12 ≤ (allBlack 12 12).width ∧ 12 ≤ (allBlack 12 12).height ∧
      (∀ x y, (allBlack 12 12).black x y = true) ∧
      (allBlack 12 12).width + (allBlack 12 12).height < 25) ∧
    ∃ rect, detectBorders 25 (allBlack 12 12) = some rect ∧
      rect.left = ((allBlack 12 12).width : Int) - 2 ∧
      rect.top = ((allBlack 12 12).height : Int) - 2 ∧
      rect.right = 1 ∧ rect.bottom = ((allBlack 12 12).height : Int) - 1 :=
  ⟨⟨by decide, by decide, fun _ _ => rfl, by decide⟩,
    (black_image_rect (allBlack 12 12) (by decide) (by decide) (fun _ _ => rfl) 25
      (by decide)).2.2.2.2⟩

/-! ## C6: a scan over black bands -/

/-- C6: for every detectEdge call with inc = +1 and start < end, or inc = -1
and start > end, with mid >= 4 and all samples of the band black on every scan
line from start up to (not including) end: the band is not empty, the inner
loop leaves gap = 0 on every scan line, the outer loop runs until i == end,
and the returned edge is end - inc, the scan line before end, never end. -/
theorem black_band_scan (fuel : Nat) (img : QImage) (start end_ inc mid : Int)
    (orient : Orientation)
    (hdir : (inc = 1 ∧ start < end_) ∨ (inc = -1 ∧ end_ < start)) (hmid : 4 ≤ mid)
    (hblack : ∀ k : Nat, (k : Int) < |end_ - start| → ∀ j, mid - quarter mid ≤ j →
      j < mid + quarter mid → sample img orient (start + k * inc) j = color1)
    (hf : |end_ - start| < fuel) :
    mid - quarter mid < mid + quarter mid ∧
    (∀ k : Nat, (k : Int) < |end_ - start| → ∀ edge gap,
      scanBand img orient (start + k * inc) (mid + quarter mid) gap fuel (mid - quarter mid)
        edge gap = some (start + k * inc, 0)) ∧
    detectEdgeLoop img end_ inc mid orient fuel fuel start start 0
      = some ⟨end_, end_ - inc, 0⟩ ∧
    detectEdge fuel img start end_ inc mid orient = some (end_ - inc) ∧
    end_ - inc ≠ end_ := by
  have hq := quarter_of_nonneg mid (by omega)
  have hq1 : 1 ≤ quarter mid := by omega
  have habs : |end_ - start| = (end_ - start).natAbs := Int.abs_eq_natAbs _
  have hfirst : ∀ k : Nat, k < (end_ - start).natAbs →
      sample img orient (start + k * inc) (mid - quarter mid) = color1 :=
    fun k hk => hblack k (by omega) _ (le_refl _) (by omega)
  have hend : end_ = start + ((end_ - start).natAbs : Int) * inc := by
    rcases hdir with ⟨rfl, h⟩ | ⟨rfl, h⟩ <;> omega
  have hpos : 0 < (end_ - start).natAbs := by
    rcases hdir with ⟨_, h⟩ | ⟨_, h⟩ <;> omega
  have hinc : inc ≠ 0 := by
    rcases hdir with ⟨rfl, _⟩ | ⟨rfl, _⟩ <;> norm_num
  obtain ⟨h1, h2⟩ := detectEdge_of_allHit fuel img start end_ inc mid orient
    (end_ - start).natAbs hmid hinc hend hpos (by omega) hfirst
  refine ⟨by omega, ?_, h1, h2, by omega⟩
  intro k hk edge gap
  exact scanBand_hit img orient _ _ gap (mid - quarter mid) (hfirst k (by omega)) (by omega)
    fuel _ edge gap (le_refl _) (by omega)

/-- C6, witness: the scan of the columns 0 .. 10 of the all-black 12x12 image
with mid = 4. -/
theorem black_band_scan_witness :
    (((1 : Int) = 1 ∧ (0 : Int) < 11) ∨ ((1 : Int) = -1 ∧ (11 : Int) < 0)) ∧ (4 : Int) ≤ 4 ∧
    |(11 : Int) - 0| < (12 : Nat) ∧
    detectEdgeLoop (allBlack 12 12) 11 1 4 Orientation.Horizontal 12 12 0 0 0
      = some ⟨11, 11 - 1, 0⟩ ∧
    detectEdge 12 (allBlack 12 12) 0 11 1 4 Orientation.Horizontal = some (11 - 1) :=
  have hdir : ((1 : Int) = 1 ∧ (0 : Int) < 11) ∨ ((1 : Int) = -1 ∧ (11 : Int) < 0) :=
    Or.inl ⟨rfl, by decide⟩
  have hf : |(11 : Int) - 0| < (12 : Nat) := by decide
  have h := black_band_scan 12 (allBlack 12 12) 0 11 1 4 Orientation.Horizontal hdir
    (by decide)
    (fun k hk j hj1 hj2 => sample_of_black (allBlack 12 12) (fun _ _ => rfl) _ _ _
      (Or.inl ⟨rfl, by
        have e1 : |(11 : Int) - 0| = 11 := by decide
        have e2 : quarter 4 = 1 := by decide
        rw [e1] at hk
        rw [e2] at hj1 hj2
        simp only [allBlack]
        omega⟩))
    hf
  ⟨hdir, by decide, hf, h.2.2.1, h.2.2.2.1⟩

/-- With enough fuel `detectBorders` returns, its edges lie inside the image,
and the bottom edge is not above the top edge. -/
theorem detectBorders_range (img : QImage) (hw : 1 ≤ img.width) (hh : 1 ≤ img.height)
    (fuel : Nat) (hf : img.width + img.height < fuel) :
    ∃ rect, detectBorders fuel img = some rect ∧
      0 ≤ rect.left ∧ rect.left ≤ (img.width : Int) - 1 ∧
      0 ≤ rect.right ∧ rect.right ≤ (img.width : Int) - 1 ∧
      0 ≤ rect.top ∧ rect.top ≤ rect.bottom ∧ rect.bottom ≤ (img.height : Int) - 1 := by
  obtain ⟨hx0, hxf, hy0, hyf⟩ := goldenMid_fuel img hw hh fuel hf
  obtain ⟨l, hl, hl'⟩ := detectEdge_total fuel img 0 ((img.width : Int) - 1) 1
    (goldenMid ((img.height : Int) - 1)) Orientation.Horizontal (img.width - 1) hy0 hyf
    (by norm_num) (by push_cast [Nat.cast_sub hw]; ring) (by omega)
  obtain ⟨t, ht, ht'⟩ := detectEdge_total fuel img 0 ((img.height : Int) - 1) 1
    (goldenMid ((img.width : Int) - 1)) Orientation.Vertical (img.height - 1) hx0 hxf
    (by norm_num) (by push_cast [Nat.cast_sub hh]; ring) (by omega)
  obtain ⟨r, hr, hr'⟩ := detectEdge_total fuel img ((img.width : Int) - 1) 0 (-1)
    (goldenMid ((img.height : Int) - 1)) Orientation.Horizontal (img.width - 1) hy0 hyf
    (by norm_num) (by push_cast [Nat.cast_sub hw]; ring) (by omega)
  have htr : 0 ≤ t ∧ t ≤ (img.height : Int) - 1 := by
    rcases ht' with h | ⟨k, hk, h⟩ <;> omega
  obtain ⟨b, hb, hb'⟩ := detectEdge_total fuel img ((img.height : Int) - 1) t (-1)
    (goldenMid ((img.width : Int) - 1)) Orientation.Vertical ((img.height : Int) - 1 - t).toNat
    hx0 hxf (by norm_num) (by rw [Int.toNat_of_nonneg (by omega)]; ring) (by omega)
  refine ⟨_, detectBorders_of_edges fuel img l t r b hl ht hr hb, ?_⟩
  simp only [QRect.left, QRect.right, QRect.top, QRect.bottom]
  refine ⟨?_, ?_, ?_, ?_, htr.1, ?_, ?_⟩
  · rcases hl' with h | ⟨k, hk, h⟩ <;> omega
  · rcases hl' with h | ⟨k, hk, h⟩ <;> omega
  · rcases hr' with h | ⟨k, hk, h⟩ <;> omega
  · rcases hr' with h | ⟨k, hk, h⟩ <;> omega
  · rcases hb' with h | ⟨k, hk, h⟩ <;> omega
  · rcases hb' with h | ⟨k, hk, h⟩ <;> omega

/-! ## C3: ordering of the edges -/

/-- C3, refuted as stated: on the all-black 12x12 image detectBorders returns
left = 10 > right = 1; and on the all-black 2x2 image detectBorders returns
the ordered rectangle (0,0)-(1,1), which fineTuneCorners turns into left = 1,
top = 1, right = 0, bottom = 0, with left > right and top > bottom. Both hold
whatever the fuel. -/
theorem ordering_fails_on_black_images :
    (1 ≤ (allBlack 12 12).width ∧ 1 ≤ (allBlack 12 12).height ∧
      detectBorders 25 (allBlack 12 12) = some ⟨10, 10, 1, 11⟩ ∧
      ∀ fuel rect, detectBorders fuel (allBlack 12 12) = some rect →
        ¬ (rect.left ≤ rect.right ∧ rect.top ≤ rect.bottom)) ∧
    (1 ≤ (allBlack 2 2).width ∧ 1 ≤ (allBlack 2 2).height ∧
      detectBorders 5 (allBlack 2 2) = some ⟨0, 0, 1, 1⟩ ∧
      fineTuneCorners 5 (allBlack 2 2) ⟨0, 0, 1, 1⟩ = some ⟨1, 1, 0, 0⟩ ∧
      ∀ fuel rect res, detectBorders fuel (allBlack 2 2) = some rect →
        fineTuneCorners fuel (allBlack 2 2) rect = some res →
        ¬ (res.left ≤ res.right) ∧ ¬ (res.top ≤ res.bottom)) := by
  have h2 : detectBorders 5 (allBlack 2 2) = some ⟨0, 0, 1, 1⟩ := by decide
  have h3 : fineTuneCorners 5 (allBlack 2 2) ⟨0, 0, 1, 1⟩ = some ⟨1, 1, 0, 0⟩ := by decide
  refine ⟨⟨by decide, by decide, allBlack12_detectBorders, ?_⟩,
    ⟨by decide, by decide, h2, h3, ?_⟩⟩
  · intro fuel rect h hc
    have := detectBorders_det fuel 25 _ _ _ h allBlack12_detectBorders
    subst this
    have := hc.1
    simp [QRect.left, QRect.right] at this
  · intro fuel rect res e1 e2
    have := detectBorders_det fuel 5 _ _ _ e1 h2
    subst this
    have := fineTuneCorners_det fuel 5 _ _ _ _ e2 h3
    subst this
    constructor <;> decide

/-- C3, amended: for every binary image of width >= 1 and height >= 1,
detectBorders returns a rectangle with top <= bottom (the bottom scan ends at
the detected top edge), so its height bottom - top + 1 is at least 1. -/
theorem detectBorders_top_le_bottom (img : QImage) (hw : 1 ≤ img.width) (hh : 1 ≤ img.height)
    (fuel : Nat) (hf : img.width + img.height < fuel) :
    ∃ rect, detectBorders fuel img = some rect ∧ rect.top ≤ rect.bottom ∧ 1 ≤ rect.height := by
  obtain ⟨rect, h, _, _, _, _, _, htb, _⟩ := detectBorders_range img hw hh fuel hf
  refine ⟨rect, h, htb, ?_⟩
  unfold QRect.height
  unfold QRect.top QRect.bottom at htb
  omega

/-- C3, witness of the amended statement: the all-black 12x12 image. -/
theorem detectBorders_top_le_bottom_witness :
    (1 ≤ (allBlack 12 12).width ∧ 1 ≤ (allBlack 12 12).height ∧
      (allBlack 12 12).width + (allBlack 12 12).height < 25) ∧
    ∃ rect, detectBorders 25 (allBlack 12 12) = some rect ∧ rect.top ≤ rect.bottom ∧
      1 ≤ rect.height :=
  ⟨⟨by decide, by decide, by decide⟩,
    detectBorders_top_le_bottom (allBlack 12 12) (by decide) (by decide) 25 (by decide)⟩

/-! ## findPageBox -/

theorem identity_combined :
    (QTransform.identity.inverted).mul QTransform.identity = QTransform.identity := by
  simp [QTransform.inverted, QTransform.identity, QTransform.mul]

theorem identity_map (poly : List (ℚ × ℚ)) : QTransform.identity.map poly = poly := by
  unfold QTransform.map
  have : QTransform.identity.mapPoint = id := by
    funext p
    simp [QTransform.mapPoint, QTransform.identity]
  rw [this, List.map_id]

theorem extend_first (x v : ℚ) : extend x x v = (min x v, max x v) := by
  unfold extend
  rcases lt_trichotomy v x with h | h | h
  · rw [if_pos h, min_eq_right (le_of_lt h), max_eq_left (le_of_lt h)]
  · subst h; simp
  · rw [if_neg (not_lt.mpr (le_of_lt h)), if_pos h, min_eq_left (le_of_lt h),
      max_eq_right (le_of_lt h)]

theorem extend_inside (lo hi v : ℚ) (h1 : lo ≤ v) (h2 : v ≤ hi) : extend lo hi v = (lo, hi) := by
  unfold extend
  rw [if_neg (not_lt.mpr h1), if_neg (not_lt.mpr h2)]

/-- The bounding rectangle of the outline of a rectangle: the rectangle
itself when its width and height are not negative, its normalised form
otherwise. -/
theorem boundingRect_toPolygon (r : QRectF) :
    boundingRect r.toPolygon = ⟨min r.xp (r.xp + r.w), min r.yp (r.yp + r.h), |r.w|, |r.h|⟩ := by
  obtain ⟨x, y, w, h⟩ := r
  simp only [QRectF.toPolygon, boundingRect, List.foldl, boundingStep]
  rw [extend_first x (x + w), extend_inside y y y (le_refl _) (le_refl _)]
  simp only
  rw [extend_inside _ _ (x + w) (min_le_right _ _) (le_max_right _ _), extend_first y (y + h)]
  simp only
  rw [extend_inside _ _ x (min_le_left _ _) (le_max_left _ _),
    extend_inside _ _ (y + h) (min_le_right _ _) (le_max_right _ _)]
  simp only
  rw [extend_inside _ _ x (min_le_left _ _) (le_max_left _ _),
    extend_inside _ _ y (min_le_left _ _) (le_max_left _ _)]
  simp only
  congr 1
  · rcases le_total 0 w with hw | hw
    · rw [max_eq_right (by linarith), min_eq_left (by linarith), abs_of_nonneg hw]; ring
    · rw [max_eq_left (by linarith), min_eq_right (by linarith), abs_of_nonpos hw]; ring
  · rcases le_total 0 h with hh | hh
    · rw [max_eq_right (by linarith), min_eq_left (by linarith), abs_of_nonneg hh]; ring
    · rw [max_eq_left (by linarith), min_eq_right (by linarith), abs_of_nonpos hh]; ring

/-! ## The read-recording loops compute the same results -/

theorem scanBandReads_succ (img : QImage) (orient : Orientation) (i me og : Int) (fuel : Nat)
    (j edge gap : Int) :
    scanBandReads img orient i me og (fuel + 1) j edge gap =
      if j = me then some ((edge, gap), [])
      else if sample img orient i j = color1 then
        some ((i, 0), [(if orient = Orientation.Vertical then j else i,
          if orient = Orientation.Vertical then i else j)])
      else (scanBandReads img orient i me og fuel (j + 1) edge
        (if gap = og then gap + 1 else gap)).map fun res =>
          (res.1, (if orient = Orientation.Vertical then j else i,
            if orient = Orientation.Vertical then i else j) :: res.2) :=
  rfl

theorem scanBandReads_fst (img : QImage) (orient : Orientation) (i me og : Int) :
    ∀ (fuel : Nat) (j edge gap : Int),
      (scanBandReads img orient i me og fuel j edge gap).map Prod.fst =
        scanBand img orient i me og fuel j edge gap := by
  intro fuel
  induction fuel with
  | zero => intro j edge gap; rfl
  | succ k ih =>
    intro j edge gap
    rw [scanBandReads_succ, scanBand_succ]
    by_cases h1 : j = me
    · rw [if_pos h1, if_pos h1]; rfl
    · rw [if_neg h1, if_neg h1]
      by_cases h2 : sample img orient i j = color1
      · rw [if_pos h2, if_pos h2]; rfl
      · rw [if_neg h2, if_neg h2, ← ih]
        simp [Option.map_map, Function.comp_def]

theorem detectEdgeLoopReads_fst (img : QImage) (end_ inc mid : Int) (orient : Orientation)
    (bandFuel : Nat) :
    ∀ (fuel : Nat) (i edge gap : Int),
      (detectEdgeLoopReads img end_ inc mid orient bandFuel fuel i edge gap).map Prod.fst =
        detectEdgeLoop img end_ inc mid orient bandFuel fuel i edge gap := by
  intro fuel
  induction fuel with
  | zero => intro i edge gap; rfl
  | succ k ih =>
    intro i edge gap
    unfold detectEdgeLoopReads detectEdgeLoop
    simp only
    by_cases h : i = end_
    · rw [if_pos h, if_pos h]; rfl
    · rw [if_neg h, if_neg h, ← scanBandReads_fst]
      cases scanBandReads img orient i (mid + quarter mid) gap bandFuel (mid - quarter mid)
        edge gap with
      | none => rfl
      | some res =>
        obtain ⟨⟨e, g⟩, reads⟩ := res
        simp only [Option.map_some']
        split_ifs
        · rfl
        · rw [← ih]
          simp [Option.map_map, Function.comp_def]

theorem detectEdgeReads_fst (fuel : Nat) (img : QImage) (start end_ inc mid : Int)
    (orient : Orientation) :
    (detectEdgeReads fuel img start end_ inc mid orient).map Prod.fst =
      detectEdge fuel img start end_ inc mid orient := by
  unfold detectEdgeReads detectEdge
  rw [← detectEdgeLoopReads_fst]
  simp [Option.map_map, Function.comp_def]

theorem detectBordersReads_fst (fuel : Nat) (img : QImage) :
    (detectBordersReads fuel img).map Prod.fst = detectBorders fuel img := by
  unfold detectBordersReads detectBorders
  simp only [← detectEdgeReads_fst]
  cases detectEdgeReads fuel img 0 ((img.width : Int) - 1) 1
    (goldenMid ((img.height : Int) - 1)) Orientation.Horizontal with
  | none => rfl
  | some p1 =>
    simp only [Option.some_bind, Option.map_some']
    cases detectEdgeReads fuel img 0 ((img.height : Int) - 1) 1
      (goldenMid ((img.width : Int) - 1)) Orientation.Vertical with
    | none => rfl
    | some p2 =>
      simp only [Option.some_bind, Option.map_some']
      cases detectEdgeReads fuel img ((img.width : Int) - 1) 0 (-1)
        (goldenMid ((img.height : Int) - 1)) Orientation.Horizontal with
      | none => rfl
      | some p3 =>
        simp only [Option.some_bind, Option.map_some']
        cases detectEdgeReads fuel img ((img.height : Int) - 1) p2.1 (-1)
          (goldenMid ((img.width : Int) - 1)) Orientation.Vertical with
        | none => rfl
        | some p4 => rfl

/-- Dropping the list of events gives `findPageBox`. -/
theorem findPageBoxLog_fst (fuel : Nat) (data : FilterData) :
    (findPageBoxLog fuel data).map Prod.fst = findPageBox fuel data := by
  unfold findPageBoxLog findPageBox
  split_ifs
  · rfl
  · simp only [← detectBordersReads_fst, ← fineTuneCornersReads_fst]
    cases detectBordersReads fuel data.bwimg with
    | none => rfl
    | some p1 =>
      simp only [Option.some_bind, Option.map_some']
      cases fineTuneCornersReads fuel data.bwimg p1.1 with
      | none => rfl
      | some p2 => rfl

/-- Past the emptiness test `findPageBox` maps the refined rectangle. -/
theorem findPageBox_of_nonempty (fuel : Nat) (data : FilterData)
    (h : data.resultingRect.isEmpty = false) :
    findPageBox fuel data = (detectAndTune fuel data.bwimg).map fun rect =>
      boundingRect (((data.xform150.inverted).mul data.xform).map
        (QRectF.ofQRect rect).toPolygon) := by
  unfold findPageBox detectAndTune
  rw [h]
  simp only [Bool.false_eq_true, if_false]
  cases detectBorders fuel data.bwimg with
  | none => rfl
  | some r1 =>
    simp only [Option.some_bind]
    cases fineTuneCorners fuel data.bwimg r1 with
    | none => rfl
    | some r2 => rfl

/-- With enough fuel the scanner followed by the corner refiner returns. -/
theorem detectAndTune_total (img : QImage) (hw : 1 ≤ img.width) (hh : 1 ≤ img.height)
    (fuel : Nat) (hf : img.width + img.height < fuel) :
    ∃ rect, detectAndTune fuel img = some rect := by
  obtain ⟨r1, h1, _⟩ := detectBorders_range img hw hh fuel hf
  obtain ⟨k1, k2, k3, k4, reads, h, _⟩ := fineTuneCornersReads_spec fuel img r1 (by omega)
  have hfst := fineTuneCornersReads_fst fuel img r1
  rw [h] at hfst
  simp only [Option.map_some'] at hfst
  have hd : detectAndTune fuel img = fineTuneCorners fuel img r1 := by
    unfold detectAndTune
    rw [h1, Option.some_bind]
  exact ⟨_, hd.trans hfst.symm⟩

/-- Under identity transforms `findPageBox` returns the bounding rectangle of
the refined rectangle. -/
theorem findPageBox_identity (fuel : Nat) (data : FilterData)
    (h150 : data.xform150 = QTransform.identity) (hx : data.xform = QTransform.identity)
    (h : data.resultingRect.isEmpty = false) :
    findPageBox fuel data = (detectAndTune fuel data.bwimg).map fun rect =>
      (⟨min (rect.left : ℚ) (rect.left + rect.width), min (rect.top : ℚ) (rect.top + rect.height),
        |(rect.width : ℚ)|, |(rect.height : ℚ)|⟩ : QRectF) := by
  rw [findPageBox_of_nonempty fuel data h, h150, hx, identity_combined]
  congr 1
  funext rect
  rw [identity_map, boundingRect_toPolygon]
  rfl

theorem allBlack12_detectAndTune : detectAndTune 25 (allBlack 12 12) = some ⟨11, 11, 0, 10⟩ := by
  have h : fineTuneCorners 25 (allBlack 12 12) ⟨10, 10, 1, 11⟩ = some ⟨11, 11, 0, 10⟩ := by
    decide
  unfold detectAndTune
  rw [allBlack12_detectBorders, Option.some_bind, h]

/-! ## C8: the degenerate transform -/

/-- C8: whenever the rectangle the 150 dpi transform yields has width or
height zero (or less), findPageBox returns the null QRectF, even with no fuel
at all, and causes no event: no call of the normalizer, the binarizer,
detectBorders or fineTuneCorners and no pixel read. -/
theorem empty_rect_short_circuit (data : FilterData) (fuel : Nat)
    (h : data.resultingRect.width ≤ 0 ∨ data.resultingRect.height ≤ 0) :
    findPageBox fuel data = some QRectF.null ∧
    findPageBoxLog fuel data = some (QRectF.null, []) := by
  have he : data.resultingRect.isEmpty = true := by
    unfold QRect.isEmpty
    unfold QRect.width QRect.height at h
    simp only [decide_eq_true_eq]
    omega
  unfold findPageBox findPageBoxLog
  rw [he]
  exact ⟨rfl, rfl⟩

/-- C8, witness: a transform that yields a rectangle of width 0, no fuel. -/
theorem empty_rect_short_circuit_witness :
    (emptyPage.resultingRect.width ≤ 0 ∨ emptyPage.resultingRect.height ≤ 0) ∧
    findPageBox 0 emptyPage = some QRectF.null ∧
    findPageBoxLog 0 emptyPage = some (QRectF.null, []) :=
  ⟨Or.inl (by decide), empty_rect_short_circuit emptyPage 0 (Or.inl (by decide))⟩

/-! ## C9: identity transforms -/

/-- C9, refuted as stated: for the all-black 12x12 page under identity
transforms the refined rectangle is left = 11, top = 11, right = 0,
bottom = 10, of width -10 and height 0, and findPageBox returns x = 1, y = 11,
width = 10, height = 0; whatever the fuel the result differs from
(left, top, right-left+1, bottom-top+1). -/
theorem blackPage_box_differs :
    blackPage.xform150 = QTransform.identity ∧ blackPage.xform = QTransform.identity ∧
    detectAndTune 25 blackPage.bwimg = some ⟨11, 11, 0, 10⟩ ∧
    findPageBox 25 blackPage = some ⟨1, 11, 10, 0⟩ ∧
    ∀ fuel rect box, detectAndTune fuel blackPage.bwimg = some rect →
      findPageBox fuel blackPage = some box →
      box ≠ ⟨rect.left, rect.top, rect.right - rect.left + 1, rect.bottom - rect.top + 1⟩ := by
  have hid : ∀ fuel, findPageBox fuel blackPage = (detectAndTune fuel blackPage.bwimg).map _ :=
    fun fuel => findPageBox_identity fuel blackPage rfl rfl (by decide)
  have hbox : findPageBox 25 blackPage = some ⟨1, 11, 10, 0⟩ := by
    rw [hid, show blackPage.bwimg = allBlack 12 12 from rfl, allBlack12_detectAndTune]
    simp only [Option.map_some', QRect.left, QRect.top, QRect.width, QRect.height]
    norm_num
  refine ⟨rfl, rfl, allBlack12_detectAndTune, hbox, ?_⟩
  intro fuel rect box h1 h2 hc
  have e := detectAndTune_det fuel 25 _ _ _ h1 allBlack12_detectAndTune
  subst e
  rw [hid, h1] at h2
  simp only [Option.map_some', QRect.left, QRect.top, QRect.width, QRect.height] at h2
  rw [hc] at h2
  have := congrArg QRectF.xp (Option.some.inj h2)
  norm_num [QRect.left] at this

/-- C9, amended: when the normalization transform and the logical transform
are both the identity (and the page is not degenerate), findPageBox returns the
bounding rectangle of the refined integer rectangle: x = min(left, right+1),
y = min(top, bottom+1), width = |right-left+1|, height = |bottom-top+1|. It
equals (left, top, right-left+1, bottom-top+1) converted to floating point
whenever the refined rectangle has width >= 0 and height >= 0. -/
theorem identity_round_trip (data : FilterData)
    (h150 : data.xform150 = QTransform.identity) (hx : data.xform = QTransform.identity)
    (hne : data.resultingRect.isEmpty = false)
    (hw : 1 ≤ data.bwimg.width) (hh : 1 ≤ data.bwimg.height) (fuel : Nat)
    (hf : data.bwimg.width + data.bwimg.height < fuel) :
    ∃ rect, detectAndTune fuel data.bwimg = some rect ∧
      findPageBox fuel data = some ⟨min (rect.left : ℚ) (rect.right + 1),
        min (rect.top : ℚ) (rect.bottom + 1), |(rect.right : ℚ) - rect.left + 1|,
        |(rect.bottom : ℚ) - rect.top + 1|⟩ ∧
      (0 ≤ rect.width → 0 ≤ rect.height →
        findPageBox fuel data = some ⟨rect.left, rect.top, (rect.right : ℚ) - rect.left + 1,
          (rect.bottom : ℚ) - rect.top + 1⟩) := by
  obtain ⟨rect, hr⟩ := detectAndTune_total data.bwimg hw hh fuel hf
  have hbox := findPageBox_identity fuel data h150 hx hne
  rw [hr] at hbox
  simp only [Option.map_some'] at hbox
  have ew : (rect.width : ℚ) = (rect.right : ℚ) - rect.left + 1 := by
    simp [QRect.width, QRect.right, QRect.left]
  have eh : (rect.height : ℚ) = (rect.bottom : ℚ) - rect.top + 1 := by
    simp [QRect.height, QRect.bottom, QRect.top]
  have e1 : (rect.left : ℚ) + rect.width = rect.right + 1 := by rw [ew]; ring
  have e2 : (rect.top : ℚ) + rect.height = rect.bottom + 1 := by rw [eh]; ring
  rw [e1, e2, ew, eh] at hbox
  refine ⟨rect, hr, hbox, ?_⟩
  intro h1 h2
  have h1' : (0 : ℚ) ≤ (rect.right : ℚ) - rect.left + 1 := by
    rw [← ew]; exact_mod_cast h1
  have h2' : (0 : ℚ) ≤ (rect.bottom : ℚ) - rect.top + 1 := by
    rw [← eh]; exact_mod_cast h2
  rw [hbox, abs_of_nonneg h1', abs_of_nonneg h2', min_eq_left (by linarith),
    min_eq_left (by linarith)]

/-- C9, witness of the amended statement: the all-black 12x12 page under
identity transforms. -/
theorem identity_round_trip_witness :
    (blackPage.xform150 = QTransform.identity ∧ blackPage.xform = QTransform.identity ∧
      blackPage.resultingRect.isEmpty = false ∧ 1 ≤ blackPage.bwimg.width ∧
      1 ≤ blackPage.bwimg.height ∧ blackPage.bwimg.width + blackPage.bwimg.height < 25) ∧
    ∃ rect, detectAndTune 25 blackPage.bwimg = some rect ∧
      findPageBox 25 blackPage = some ⟨min (rect.left : ℚ) (rect.right + 1),
        min (rect.top : ℚ) (rect.bottom + 1), |(rect.right : ℚ) - rect.left + 1|,
        |(rect.bottom : ℚ) - rect.top + 1|⟩ ∧
      (0 ≤ rect.width → 0 ≤ rect.height →
        findPageBox 25 blackPage = some ⟨rect.left, rect.top, (rect.right : ℚ) - rect.left + 1,
          (rect.bottom : ℚ) - rect.top + 1⟩) :=
  ⟨⟨rfl, rfl, by decide, by decide, by decide, by decide⟩,
    identity_round_trip blackPage rfl rfl (by decide) (by decide) (by decide) 25 (by decide)⟩

/-! ## The four corner walks one by one -/

/-- The four walks of `fineTuneCorners` with their step counts: the walk of a
corner starts from the edges the earlier walks have left. -/
theorem fineTuneCorners_walks (fuel : Nat) (img : QImage) (rect : QRect)
    (hf : img.width < fuel) :
    ∃ k1 k2 k3 k4 : Nat,
      fineTuneCorner img 1 1 fuel rect.left rect.top = some (rect.left + k1, rect.top + k1) ∧
      fineTuneCorner img (-1) 1 fuel rect.right (rect.top + k1) =
        some (rect.right - k2, rect.top + k1 + k2) ∧
      fineTuneCorner img 1 (-1) fuel (rect.left + k1) rect.bottom =
        some (rect.left + k1 + k3, rect.bottom - k3) ∧
      fineTuneCorner img (-1) (-1) fuel (rect.right - k2) (rect.bottom - k3) =
        some (rect.right - k2 - k4, rect.bottom - k3 - k4) ∧
      fineTuneCorners fuel img rect =
        some ⟨rect.left + k1 + k3, rect.top + k1 + k2, rect.right - k2 - k4,
          rect.bottom - k3 - k4⟩ := by
  obtain ⟨k1, _, _, h1, _⟩ := fineTuneCornerReads_returns img 1 1 (Or.inl rfl) fuel hf
    rect.left rect.top
  obtain ⟨k2, _, _, h2, _⟩ := fineTuneCornerReads_returns img (-1) 1 (Or.inr rfl) fuel
    hf rect.right (rect.top + k1)
  obtain ⟨k3, _, _, h3, _⟩ := fineTuneCornerReads_returns img 1 (-1) (Or.inl rfl) fuel
    hf (rect.left + k1) rect.bottom
  obtain ⟨k4, _, _, h4, _⟩ := fineTuneCornerReads_returns img (-1) (-1) (Or.inr rfl)
    fuel hf (rect.right - k2) (rect.bottom - k3)
  have e1 : rect.left + (k1 : Int) * 1 = rect.left + k1 := by ring
  have e2 : rect.top + (k1 : Int) * 1 = rect.top + k1 := by ring
  have e3 : rect.right + (k2 : Int) * (-1) = rect.right - k2 := by ring
  have e4 : rect.top + (k1 : Int) + (k2 : Int) * 1 = rect.top + k1 + k2 := by ring
  have e5 : rect.left + (k1 : Int) + (k3 : Int) * 1 = rect.left + k1 + k3 := by ring
  have e6 : rect.bottom + (k3 : Int) * (-1) = rect.bottom - k3 := by ring
  have e7 : rect.right - (k2 : Int) + (k4 : Int) * (-1) = rect.right - k2 - k4 := by ring
  have e8 : rect.bottom - (k3 : Int) + (k4 : Int) * (-1) = rect.bottom - k3 - k4 := by ring
  rw [e1, e2] at h1
  rw [e3, e4] at h2
  rw [e5, e6] at h3
  rw [e7, e8] at h4
  refine ⟨k1, k2, k3, k4, h1, h2, h3, h4, ?_⟩
  unfold fineTuneCorners
  simp only [h1, h2, h3, h4, Option.some_bind, QRect.setLeft, QRect.setTop, QRect.setRight,
    QRect.setBottom]

/-! ## C12: the bottom-right corner -/

/-- C12, refuted as stated: on the 3x3 image with black pixels at (0,0) and
(2,1) and the in-bounds rectangle (0,0)-(2,2), fineTuneCorner alone leaves the
bottom-right corner (2,2) where it is, but fineTuneCorners returns right = 1:
the top-left walk moves top to 1, so the top-right walk starts on the black
pixel (2,1) and moves right to 1. This holds whatever the fuel. -/
theorem cornerDots_right_depends_on_top_left :
    cornerDots.contains ⟨0, 0, 2, 2⟩ ∧
    fineTuneCorners 4 cornerDots ⟨0, 0, 2, 2⟩ = some ⟨1, 2, 1, 2⟩ ∧
    fineTuneCorner cornerDots (-1) (-1) 4 2 2 = some (2, 2) ∧
    ∀ fuel res p, fineTuneCorners fuel cornerDots ⟨0, 0, 2, 2⟩ = some res →
      fineTuneCorner cornerDots (-1) (-1) fuel 2 2 = some p →
      (res.right, res.bottom) ≠ p := by
  have h1 : fineTuneCorners 4 cornerDots ⟨0, 0, 2, 2⟩ = some ⟨1, 2, 1, 2⟩ := by decide
  have h2 : fineTuneCorner cornerDots (-1) (-1) 4 2 2 = some (2, 2) := by decide
  refine ⟨by decide, h1, h2, ?_⟩
  intro fuel res p e1 e2
  have := fineTuneCorners_det fuel 4 cornerDots _ _ _ e1 h1
  subst this
  have a := fineTuneCorner_mono cornerDots (-1) (-1) fuel (max fuel 4) 2 2 p (le_max_left _ _) e2
  have b := fineTuneCorner_mono cornerDots (-1) (-1) 4 (max fuel 4) 2 2 (2, 2)
    (le_max_right _ _) h2
  rw [a] at b
  cases b
  decide

/-- C12, amended: for every binary image and every rectangle, the right and
bottom edges after fineTuneCorners are the coordinates fineTuneCorner produces
with direction (-1,-1) from the corner (r2, b3), where r2 is the right edge
left by the top-right walk (itself started at the top edge left by the
top-left walk) and b3 is the bottom edge left by the bottom-left walk; they
are the coordinates of the walk from the input corner (right, bottom) whenever
those two walks leave right and bottom unchanged. -/
theorem bottom_right_after_other_walks (img : QImage) (rect : QRect) (fuel : Nat)
    (hf : img.width < fuel) :
    ∃ (res : QRect) (l1 t1 r2 t2 l3 b3 : Int),
      fineTuneCorners fuel img rect = some res ∧
      fineTuneCorner img 1 1 fuel rect.left rect.top = some (l1, t1) ∧
      fineTuneCorner img (-1) 1 fuel rect.right t1 = some (r2, t2) ∧
      fineTuneCorner img 1 (-1) fuel l1 rect.bottom = some (l3, b3) ∧
      fineTuneCorner img (-1) (-1) fuel r2 b3 = some (res.right, res.bottom) ∧
      (r2 = rect.right → b3 = rect.bottom →
        fineTuneCorner img (-1) (-1) fuel rect.right rect.bottom
          = some (res.right, res.bottom)) := by
  obtain ⟨k1, k2, k3, k4, h1, h2, h3, h4, h⟩ := fineTuneCorners_walks fuel img rect hf
  refine ⟨_, _, _, _, _, _, _, h, h1, h2, h3, h4, ?_⟩
  intro e1 e2
  have z2 : k2 = 0 := by omega
  have z3 : k3 = 0 := by omega
  subst z2 z3
  simpa [QRect.right, QRect.bottom] using h4

/-- C12, witness of the amended statement: the 3x3 image with black pixels at
(0,0) and (2,1), the rectangle (0,0)-(2,2), fuel 4. -/
theorem bottom_right_after_other_walks_witness :
    cornerDots.width < 4 ∧
    ∃ (res : QRect) (l1 t1 r2 t2 l3 b3 : Int),
      fineTuneCorners 4 cornerDots ⟨0, 0, 2, 2⟩ = some res ∧
      fineTuneCorner cornerDots 1 1 4 (QRect.left ⟨0, 0, 2, 2⟩) (QRect.top ⟨0, 0, 2, 2⟩)
        = some (l1, t1) ∧
      fineTuneCorner cornerDots (-1) 1 4 (QRect.right ⟨0, 0, 2, 2⟩) t1 = some (r2, t2) ∧
      fineTuneCorner cornerDots 1 (-1) 4 l1 (QRect.bottom ⟨0, 0, 2, 2⟩) = some (l3, b3) ∧
      fineTuneCorner cornerDots (-1) (-1) 4 r2 b3 = some (res.right, res.bottom) ∧
      (r2 = QRect.right ⟨0, 0, 2, 2⟩ → b3 = QRect.bottom ⟨0, 0, 2, 2⟩ →
        fineTuneCorner cornerDots (-1) (-1) 4 (QRect.right ⟨0, 0, 2, 2⟩)
          (QRect.bottom ⟨0, 0, 2, 2⟩) = some (res.right, res.bottom)) :=
  ⟨by decide, bottom_right_after_other_walks cornerDots ⟨0, 0, 2, 2⟩ 4 (by decide)⟩

/-! ## C15: corner refinement moves inward -/

/-- C15: for every binary image and every rectangle (l, t, r, b),
fineTuneCorners returns a rectangle (l', t', r', b') with l' >= l, t' >= t,
r' <= r and b' <= b, and each of the four corner walks moves by the same
number of steps in x and in y: the walks make k1, k2, k3, k4 diagonal steps
and l' = l + k1 + k3, t' = t + k1 + k2, r' = r - k2 - k4, b' = b - k3 - k4. -/
theorem corner_refinement_inward (img : QImage) (rect : QRect) (fuel : Nat)
    (hf : img.width < fuel) :
    ∃ (res : QRect) (k1 k2 k3 k4 : Nat),
      fineTuneCorners fuel img rect = some res ∧
      rect.left ≤ res.left ∧ rect.top ≤ res.top ∧ res.right ≤ rect.right ∧
      res.bottom ≤ rect.bottom ∧
      fineTuneCorner img 1 1 fuel rect.left rect.top = some (rect.left + k1, rect.top + k1) ∧
      fineTuneCorner img (-1) 1 fuel rect.right (rect.top + k1) =
        some (rect.right - k2, rect.top + k1 + k2) ∧
      fineTuneCorner img 1 (-1) fuel (rect.left + k1) rect.bottom =
        some (rect.left + k1 + k3, rect.bottom - k3) ∧
      fineTuneCorner img (-1) (-1) fuel (rect.right - k2) (rect.bottom - k3) =
        some (rect.right - k2 - k4, rect.bottom - k3 - k4) ∧
      res.left = rect.left + k1 + k3 ∧ res.top = rect.top + k1 + k2 ∧
      res.right = rect.right - k2 - k4 ∧ res.bottom = rect.bottom - k3 - k4 := by
  obtain ⟨k1, k2, k3, k4, h1, h2, h3, h4, h⟩ := fineTuneCorners_walks fuel img rect hf
  refine ⟨_, k1, k2, k3, k4, h, ?_, ?_, ?_, ?_, h1, h2, h3, h4, rfl, rfl, rfl, rfl⟩ <;>
    simp only [QRect.left, QRect.top, QRect.right, QRect.bottom] <;> omega

/-- C15, witness: the 3x3 image with black pixels at (0,0) and (2,1), the
rectangle (0,0)-(2,2), fuel 4. -/
theorem corner_refinement_inward_witness :
    cornerDots.width < 4 ∧
    ∃ res : QRect, fineTuneCorners 4 cornerDots ⟨0, 0, 2, 2⟩ = some res ∧
      QRect.left ⟨0, 0, 2, 2⟩ ≤ res.left ∧ QRect.top ⟨0, 0, 2, 2⟩ ≤ res.top ∧
      res.right ≤ QRect.right ⟨0, 0, 2, 2⟩ ∧ res.bottom ≤ QRect.bottom ⟨0, 0, 2, 2⟩ :=
  ⟨by decide,
    let ⟨res, _, _, _, _, h, a, b, c, d, _⟩ :=
      corner_refinement_inward cornerDots ⟨0, 0, 2, 2⟩ 4 (by decide)
    ⟨res, h, a, b, c, d⟩⟩

/-! ## C19: the detected rectangle lies in the image -/

/-- C19: for every binary image of width w >= 1 and height h >= 1,
detectBorders returns edges with 0 <= left <= w-1, 0 <= right <= w-1 and
0 <= top <= bottom <= h-1, so the height bottom - top + 1 is at least 1; the
bottom edge is the result of the scan from row h-1 that ends at the detected
top edge. -/
theorem detected_rect_in_image (img : QImage) (hw : 1 ≤ img.width) (hh : 1 ≤ img.height)
    (fuel : Nat) (hf : img.width + img.height < fuel) :
    ∃ rect, detectBorders fuel img = some rect ∧
      0 ≤ rect.left ∧ rect.left ≤ (img.width : Int) - 1 ∧
      0 ≤ rect.right ∧ rect.right ≤ (img.width : Int) - 1 ∧
      0 ≤ rect.top ∧ rect.top ≤ rect.bottom ∧ rect.bottom ≤ (img.height : Int) - 1 ∧
      1 ≤ rect.height ∧
      detectEdge fuel img ((img.height : Int) - 1) rect.top (-1)
        (goldenMid ((img.width : Int) - 1)) Orientation.Vertical = some rect.bottom := by
  obtain ⟨rect, h, a1, a2, a3, a4, a5, a6, a7⟩ := detectBorders_range img hw hh fuel hf
  refine ⟨rect, h, a1, a2, a3, a4, a5, a6, a7, ?_, ?_⟩
  · unfold QRect.height
    unfold QRect.top QRect.bottom at a6
    omega
  · unfold detectBorders at h
    simp only [Option.bind_eq_some] at h
    obtain ⟨l, _, t, _, r, _, b, hb, hres⟩ := h
    have e := Option.some.inj hres
    subst e
    simp only [QRect.ofSize, QRect.top, QRect.bottom]
    rw [hb]
    congr 1
    omega

/-- C19, witness: the all-black 12x12 image. -/
theorem detected_rect_in_image_witness :
    (1 ≤ (allBlack 12 12).width ∧ 1 ≤ (allBlack 12 12).height ∧
      (allBlack 12 12).width + (allBlack 12 12).height < 25) ∧
    ∃ rect, detectBorders 25 (allBlack 12 12) = some rect ∧
      0 ≤ rect.left ∧ rect.left ≤ ((allBlack 12 12).width : Int) - 1 ∧
      0 ≤ rect.right ∧ rect.right ≤ ((allBlack 12 12).width : Int) - 1 ∧
      0 ≤ rect.top ∧ rect.top ≤ rect.bottom ∧
      rect.bottom ≤ ((allBlack 12 12).height : Int) - 1 ∧
      1 ≤ rect.height ∧
      detectEdge 25 (allBlack 12 12) (((allBlack 12 12).height : Int) - 1) rect.top (-1)
        (goldenMid (((allBlack 12 12).width : Int) - 1)) Orientation.Vertical
        = some rect.bottom :=
  ⟨⟨by decide, by decide, by decide⟩,
    detected_rect_in_image (allBlack 12 12) (by decide) (by decide) 25 (by decide)⟩

/-! ## C13: the end of the bottom scan -/

/-- The four `detectEdge` calls behind a result of `detectBorders`. -/
theorem detectBorders_edges (fuel : Nat) (img : QImage) (rect : QRect)
    (h : detectBorders fuel img = some rect) :
    detectEdge fuel img 0 ((img.width : Int) - 1) 1 (goldenMid ((img.height : Int) - 1))
      Orientation.Horizontal = some rect.left ∧
    detectEdge fuel img 0 ((img.height : Int) - 1) 1 (goldenMid ((img.width : Int) - 1))
      Orientation.Vertical = some rect.top ∧
    detectEdge fuel img ((img.width : Int) - 1) 0 (-1) (goldenMid ((img.height : Int) - 1))
      Orientation.Horizontal = some rect.right ∧
    detectEdge fuel img ((img.height : Int) - 1) rect.top (-1)
      (goldenMid ((img.width : Int) - 1)) Orientation.Vertical = some rect.bottom := by
  unfold detectBorders at h
  simp only [Option.bind_eq_some] at h
  obtain ⟨l, hl, t, ht, r, hr, b, hb, hres⟩ := h
  have e := Option.some.inj hres
  subst e
  simp only [QRect.ofSize, QRect.left, QRect.top, QRect.right, QRect.bottom]
  refine ⟨hl, ht, ?_, ?_⟩
  · rw [hr]; congr 1; omega
  · rw [hb]; congr 1; omega

/-- C13, the code at the failing input: on the all-black 12x12 image the scan
of the rows from h-1 = 11 toward row 0 (start = 11, end = 0, inc = -1), the
mirror image of the right scan, returns 1, but detectBorders returns
bottom = 11, and whatever the fuel the two differ: detectBorders hands the
bottom scan the already reassigned top edge 10 as its end, where the right
scan is handed the literal 0. -/
theorem black12_bottom_is_not_scan_to_zero :
    1 ≤ (allBlack 12 12).width ∧ 1 ≤ (allBlack 12 12).height ∧
    detectBorders 25 (allBlack 12 12) = some ⟨10, 10, 1, 11⟩ ∧
    detectEdge 25 (allBlack 12 12) (((allBlack 12 12).height : Int) - 1) 0 (-1)
      (goldenMid (((allBlack 12 12).width : Int) - 1)) Orientation.Vertical = some 1 ∧
    ∀ fuel rect e, detectBorders fuel (allBlack 12 12) = some rect →
      detectEdge fuel (allBlack 12 12) (((allBlack 12 12).height : Int) - 1) 0 (-1)
        (goldenMid (((allBlack 12 12).width : Int) - 1)) Orientation.Vertical = some e →
      rect.bottom ≠ e := by
  have h2 : detectEdge 25 (allBlack 12 12) (((allBlack 12 12).height : Int) - 1) 0 (-1)
      (goldenMid (((allBlack 12 12).width : Int) - 1)) Orientation.Vertical = some 1 := by
    decide
  refine ⟨by decide, by decide, allBlack12_detectBorders, h2, ?_⟩
  intro fuel rect e h1 he
  have := detectBorders_det fuel 25 _ _ _ h1 allBlack12_detectBorders
  subst this
  have a := detectEdge_mono fuel (max fuel 25) (le_max_left _ _) _ _ _ _ _ _ _ he
  have b := detectEdge_mono 25 (max fuel 25) (le_max_right _ _) _ _ _ _ _ _ _ h2
  rw [a] at b
  cases b
  decide

/-! ## The coordinates read by detectEdge -/

theorem scanBandReads_step (img : QImage) (orient : Orientation) (i me og : Int) (fuel : Nat)
    (j edge gap : Int) :
    scanBandReads img orient i me og (fuel + 1) j edge gap =
      if j = me then some ((edge, gap), [])
      else if sample img orient i j = color1 then some ((i, 0), [coord orient i j])
      else (scanBandReads img orient i me og fuel (j + 1) edge
        (if gap = og then gap + 1 else gap)).map fun res => (res.1, coord orient i j :: res.2) :=
  rfl

/-- Every coordinate the inner loop reads belongs to the band. -/
theorem scanBandReads_inBand (img : QImage) (orient : Orientation) (i me og : Int) :
    ∀ (fuel : Nat) (j edge gap : Int), j ≤ me → (me - j).toNat < fuel →
      ∃ res reads, scanBandReads img orient i me og fuel j edge gap = some (res, reads) ∧
        ∀ p ∈ reads, ∃ j', j ≤ j' ∧ j' < me ∧ p = coord orient i j' := by
  intro fuel
  induction fuel with
  | zero => intro j edge gap _ h; omega
  | succ k ih =>
    intro j edge gap hj hf
    rw [scanBandReads_step]
    by_cases h1 : j = me
    · rw [if_pos h1]
      exact ⟨_, _, rfl, by simp⟩
    · rw [if_neg h1]
      by_cases h2 : sample img orient i j = color1
      · rw [if_pos h2]
        refine ⟨_, _, rfl, ?_⟩
        intro p hp
        simp only [List.mem_singleton] at hp
        exact ⟨j, le_refl _, by omega, hp⟩
      · rw [if_neg h2]
        obtain ⟨res, reads, hr, hin⟩ := ih (j + 1) edge (if gap = og then gap + 1 else gap)
          (by omega) (by omega)
        rw [hr]
        refine ⟨_, _, rfl, ?_⟩
        intro p hp
        rcases List.mem_cons.mp hp with h | h
        · exact ⟨j, le_refl _, by omega, h⟩
        · obtain ⟨j', a, b, c⟩ := hin p h
          exact ⟨j', by omega, b, c⟩

/-- On a scan line without a black sample the inner loop reads the whole
band, in order. -/
theorem scanBandReads_miss (img : QImage) (orient : Orientation) (i me og : Int) :
    ∀ (fuel : Nat) (j edge gap : Int), j ≤ me → (me - j).toNat < fuel →
      (∀ j', j ≤ j' → j' < me → sample img orient i j' ≠ color1) →
      ∃ res, scanBandReads img orient i me og fuel j edge gap =
        some (res, (List.range (me - j).toNat).map fun k : Nat => coord orient i (j + k)) := by
  intro fuel
  induction fuel with
  | zero => intro j edge gap _ h; omega
  | succ k ih =>
    intro j edge gap hj hf hw
    rw [scanBandReads_step]
    by_cases h1 : j = me
    · rw [if_pos h1]
      subst h1
      exact ⟨(edge, gap), by simp⟩
    · rw [if_neg h1, if_neg (hw j (le_refl _) (by omega))]
      obtain ⟨res, hr⟩ := ih (j + 1) edge (if gap = og then gap + 1 else gap)
        (by omega) (by omega) (fun j' a b => hw j' (by omega) b)
      rw [hr]
      refine ⟨res, ?_⟩
      simp only [Option.map_some']
      have hn : (me - j).toNat = (me - (j + 1)).toNat + 1 := by omega
      rw [hn, List.range_succ_eq_map, List.map_cons, List.map_map]
      congr 3
      · simp
      · apply List.map_congr_left
        intro a _
        simp only [Function.comp_apply, Nat.cast_succ]
        congr 1
        ring

theorem detectEdgeLoopReads_succ (img : QImage) (end_ inc mid : Int) (orient : Orientation)
    (bandFuel fuel : Nat) (i edge gap : Int) :
    detectEdgeLoopReads img end_ inc mid orient bandFuel (fuel + 1) i edge gap =
      if i = end_ then some (⟨i, edge, gap⟩, [])
      else
        match scanBandReads img orient i (mid + quarter mid) gap bandFuel (mid - quarter mid)
            edge gap with
        | none => none
        | some ((edge', gap'), reads) =>
          if gap' > 20 then some (⟨i, edge', gap'⟩, reads)
          else (detectEdgeLoopReads img end_ inc mid orient bandFuel fuel (i + inc) edge'
            gap').map fun res => (res.1, reads ++ res.2) :=
  rfl

/-- With enough fuel a scan towards `end_` returns, and every coordinate it
reads is a sample of the band on a scan line strictly before `end_`. -/
theorem detectEdgeLoopReads_reads (img : QImage) (end_ inc mid : Int) (orient : Orientation)
    (bandFuel : Nat) (hq : 0 ≤ quarter mid) (hbf : (2 * quarter mid).toNat < bandFuel)
    (hinc : inc ≠ 0) :
    ∀ (n fuel : Nat) (i edge gap : Int), end_ = i + n * inc → n < fuel →
      ∃ st reads, detectEdgeLoopReads img end_ inc mid orient bandFuel fuel i edge gap
          = some (st, reads) ∧
        ∀ p ∈ reads, ∃ k : Nat, k < n ∧ ∃ j, mid - quarter mid ≤ j ∧ j < mid + quarter mid ∧
          p = coord orient (i + k * inc) j := by
  intro n
  induction n with
  | zero =>
    intro fuel i edge gap he hf
    obtain ⟨f, rfl⟩ : ∃ f, fuel = f + 1 := ⟨fuel - 1, by omega⟩
    refine ⟨⟨i, edge, gap⟩, [], ?_, by simp⟩
    rw [detectEdgeLoopReads_succ, if_pos (by simpa using he.symm)]
  | succ n ih =>
    intro fuel i edge gap he hf
    obtain ⟨f, rfl⟩ : ∃ f, fuel = f + 1 := ⟨fuel - 1, by omega⟩
    have hne : i ≠ end_ := by
      intro h
      have : ((n : Int) + 1) * inc = 0 := by push_cast at he; linarith
      rcases mul_eq_zero.mp this with h1 | h1
      · omega
      · exact hinc h1
    obtain ⟨res, rd, hb, hin⟩ := scanBandReads_inBand img orient i (mid + quarter mid) gap
      bandFuel (mid - quarter mid) edge gap (by omega) (by omega)
    obtain ⟨e, g⟩ := res
    have hcur : ∀ p ∈ rd, ∃ k : Nat, k < n + 1 ∧ ∃ j, mid - quarter mid ≤ j ∧
        j < mid + quarter mid ∧ p = coord orient (i + k * inc) j := by
      intro p hp
      obtain ⟨j, a, b, c⟩ := hin p hp
      exact ⟨0, by omega, j, a, b, by simpa using c⟩
    rw [detectEdgeLoopReads_succ, if_neg hne, hb]
    simp only
    by_cases hg : g > 20
    · rw [if_pos hg]
      exact ⟨_, _, rfl, hcur⟩
    · rw [if_neg hg]
      obtain ⟨st, rest, hr, hrest⟩ := ih f (i + inc) e g (by push_cast at he ⊢; linarith)
        (by omega)
      rw [hr]
      refine ⟨_, _, rfl, ?_⟩
      intro p hp
      rcases List.mem_append.mp hp with h | h
      · exact hcur p h
      · obtain ⟨k, hk, j, a, b, c⟩ := hrest p h
        refine ⟨k + 1, by omega, j, a, b, ?_⟩
        rw [c]
        congr 1
        push_cast
        ring

/-- With an empty band a scan reads nothing, keeps `edge` and `gap` and runs
up to `end_`. -/
theorem detectEdgeLoopReads_emptyBand (img : QImage) (end_ inc mid : Int)
    (orient : Orientation) (bandFuel : Nat) (hq : quarter mid = 0) (hbf : 0 < bandFuel)
    (hinc : inc ≠ 0) :
    ∀ (n fuel : Nat) (i edge gap : Int), end_ = i + n * inc → n < fuel → gap ≤ 20 →
      detectEdgeLoopReads img end_ inc mid orient bandFuel fuel i edge gap
        = some (⟨end_, edge, gap⟩, []) := by
  intro n
  induction n with
  | zero =>
    intro fuel i edge gap he hf _
    obtain ⟨f, rfl⟩ : ∃ f, fuel = f + 1 := ⟨fuel - 1, by omega⟩
    have : i = end_ := by simpa using he.symm
    rw [detectEdgeLoopReads_succ, if_pos this, this]
  | succ n ih =>
    intro fuel i edge gap he hf hg
    obtain ⟨f, rfl⟩ : ∃ f, fuel = f + 1 := ⟨fuel - 1, by omega⟩
    obtain ⟨bf, rfl⟩ : ∃ bf, bandFuel = bf + 1 := ⟨bandFuel - 1, by omega⟩
    have hne : i ≠ end_ := by
      intro h
      have : ((n : Int) + 1) * inc = 0 := by push_cast at he; linarith
      rcases mul_eq_zero.mp this with h1 | h1
      · omega
      · exact hinc h1
    have hb : scanBandReads img orient i (mid + quarter mid) gap (bf + 1) (mid - quarter mid)
        edge gap = some ((edge, gap), []) := by
      rw [scanBandReads_step, if_pos (by omega)]
    rw [detectEdgeLoopReads_succ, if_neg hne, hb]
    simp only
    rw [if_neg (by omega), ih f (i + inc) edge gap (by push_cast at he ⊢; linarith) (by omega) hg]
    rfl

/-- The result and the reads of one `detectEdge` call with enough fuel. -/
theorem detectEdgeReads_spec (fuel : Nat) (img : QImage) (start end_ inc mid : Int)
    (orient : Orientation) (n : Nat) (hmid : 0 ≤ mid) (hbf : mid < fuel) (hinc : inc ≠ 0)
    (he : end_ = start + n * inc) (hn : n < fuel) :
    ∃ e reads, detectEdgeReads fuel img start end_ inc mid orient = some (e, reads) ∧
      detectEdge fuel img start end_ inc mid orient = some e ∧
      (e = start ∨ ∃ k : Nat, k < n ∧ e = start + k * inc) ∧
      ∀ p ∈ reads, ∃ k : Nat, k < n ∧ ∃ j, mid - quarter mid ≤ j ∧ j < mid + quarter mid ∧
        p = coord orient (start + k * inc) j := by
  obtain ⟨hq, hb⟩ := band_fuel mid fuel hmid hbf
  obtain ⟨st, reads, hst, hreads⟩ := detectEdgeLoopReads_reads img end_ inc mid orient fuel hq hb
    hinc n fuel start start 0 he hn
  obtain ⟨e, hedge, hrange⟩ := detectEdge_total fuel img start end_ inc mid orient n hmid hbf
    hinc he hn
  have hr : detectEdgeReads fuel img start end_ inc mid orient = some (st.edge, reads) := by
    unfold detectEdgeReads
    rw [hst]
    rfl
  have hfst := detectEdgeReads_fst fuel img start end_ inc mid orient
  rw [hr, hedge] at hfst
  simp only [Option.map_some'] at hfst
  have hee : st.edge = e := Option.some.inj hfst
  rw [hee] at hr
  exact ⟨e, reads, hr, hedge, hrange, hreads⟩

/-- The result and the reads of `detectBorders`, scan by scan. -/
theorem detectBordersReads_spec (img : QImage) (hw : 1 ≤ img.width) (hh : 1 ≤ img.height)
    (fuel : Nat) (hf : img.width + img.height < fuel) :
    ∃ (l t r b : Int) (rl rt rr rb : List (Int × Int)),
      detectEdgeReads fuel img 0 ((img.width : Int) - 1) 1 (goldenMid ((img.height : Int) - 1))
        Orientation.Horizontal = some (l, rl) ∧
      detectEdgeReads fuel img 0 ((img.height : Int) - 1) 1 (goldenMid ((img.width : Int) - 1))
        Orientation.Vertical = some (t, rt) ∧
      detectEdgeReads fuel img ((img.width : Int) - 1) 0 (-1)
        (goldenMid ((img.height : Int) - 1)) Orientation.Horizontal = some (r, rr) ∧
      detectEdgeReads fuel img ((img.height : Int) - 1) t (-1)
        (goldenMid ((img.width : Int) - 1)) Orientation.Vertical = some (b, rb) ∧
      detectBordersReads fuel img = some (⟨l, t, r, b⟩, rl ++ rt ++ rr ++ rb) ∧
      detectBorders fuel img = some ⟨l, t, r, b⟩ ∧
      (∀ p ∈ rl ++ rr, 0 ≤ p.1 ∧ p.1 ≤ (img.width : Int) - 1 ∧
        goldenMid ((img.height : Int) - 1) - quarter (goldenMid ((img.height : Int) - 1)) ≤ p.2 ∧
        p.2 < goldenMid ((img.height : Int) - 1) + quarter (goldenMid ((img.height : Int) - 1))) ∧
      (∀ p ∈ rt ++ rb, 0 ≤ p.2 ∧ p.2 ≤ (img.height : Int) - 1 ∧
        goldenMid ((img.width : Int) - 1) - quarter (goldenMid ((img.width : Int) - 1)) ≤ p.1 ∧
        p.1 < goldenMid ((img.width : Int) - 1) + quarter (goldenMid ((img.width : Int) - 1))) := by
  obtain ⟨hx0, hxf, hy0, hyf⟩ := goldenMid_fuel img hw hh fuel hf
  obtain ⟨l, rl, hl, hl1, _, hlr⟩ := detectEdgeReads_spec fuel img 0 ((img.width : Int) - 1) 1
    (goldenMid ((img.height : Int) - 1)) Orientation.Horizontal (img.width - 1) hy0 hyf
    (by norm_num) (by push_cast [Nat.cast_sub hw]; ring) (by omega)
  obtain ⟨t, rt, ht, ht1, ht', htr⟩ := detectEdgeReads_spec fuel img 0 ((img.height : Int) - 1) 1
    (goldenMid ((img.width : Int) - 1)) Orientation.Vertical (img.height - 1) hx0 hxf
    (by norm_num) (by push_cast [Nat.cast_sub hh]; ring) (by omega)
  obtain ⟨r, rr, hr, hr1, _, hrr⟩ := detectEdgeReads_spec fuel img ((img.width : Int) - 1) 0 (-1)
    (goldenMid ((img.height : Int) - 1)) Orientation.Horizontal (img.width - 1) hy0 hyf
    (by norm_num) (by push_cast [Nat.cast_sub hw]; ring) (by omega)
  have htrange : 0 ≤ t ∧ t ≤ (img.height : Int) - 1 := by
    rcases ht' with h | ⟨k, hk, h⟩ <;> omega
  obtain ⟨b, rb, hb, hb1, _, hbr⟩ := detectEdgeReads_spec fuel img ((img.height : Int) - 1) t (-1)
    (goldenMid ((img.width : Int) - 1)) Orientation.Vertical ((img.height : Int) - 1 - t).toNat
    hx0 hxf (by norm_num) (by rw [Int.toNat_of_nonneg (by omega)]; ring) (by omega)
  refine ⟨l, t, r, b, rl, rt, rr, rb, hl, ht, hr, hb, ?_,
    detectBorders_of_edges fuel img l t r b hl1 ht1 hr1 hb1, ?_, ?_⟩
  · unfold detectBordersReads
    simp only [hl, ht, hr, hb, Option.some_bind, QRect.ofSize]
    congr 3 <;> omega
  · intro p hp
    rcases List.mem_append.mp hp with h | h
    · obtain ⟨k, hk, j, a, c, e⟩ := hlr p h
      subst e
      simp only [coord, reduceCtorEq, if_false]
      refine ⟨by omega, by omega, a, c⟩
    · obtain ⟨k, hk, j, a, c, e⟩ := hrr p h
      subst e
      simp only [coord, reduceCtorEq, if_false]
      refine ⟨by omega, by omega, a, c⟩
  · intro p hp
    rcases List.mem_append.mp hp with h | h
    · obtain ⟨k, hk, j, a, c, e⟩ := htr p h
      subst e
      simp only [coord, if_true]
      refine ⟨by omega, by omega, a, c⟩
    · obtain ⟨k, hk, j, a, c, e⟩ := hbr p h
      subst e
      simp only [coord, if_true]
      refine ⟨by omega, by omega, a, c⟩

/-- The bands of `detectBorders` lie inside the image. -/
theorem band_in_image (r : Int) (hr : 0 ≤ r) :
    0 ≤ goldenMid r - quarter (goldenMid r) ∧ goldenMid r + quarter (goldenMid r) ≤ r + 1 := by
  have g := goldenMid_of_nonneg r hr
  have q := quarter_of_nonneg (goldenMid r) g.1
  omega

/-! ## C18: the scans read inside the image -/

/-- C18: for every binary image of width w >= 1 and height h >= 1, with mid
computed as trunc(0.382 x (extent-1)) and the band as
[mid - trunc(mid/4), mid + trunc(mid/4)), every coordinate (x, y) the four
detectEdge calls of detectBorders pass to pixelIndex satisfies 0 <= x <= w-1
and 0 <= y <= h-1, and pixelIndex never returns its out-of-range value. -/
theorem scan_reads_inside (img : QImage) (hw : 1 ≤ img.width) (hh : 1 ≤ img.height)
    (fuel : Nat) (hf : img.width + img.height < fuel) :
    ∃ rect reads, detectBordersReads fuel img = some (rect, reads) ∧
      detectBorders fuel img = some rect ∧
      ∀ p ∈ reads, (0 ≤ p.1 ∧ p.1 ≤ (img.width : Int) - 1 ∧
        0 ≤ p.2 ∧ p.2 ≤ (img.height : Int) - 1) ∧ img.pixelIndex p.1 p.2 ≠ outOfRange := by
  obtain ⟨l, t, r, b, rl, rt, rr, rb, _, _, _, _, h, h', hH, hV⟩ :=
    detectBordersReads_spec img hw hh fuel hf
  have bx := band_in_image ((img.width : Int) - 1) (by omega)
  have bY := band_in_image ((img.height : Int) - 1) (by omega)
  refine ⟨_, _, h, h', ?_⟩
  have key : ∀ p ∈ rl ++ rt ++ rr ++ rb, 0 ≤ p.1 ∧ p.1 ≤ (img.width : Int) - 1 ∧
      0 ≤ p.2 ∧ p.2 ≤ (img.height : Int) - 1 := by
    intro p hp
    simp only [List.mem_append] at hp
    have hcase : p ∈ rl ++ rr ∨ p ∈ rt ++ rb := by
      simp only [List.mem_append]
      tauto
    rcases hcase with h1 | h1
    · obtain ⟨a, c, d, e⟩ := hH p h1
      exact ⟨a, c, by omega, by omega⟩
    · obtain ⟨a, c, d, e⟩ := hV p h1
      exact ⟨by omega, by omega, a, c⟩
  intro p hp
  obtain ⟨a, c, d, e⟩ := key p hp
  refine ⟨⟨a, c, d, e⟩, ?_⟩
  unfold QImage.pixelIndex outOfRange
  rw [if_neg (by omega)]
  split_ifs <;> norm_num

/-- C18, witness: the all-black 12x12 image. -/
theorem scan_reads_inside_witness :
    (1 ≤ (allBlack 12 12).width ∧ 1 ≤ (allBlack 12 12).height ∧
      (allBlack 12 12).width + (allBlack 12 12).height < 25) ∧
    ∃ rect reads, detectBordersReads 25 (allBlack 12 12) = some (rect, reads) ∧
      detectBorders 25 (allBlack 12 12) = some rect ∧
      ∀ p ∈ reads, (0 ≤ p.1 ∧ p.1 ≤ ((allBlack 12 12).width : Int) - 1 ∧
        0 ≤ p.2 ∧ p.2 ≤ ((allBlack 12 12).height : Int) - 1) ∧
        (allBlack 12 12).pixelIndex p.1 p.2 ≠ outOfRange :=
  ⟨⟨by decide, by decide, by decide⟩,
    scan_reads_inside (allBlack 12 12) (by decide) (by decide) 25 (by decide)⟩

/-! ## C20: empty bands -/

/-- The midpoint of an extent of at most 11 pixels is below 4. -/
theorem goldenMid_small (r : Int) (h0 : 0 ≤ r) (h1 : r ≤ 10) :
    0 ≤ goldenMid r ∧ goldenMid r < 4 := by
  interval_cases r <;> decide

/-- A scan with an empty band: no read, `gap` stays 0, the result is `start`. -/
theorem detectEdge_emptyBand (fuel : Nat) (img : QImage) (start end_ inc mid : Int)
    (orient : Orientation) (hmid0 : 0 ≤ mid) (hmid : mid < 4)
    (hdir : (inc = 1 ∧ start ≤ end_) ∨ (inc = -1 ∧ end_ ≤ start))
    (hf : |end_ - start| < fuel) :
    mid - quarter mid = mid + quarter mid ∧
    detectEdgeLoopReads img end_ inc mid orient fuel fuel start start 0
      = some (⟨end_, start, 0⟩, []) ∧
    detectEdgeReads fuel img start end_ inc mid orient = some (start, []) ∧
    detectEdge fuel img start end_ inc mid orient = some start := by
  have hq : quarter mid = 0 := by
    have := quarter_of_nonneg mid hmid0
    omega
  have habs : |end_ - start| = (end_ - start).natAbs := Int.abs_eq_natAbs _
  have hend : end_ = start + ((end_ - start).natAbs : Int) * inc := by
    rcases hdir with ⟨rfl, h⟩ | ⟨rfl, h⟩ <;> omega
  have hinc : inc ≠ 0 := by
    rcases hdir with ⟨rfl, _⟩ | ⟨rfl, _⟩ <;> norm_num
  have hloop := detectEdgeLoopReads_emptyBand img end_ inc mid orient fuel hq (by omega) hinc
    (end_ - start).natAbs fuel start start 0 hend (by omega) (by norm_num)
  have hr : detectEdgeReads fuel img start end_ inc mid orient = some (start, []) := by
    unfold detectEdgeReads
    rw [hloop]
    rfl
  refine ⟨by omega, hloop, hr, ?_⟩
  rw [← detectEdgeReads_fst, hr]
  rfl

/-- C20: a detectEdge call with 0 <= mid < 4 towards a reachable end has an
empty band, reads no pixel, leaves gap at 0 and returns start. Hence for every
binary image (of width and height at least 1) of height at most 11
detectBorders returns left = 0 and right = width-1, and for every such image
of width at most 11 it returns top = 0 and bottom = height-1, whatever the
pixels are. -/
theorem empty_band_small_images (img : QImage) (hw : 1 ≤ img.width) (hh : 1 ≤ img.height)
    (fuel : Nat) (hf : img.width + img.height < fuel) :
    (∀ (start end_ inc mid : Int) (orient : Orientation), 0 ≤ mid → mid < 4 →
      ((inc = 1 ∧ start ≤ end_) ∨ (inc = -1 ∧ end_ ≤ start)) → |end_ - start| < fuel →
      mid - quarter mid = mid + quarter mid ∧
      detectEdgeLoopReads img end_ inc mid orient fuel fuel start start 0
        = some (⟨end_, start, 0⟩, []) ∧
      detectEdgeReads fuel img start end_ inc mid orient = some (start, []) ∧
      detectEdge fuel img start end_ inc mid orient = some start) ∧
    (img.height ≤ 11 → ∃ rect, detectBorders fuel img = some rect ∧
      rect.left = 0 ∧ rect.right = (img.width : Int) - 1) ∧
    (img.width ≤ 11 → ∃ rect, detectBorders fuel img = some rect ∧
      rect.top = 0 ∧ rect.bottom = (img.height : Int) - 1) := by
  obtain ⟨rect, hrect, _, _, _, _, _, _, _⟩ := detectBorders_range img hw hh fuel hf
  obtain ⟨el, et, er, eb⟩ := detectBorders_edges fuel img rect hrect
  refine ⟨fun start end_ inc mid orient h0 h4 hdir hfu =>
    detectEdge_emptyBand fuel img start end_ inc mid orient h0 h4 hdir hfu, ?_, ?_⟩
  · intro hsmall
    have g := goldenMid_small ((img.height : Int) - 1) (by omega) (by omega)
    have a := (detectEdge_emptyBand fuel img 0 ((img.width : Int) - 1) 1
      (goldenMid ((img.height : Int) - 1)) Orientation.Horizontal g.1 g.2
      (Or.inl ⟨rfl, by omega⟩) (by rw [abs_of_nonneg (by omega)]; omega)).2.2.2
    have b := (detectEdge_emptyBand fuel img ((img.width : Int) - 1) 0 (-1)
      (goldenMid ((img.height : Int) - 1)) Orientation.Horizontal g.1 g.2
      (Or.inr ⟨rfl, by omega⟩) (by rw [abs_of_nonpos (by omega)]; omega)).2.2.2
    rw [el] at a
    rw [er] at b
    exact ⟨rect, hrect, Option.some.inj a, Option.some.inj b⟩
  · intro hsmall
    have g := goldenMid_small ((img.width : Int) - 1) (by omega) (by omega)
    have a := (detectEdge_emptyBand fuel img 0 ((img.height : Int) - 1) 1
      (goldenMid ((img.width : Int) - 1)) Orientation.Vertical g.1 g.2
      (Or.inl ⟨rfl, by omega⟩) (by rw [abs_of_nonneg (by omega)]; omega)).2.2.2
    rw [et] at a
    have ht : rect.top = 0 := Option.some.inj a
    rw [ht] at eb
    have b := (detectEdge_emptyBand fuel img ((img.height : Int) - 1) 0 (-1)
      (goldenMid ((img.width : Int) - 1)) Orientation.Vertical g.1 g.2
      (Or.inr ⟨rfl, by omega⟩) (by rw [abs_of_nonpos (by omega)]; omega)).2.2.2
    rw [eb] at b
    exact ⟨rect, hrect, ht, Option.some.inj b⟩

/-- C20, witness: the all-black 2x2 image, whose detected rectangle is the
whole image although every pixel is black. -/
theorem empty_band_small_images_witness :
    (1 ≤ (allBlack 2 2).width ∧ 1 ≤ (allBlack 2 2).height ∧
      (allBlack 2 2).width + (allBlack 2 2).height < 5 ∧ (allBlack 2 2).height ≤ 11 ∧
      (allBlack 2 2).width ≤ 11) ∧
    (∃ rect, detectBorders 5 (allBlack 2 2) = some rect ∧
      rect.left = 0 ∧ rect.right = ((allBlack 2 2).width : Int) - 1) ∧
    (∃ rect, detectBorders 5 (allBlack 2 2) = some rect ∧
      rect.top = 0 ∧ rect.bottom = ((allBlack 2 2).height : Int) - 1) :=
  ⟨⟨by decide, by decide, by decide, by decide, by decide⟩,
    (empty_band_small_images (allBlack 2 2) (by decide) (by decide) 5 (by decide)).2.1
      (by decide),
    (empty_band_small_images (allBlack 2 2) (by decide) (by decide) 5 (by decide)).2.2
      (by decide)⟩

/-! ## More fuel never changes the reads -/

theorem scanBandReads_mono (img : QImage) (orient : Orientation) (i me og : Int) :
    ∀ (fuel fuel' : Nat) (j edge gap : Int) (res : (Int × Int) × List (Int × Int)),
      fuel ≤ fuel' → scanBandReads img orient i me og fuel j edge gap = some res →
      scanBandReads img orient i me og fuel' j edge gap = some res := by
  intro fuel
  induction fuel with
  | zero => intro fuel' j edge gap res _ h; simp [scanBandReads] at h
  | succ k ih =>
    intro fuel' j edge gap res hle h
    obtain ⟨f, rfl⟩ : ∃ f, fuel' = f + 1 := ⟨fuel' - 1, by omega⟩
    rw [scanBandReads_step] at h ⊢
    by_cases h1 : j = me
    · rw [if_pos h1] at h ⊢; exact h
    · rw [if_neg h1] at h ⊢
      by_cases h2 : sample img orient i j = color1
      · rw [if_pos h2] at h ⊢; exact h
      · rw [if_neg h2] at h ⊢
        cases hs : scanBandReads img orient i me og k (j + 1) edge
          (if gap = og then gap + 1 else gap) with
        | none => rw [hs] at h; simp at h
        | some r =>
          rw [hs] at h
          rw [ih f (j + 1) edge _ r (by omega) hs]
          exact h

theorem detectEdgeLoopReads_mono (img : QImage) (end_ inc mid : Int) (orient : Orientation)
    (bandFuel bandFuel' : Nat) (hb : bandFuel ≤ bandFuel') :
    ∀ (fuel fuel' : Nat) (i edge gap : Int) (res : ScanState × List (Int × Int)),
      fuel ≤ fuel' →
      detectEdgeLoopReads img end_ inc mid orient bandFuel fuel i edge gap = some res →
      detectEdgeLoopReads img end_ inc mid orient bandFuel' fuel' i edge gap = some res := by
  intro fuel
  induction fuel with
  | zero => intro fuel' i edge gap res _ h; simp [detectEdgeLoopReads] at h
  | succ k ih =>
    intro fuel' i edge gap res hle h
    obtain ⟨f, rfl⟩ : ∃ f, fuel' = f + 1 := ⟨fuel' - 1, by omega⟩
    rw [detectEdgeLoopReads_succ] at h ⊢
    by_cases h1 : i = end_
    · rw [if_pos h1] at h ⊢; exact h
    · rw [if_neg h1] at h ⊢
      cases hs : scanBandReads img orient i (mid + quarter mid) gap bandFuel
        (mid - quarter mid) edge gap with
      | none => rw [hs] at h; simp at h
      | some r =>
        obtain ⟨⟨e, g⟩, rd⟩ := r
        rw [hs] at h
        rw [scanBandReads_mono img orient i _ gap bandFuel bandFuel' _ edge gap _ hb hs]
        simp only at h ⊢
        by_cases h2 : g > 20
        · rw [if_pos h2] at h ⊢; exact h
        · rw [if_neg h2] at h ⊢
          cases hl : detectEdgeLoopReads img end_ inc mid orient bandFuel k (i + inc) e g with
          | none => rw [hl] at h; simp at h
          | some r2 =>
            rw [hl] at h
            rw [ih f (i + inc) e g r2 (by omega) hl]
            exact h

theorem detectEdgeReads_mono (fuel fuel' : Nat) (hle : fuel ≤ fuel') (img : QImage)
    (start end_ inc mid : Int) (orient : Orientation) (res : Int × List (Int × Int))
    (h : detectEdgeReads fuel img start end_ inc mid orient = some res) :
    detectEdgeReads fuel' img start end_ inc mid orient = some res := by
  unfold detectEdgeReads at h ⊢
  cases hs : detectEdgeLoopReads img end_ inc mid orient fuel fuel start start 0 with
  | none => rw [hs] at h; simp at h
  | some st =>
    rw [hs] at h
    rw [detectEdgeLoopReads_mono img end_ inc mid orient fuel fuel' hle fuel fuel' start start 0
      st hle hs]
    exact h

/-! ## C16: where the band lies -/

/-- C16, refuted as stated: for the all-white image of width 2 and height 14
the claimed midpoint floor(0.382 x 14) is 5, with the band of rows 4 and 5,
but detectBorders computes int(13 x 0.382) = 4, and whatever the fuel its left
scan reads row 3 and never reads row 5. -/
theorem white14_band_differs :
    claimedMid ((allWhite 2 14).height) = 5 ∧
    goldenMid (((allWhite 2 14).height : Int) - 1) = 4 ∧
    detectEdgeReads 17 (allWhite 2 14) 0 (((allWhite 2 14).width : Int) - 1) 1
      (goldenMid (((allWhite 2 14).height : Int) - 1)) Orientation.Horizontal
      = some (0, [(0, 3), (0, 4)]) ∧
    ∀ fuel res, detectEdgeReads fuel (allWhite 2 14) 0 (((allWhite 2 14).width : Int) - 1) 1
        (goldenMid (((allWhite 2 14).height : Int) - 1)) Orientation.Horizontal = some res →
      ((0, 3) ∈ res.2 ∧
        ¬ (claimedMid ((allWhite 2 14).height)
          - quarter (claimedMid ((allWhite 2 14).height)) ≤ 3)) ∧
      ((0, 5) ∉ res.2 ∧
        claimedMid ((allWhite 2 14).height)
          - quarter (claimedMid ((allWhite 2 14).height)) ≤ 5 ∧
        5 < claimedMid ((allWhite 2 14).height)
          + quarter (claimedMid ((allWhite 2 14).height))) := by
  have h1 : detectEdgeReads 17 (allWhite 2 14) 0 (((allWhite 2 14).width : Int) - 1) 1
      (goldenMid (((allWhite 2 14).height : Int) - 1)) Orientation.Horizontal
      = some (0, [(0, 3), (0, 4)]) := by decide
  refine ⟨by decide, by decide, h1, ?_⟩
  intro fuel res h
  have a := detectEdgeReads_mono fuel (max fuel 17) (le_max_left _ _) _ _ _ _ _ _ _ h
  have b := detectEdgeReads_mono 17 (max fuel 17) (le_max_right _ _) _ _ _ _ _ _ _ h1
  rw [a] at b
  cases b
  decide

/-- C16, amended: for every image of width W >= 1 and height H >= 1, the left
and right scans of detectBorders read only rows of the band
[mid - trunc(mid/4), mid + trunc(mid/4)) with mid = int(double(H-1) x 0.382),
computed from the largest row index H-1 and not from the extent H, and the top
and bottom scans read only columns of the same band built from
mid = int(double(W-1) x 0.382); on a scan line without a black sample the
whole band is read, in order. -/
theorem sampling_band (img : QImage) (hw : 1 ≤ img.width) (hh : 1 ≤ img.height)
    (fuel : Nat) (hf : img.width + img.height < fuel) :
    (∃ (l t r b : Int) (rl rt rr rb : List (Int × Int)),
      detectEdgeReads fuel img 0 ((img.width : Int) - 1) 1 (goldenMid ((img.height : Int) - 1))
        Orientation.Horizontal = some (l, rl) ∧
      detectEdgeReads fuel img 0 ((img.height : Int) - 1) 1 (goldenMid ((img.width : Int) - 1))
        Orientation.Vertical = some (t, rt) ∧
      detectEdgeReads fuel img ((img.width : Int) - 1) 0 (-1)
        (goldenMid ((img.height : Int) - 1)) Orientation.Horizontal = some (r, rr) ∧
      detectEdgeReads fuel img ((img.height : Int) - 1) t (-1)
        (goldenMid ((img.width : Int) - 1)) Orientation.Vertical = some (b, rb) ∧
      detectBordersReads fuel img = some (⟨l, t, r, b⟩, rl ++ rt ++ rr ++ rb) ∧
      (∀ p ∈ rl ++ rr,
        goldenMid ((img.height : Int) - 1) - quarter (goldenMid ((img.height : Int) - 1)) ≤ p.2 ∧
        p.2 < goldenMid ((img.height : Int) - 1) + quarter (goldenMid ((img.height : Int) - 1))) ∧
      (∀ p ∈ rt ++ rb,
        goldenMid ((img.width : Int) - 1) - quarter (goldenMid ((img.width : Int) - 1)) ≤ p.1 ∧
        p.1 < goldenMid ((img.width : Int) - 1) + quarter (goldenMid ((img.width : Int) - 1)))) ∧
    (∀ (orient : Orientation) (i mid edge gap : Int), 0 ≤ mid → mid < fuel →
      (∀ j, mid - quarter mid ≤ j → j < mid + quarter mid → sample img orient i j ≠ color1) →
      ∃ res, scanBandReads img orient i (mid + quarter mid) gap fuel (mid - quarter mid) edge gap
        = some (res, (List.range (2 * quarter mid).toNat).map
            fun k : Nat => coord orient i (mid - quarter mid + k))) := by
  constructor
  · obtain ⟨l, t, r, b, rl, rt, rr, rb, h1, h2, h3, h4, h5, _, hH, hV⟩ :=
      detectBordersReads_spec img hw hh fuel hf
    exact ⟨l, t, r, b, rl, rt, rr, rb, h1, h2, h3, h4, h5,
      fun p hp => (hH p hp).2.2, fun p hp => (hV p hp).2.2⟩
  · intro orient i mid edge gap h0 hfu hmiss
    obtain ⟨hq, hb⟩ := band_fuel mid fuel h0 hfu
    obtain ⟨res, hres⟩ := scanBandReads_miss img orient i (mid + quarter mid) gap fuel
      (mid - quarter mid) edge gap (by omega) (by omega) hmiss
    refine ⟨res, ?_⟩
    rw [hres]
    congr 4
    omega

/-- C16, witness of the amended statement: the all-white image of width 2 and
height 14. -/
theorem sampling_band_witness :
    (1 ≤ (allWhite 2 14).width ∧ 1 ≤ (allWhite 2 14).height ∧
      (allWhite 2 14).width + (allWhite 2 14).height < 17) ∧
    ∃ res, scanBandReads (allWhite 2 14) Orientation.Horizontal 0 (4 + quarter 4) 0 17
      (4 - quarter 4) 0 0
        = some (res, (List.range (2 * quarter 4).toNat).map
            fun k : Nat => coord Orientation.Horizontal 0 (4 - quarter 4 + k)) :=
  ⟨⟨by decide, by decide, by decide⟩,
    (sampling_band (allWhite 2 14) (by decide) (by decide) 17 (by decide)).2
      Orientation.Horizontal 0 4 0 0 (by decide) (by decide)
      (fun j _ _ => sample_ne_of_white (allWhite 2 14) (fun _ _ => rfl) _ _ _)⟩

/-! ## C14: a single black pixel -/

/-- A sample away from the only black pixel is not black. -/
theorem sample_ne_of_speck (img : QImage) (px py : Int)
    (hspeck : ∀ x y, img.black x y = true ↔ (x = px ∧ y = py))
    (orient : Orientation) (i j : Int)
    (h : (orient = Orientation.Horizontal ∧ (i ≠ px ∨ j ≠ py)) ∨
      (orient = Orientation.Vertical ∧ (j ≠ px ∨ i ≠ py))) :
    sample img orient i j ≠ color1 := by
  unfold sample QImage.pixelIndex color1 outOfRange
  rcases h with ⟨rfl, h⟩ | ⟨rfl, h⟩
  · simp only [reduceCtorEq, if_false]
    split_ifs with h1 h2
    · norm_num
    · exact absurd ((hspeck i j).mp h2) (by omega)
    · norm_num
  · simp only [if_true]
    split_ifs with h1 h2
    · norm_num
    · exact absurd ((hspeck j i).mp h2) (by omega)
    · norm_num

theorem white_detectBorders (img : QImage) (hw : 1 ≤ img.width) (hh : 1 ≤ img.height)
    (hwhite : ∀ x y, img.black x y = false) (fuel : Nat)
    (hf : img.width + img.height < fuel) :
    detectBorders fuel img = some ⟨0, 0, (img.width : Int) - 1, (img.height : Int) - 1⟩ := by
  obtain ⟨h1, h2, h3, h4⟩ := white_edges img hw hh hwhite fuel hf
  exact detectBorders_of_edges fuel img _ _ _ _ h1 h2 h3 h4

/-- C14, refuted as stated: the 12x12 image that is white except for the
black pixel (5,3) has detectBorders return left = 5, top = 0, right = 5,
bottom = 11, while the all-white 12x12 image gives (0,0)-(11,11); the two
results differ whatever the fuel. -/
theorem speck_moves_edges :
    (∀ x y, speckImage.black x y = true ↔ (x = 5 ∧ y = 3)) ∧
    detectBorders 25 speckImage = some ⟨5, 0, 5, 11⟩ ∧
    detectBorders 25 (allWhite 12 12) = some ⟨0, 0, 11, 11⟩ ∧
    ∀ fuel rect rect', detectBorders fuel speckImage = some rect →
      detectBorders fuel (allWhite 12 12) = some rect' → rect ≠ rect' := by
  have h1 : detectBorders 25 speckImage = some ⟨5, 0, 5, 11⟩ := by decide
  have h2 : detectBorders 25 (allWhite 12 12) = some ⟨0, 0, 11, 11⟩ :=
    white_detectBorders (allWhite 12 12) (by decide) (by decide) (fun _ _ => rfl) 25 (by decide)
  refine ⟨?_, h1, h2, ?_⟩
  · intro x y
    simp [speckImage]
  · intro fuel rect rect' e1 e2
    have a := detectBorders_det fuel 25 _ _ _ e1 h1
    have b := detectBorders_det fuel 25 _ _ _ e2 h2
    subst a b
    decide

/-- C14, amended: for every image of width w >= 1 and height h >= 1 that is
white except for one black pixel (px, py), if the pixel lies outside the row
band of the left and right scans or more than 20 columns away from both the
left and the right border, and outside the column band of the top and bottom
scans or more than 20 rows away from both the top and the bottom border, then
detectBorders returns the same rectangle as for the all-white image of the
same size: left = 0, top = 0, right = w-1, bottom = h-1. -/
theorem speck_outside_sampled_zone (img : QImage) (hw : 1 ≤ img.width) (hh : 1 ≤ img.height)
    (px py : Int) (hspeck : ∀ x y, img.black x y = true ↔ (x = px ∧ y = py))
    (hrow : (py < goldenMid ((img.height : Int) - 1) - quarter (goldenMid ((img.height : Int) - 1))
        ∨ goldenMid ((img.height : Int) - 1) + quarter (goldenMid ((img.height : Int) - 1)) ≤ py)
      ∨ (20 < px ∧ px < (img.width : Int) - 21))
    (hcol : (px < goldenMid ((img.width : Int) - 1) - quarter (goldenMid ((img.width : Int) - 1))
        ∨ goldenMid ((img.width : Int) - 1) + quarter (goldenMid ((img.width : Int) - 1)) ≤ px)
      ∨ (20 < py ∧ py < (img.height : Int) - 21))
    (fuel : Nat) (hf : img.width + img.height < fuel) :
    detectBorders fuel img = some ⟨0, 0, (img.width : Int) - 1, (img.height : Int) - 1⟩ ∧
    detectBorders fuel (allWhite img.width img.height)
      = some ⟨0, 0, (img.width : Int) - 1, (img.height : Int) - 1⟩ := by
  obtain ⟨hx0, hxf, hy0, hyf⟩ := goldenMid_fuel img hw hh fuel hf
  refine ⟨?_, white_detectBorders (allWhite img.width img.height) hw hh (fun _ _ => rfl) fuel hf⟩
  apply detectBorders_of_edges
  · exact detectEdge_of_miss fuel img _ _ 1 _ _ (img.width - 1) hy0 hyf (by norm_num)
      (by push_cast [Nat.cast_sub hw]; ring) (by omega)
      (fun k _ hk j hj1 hj2 => sample_ne_of_speck img px py hspeck _ _ _
        (Or.inl ⟨rfl, by omega⟩))
  · exact detectEdge_of_miss fuel img _ _ 1 _ _ (img.height - 1) hx0 hxf (by norm_num)
      (by push_cast [Nat.cast_sub hh]; ring) (by omega)
      (fun k _ hk j hj1 hj2 => sample_ne_of_speck img px py hspeck _ _ _
        (Or.inr ⟨rfl, by omega⟩))
  · exact detectEdge_of_miss fuel img _ _ (-1) _ _ (img.width - 1) hy0 hyf (by norm_num)
      (by push_cast [Nat.cast_sub hw]; ring) (by omega)
      (fun k _ hk j hj1 hj2 => sample_ne_of_speck img px py hspeck _ _ _
        (Or.inl ⟨rfl, by omega⟩))
  · exact detectEdge_of_miss fuel img _ _ (-1) _ _ (img.height - 1) hx0 hxf (by norm_num)
      (by push_cast [Nat.cast_sub hh]; ring) (by omega)
      (fun k _ hk j hj1 hj2 => sample_ne_of_speck img px py hspeck _ _ _
        (Or.inr ⟨rfl, by omega⟩))

/-- C14, witness of the amended statement: the 12x12 image whose only black
pixel is (0,0), outside the bands of rows 3..4 and of columns 3..4. -/
theorem speck_outside_sampled_zone_witness :
    (1 ≤ cornerSpeck.width ∧ 1 ≤ cornerSpeck.height ∧
      (∀ x y, cornerSpeck.black x y = true ↔ (x = 0 ∧ y = 0)) ∧
      cornerSpeck.width + cornerSpeck.height < 25) ∧
    detectBorders 25 cornerSpeck
      = some ⟨0, 0, (cornerSpeck.width : Int) - 1, (cornerSpeck.height : Int) - 1⟩ :=
  ⟨⟨by decide, by decide, fun x y => by simp [cornerSpeck], by decide⟩,
    (speck_outside_sampled_zone cornerSpeck (by decide) (by decide) 0 0
      (fun x y => by simp [cornerSpeck]) (Or.inl (Or.inl (by decide)))
      (Or.inl (Or.inl (by decide))) 25 (by decide)).1⟩

/-! ## Scans that start on black and then leave it -/

/-- While the first sample of each band is black the loop moves on with
`edge` on the last such line and `gap = 0`. -/
theorem detectEdgeLoop_hitPrefix (img : QImage) (end_ inc mid : Int) (orient : Orientation)
    (bandFuel : Nat) (hq : 1 ≤ quarter mid) (hbf : 1 ≤ bandFuel) :
    ∀ (m f : Nat) (i edge gap : Int), (∀ k : Nat, k ≤ m → i + k * inc ≠ end_) →
      (∀ k : Nat, k ≤ m → sample img orient (i + k * inc) (mid - quarter mid) = color1) →
      detectEdgeLoop img end_ inc mid orient bandFuel (f + (m + 1)) i edge gap =
        detectEdgeLoop img end_ inc mid orient bandFuel f (i + ((m + 1 : Nat) : Int) * inc)
          (i + m * inc) 0 := by
  intro m
  induction m with
  | zero =>
    intro f i edge gap hne hw
    have h0 : sample img orient i (mid - quarter mid) = color1 := by
      simpa using hw 0 (le_refl _)
    have hb := scanBand_hit img orient i (mid + quarter mid) gap (mid - quarter mid) h0
      (by omega) bandFuel (mid - quarter mid) edge gap (le_refl _) (by omega)
    have hi : i ≠ end_ := by simpa using hne 0 (le_refl _)
    rw [detectEdgeLoop_step img end_ inc mid orient bandFuel f i edge gap _ _ hi hb,
      if_neg (by norm_num)]
    simp
  | succ m ih =>
    intro f i edge gap hne hw
    have h0 : sample img orient i (mid - quarter mid) = color1 := by
      simpa using hw 0 (by omega)
    have hb := scanBand_hit img orient i (mid + quarter mid) gap (mid - quarter mid) h0
      (by omega) bandFuel (mid - quarter mid) edge gap (le_refl _) (by omega)
    have hi : i ≠ end_ := by simpa using hne 0 (by omega)
    have e : f + (m + 1 + 1) = (f + (m + 1)) + 1 := by omega
    have shift : ∀ k : Nat, i + inc + (k : Int) * inc = i + ((k + 1 : Nat) : Int) * inc := by
      intro k; push_cast; ring
    rw [e, detectEdgeLoop_step img end_ inc mid orient bandFuel _ i edge gap _ _ hi hb,
      if_neg (by norm_num),
      ih f (i + inc) i 0 (fun k hk => by rw [shift]; exact hne (k + 1) (by omega))
        (fun k hk => by rw [shift]; exact hw (k + 1) (by omega))]
    rw [shift (m + 1), shift m]

/-- A scan whose first `m + 1` bands start with a black sample and whose next
21 bands hold no black sample returns the last of the black scan lines. -/
theorem detectEdge_hitThenMiss (fuel : Nat) (img : QImage) (start end_ inc mid : Int)
    (orient : Orientation) (m n : Nat) (hmid : 4 ≤ mid) (hbf : mid < fuel)
    (hinc : inc = 1 ∨ inc = -1) (he : end_ = start + n * inc) (hmn : m + 1 ≤ n)
    (hn : n < fuel)
    (hhit : ∀ k : Nat, k ≤ m →
      sample img orient (start + k * inc) (mid - quarter mid) = color1)
    (hmiss : ∀ k : Nat, m < k → k < n → k ≤ m + 21 → ∀ j, mid - quarter mid ≤ j →
      j < mid + quarter mid → sample img orient (start + k * inc) j ≠ color1) :
    detectEdge fuel img start end_ inc mid orient = some (start + m * inc) := by
  obtain ⟨hq, hb⟩ := band_fuel mid fuel (by omega) hbf
  have hq1 : 1 ≤ quarter mid := by
    have := quarter_of_nonneg mid (by omega)
    omega
  have hinc0 : inc ≠ 0 := by rcases hinc with h | h <;> omega
  obtain ⟨f, hfuel⟩ : ∃ f, fuel = f + (m + 1) := ⟨fuel - (m + 1), by omega⟩
  have hne : ∀ k : Nat, k ≤ m → start + k * inc ≠ end_ := by
    intro k hk h
    rw [he] at h
    have h' : ((n : Int) - k) * inc = 0 := by linarith
    rcases mul_eq_zero.mp h' with h1 | h1
    · omega
    · exact hinc0 h1
  have hpre := detectEdgeLoop_hitPrefix img end_ inc mid orient fuel hq1 (by omega) m f
    start start 0 hne hhit
  obtain ⟨st, hst, hedge⟩ := detectEdgeLoop_miss img end_ inc mid orient fuel hq hb hinc0
    (n - (m + 1)) f (start + ((m + 1 : Nat) : Int) * inc) (start + m * inc) 0
    (by rw [he]; push_cast [Nat.cast_sub hmn]; ring) (by omega) (by norm_num)
    (fun k hk hk20 j hj1 hj2 => by
      have := hmiss (m + 1 + k) (by omega) (by omega) (by omega) j hj1 hj2
      rw [show start + ((m + 1 : Nat) : Int) * inc + (k : Int) * inc
        = start + ((m + 1 + k : Nat) : Int) * inc by push_cast; ring]
      exact this)
  unfold detectEdge
  conv_lhs => rw [hfuel]
  rw [hfuel] at hpre
  have hpre' : detectEdgeLoop img end_ inc mid orient (f + (m + 1)) (f + (m + 1)) start start 0
      = some st := by
    rw [hpre, ← hfuel]
    exact hst
  rw [hpre']
  simp [hedge]

/-! ## C17: a uniform black frame -/

theorem pixelIndex_eq_color1_iff (img : QImage) (x y : Int) :
    img.pixelIndex x y = color1 ↔
      (0 ≤ x ∧ x < img.width ∧ 0 ≤ y ∧ y < img.height ∧ img.black x y = true) := by
  unfold QImage.pixelIndex color1 outOfRange
  constructor
  · intro h
    by_cases h1 : x < 0 ∨ x ≥ img.width ∨ y < 0 ∨ y ≥ img.height
    · rw [if_pos h1] at h
      norm_num at h
    · rw [if_neg h1] at h
      by_cases h2 : img.black x y = true
      · exact ⟨by omega, by omega, by omega, by omega, h2⟩
      · rw [if_neg h2] at h
        norm_num at h
  · rintro ⟨a, b, c, d, e⟩
    rw [if_neg (by omega), if_pos e]

/-- A corner that can move once and is stuck after that move. -/
theorem fineTuneCorner_one_step (img : QImage) (inc_x inc_y : Int) (fuel : Nat) (x y : Int)
    (hf : 2 ≤ fuel) (h1 : ¬ cornerStuck img inc_x inc_y x y)
    (h2 : cornerStuck img inc_x inc_y (x + inc_x) (y + inc_y)) :
    fineTuneCorner img inc_x inc_y fuel x y = some (x + inc_x, y + inc_y) := by
  obtain ⟨f, rfl⟩ : ∃ f, fuel = f + 1 := ⟨fuel - 1, by omega⟩
  rw [fineTuneCorner_stuck, if_neg h1]
  exact fineTuneCorner_of_stuck img inc_x inc_y f _ _ (by omega) h2

/-- The scanner and the corner refiner on a black frame of thickness `k`
whose white interior holds both bands. -/
theorem frame_rects (img : QImage) (k : Nat) (hk : 1 ≤ k)
    (hw : 2 * (k : Int) + 21 ≤ img.width) (hh : 2 * (k : Int) + 21 ≤ img.height)
    (hfr : ∀ x y : Int, 0 ≤ x → x < img.width → 0 ≤ y → y < img.height →
      (img.black x y = true ↔
        (x < k ∨ y < k ∨ (img.width : Int) - k ≤ x ∨ (img.height : Int) - k ≤ y)))
    (hbx1 : (k : Int) ≤ goldenMid ((img.width : Int) - 1) - quarter (goldenMid ((img.width : Int) - 1)))
    (hbx2 : goldenMid ((img.width : Int) - 1) + quarter (goldenMid ((img.width : Int) - 1))
      ≤ (img.width : Int) - k)
    (hby1 : (k : Int) ≤ goldenMid ((img.height : Int) - 1)
      - quarter (goldenMid ((img.height : Int) - 1)))
    (hby2 : goldenMid ((img.height : Int) - 1) + quarter (goldenMid ((img.height : Int) - 1))
      ≤ (img.height : Int) - k)
    (fuel : Nat) (hf : img.width + img.height < fuel) :
    detectBorders fuel img
      = some ⟨(k : Int) - 1, (k : Int) - 1, (img.width : Int) - k, (img.height : Int) - k⟩ ∧
    fineTuneCorners fuel img
        ⟨(k : Int) - 1, (k : Int) - 1, (img.width : Int) - k, (img.height : Int) - k⟩
      = some ⟨(k : Int) + 1, (k : Int) + 1, (img.width : Int) - k - 1,
          (img.height : Int) - k - 1⟩ := by
  have hw1 : 1 ≤ img.width := by omega
  have hh1 : 1 ≤ img.height := by omega
  obtain ⟨hx0, hxf, hy0, hyf⟩ := goldenMid_fuel img hw1 hh1 fuel hf
  have gx := goldenMid_of_nonneg ((img.width : Int) - 1) (by omega)
  have gy := goldenMid_of_nonneg ((img.height : Int) - 1) (by omega)
  have hx4 := gx.2.2 (by omega)
  have hy4 := gy.2.2 (by omega)
  have qx := quarter_of_nonneg (goldenMid ((img.width : Int) - 1)) hx0
  have qy := quarter_of_nonneg (goldenMid ((img.height : Int) - 1)) hy0
  have blackH : ∀ i j : Int, 0 ≤ i → i < img.width → 0 ≤ j → j < img.height →
      (i < k ∨ j < k ∨ (img.width : Int) - k ≤ i ∨ (img.height : Int) - k ≤ j) →
      sample img Orientation.Horizontal i j = color1 := by
    intro i j a b c d e
    unfold sample
    simp only [reduceCtorEq, if_false]
    exact (pixelIndex_eq_color1_iff img i j).mpr ⟨a, b, c, d, (hfr i j a b c d).mpr e⟩
  have whiteH : ∀ i j : Int, k ≤ i → i < (img.width : Int) - k → k ≤ j →
      j < (img.height : Int) - k → sample img Orientation.Horizontal i j ≠ color1 := by
    intro i j a b c d h
    unfold sample at h
    simp only [reduceCtorEq, if_false] at h
    obtain ⟨p, q, r, s, t⟩ := (pixelIndex_eq_color1_iff img i j).mp h
    have := (hfr i j p q r s).mp t
    omega
  have blackV : ∀ i j : Int, 0 ≤ j → j < img.width → 0 ≤ i → i < img.height →
      (j < k ∨ i < k ∨ (img.width : Int) - k ≤ j ∨ (img.height : Int) - k ≤ i) →
      sample img Orientation.Vertical i j = color1 := by
    intro i j a b c d e
    unfold sample
    simp only [if_true]
    exact (pixelIndex_eq_color1_iff img j i).mpr ⟨a, b, c, d, (hfr j i a b c d).mpr e⟩
  have whiteV : ∀ i j : Int, k ≤ j → j < (img.width : Int) - k → k ≤ i →
      i < (img.height : Int) - k → sample img Orientation.Vertical i j ≠ color1 := by
    intro i j a b c d h
    unfold sample at h
    simp only [if_true] at h
    obtain ⟨p, q, r, s, t⟩ := (pixelIndex_eq_color1_iff img j i).mp h
    have := (hfr j i p q r s).mp t
    omega
  have el := detectEdge_hitThenMiss fuel img 0 ((img.width : Int) - 1) 1
    (goldenMid ((img.height : Int) - 1)) Orientation.Horizontal (k - 1) (img.width - 1) hy4 hyf
    (Or.inl rfl) (by push_cast [Nat.cast_sub hw1]; ring) (by omega) (by omega)
    (fun j hj => blackH _ _ (by omega) (by omega) (by omega) (by omega) (Or.inl (by omega)))
    (fun j h1 h2 h3 r hr1 hr2 => whiteH _ _ (by omega) (by omega) (by omega) (by omega))
  have et := detectEdge_hitThenMiss fuel img 0 ((img.height : Int) - 1) 1
    (goldenMid ((img.width : Int) - 1)) Orientation.Vertical (k - 1) (img.height - 1) hx4 hxf
    (Or.inl rfl) (by push_cast [Nat.cast_sub hh1]; ring) (by omega) (by omega)
    (fun j hj => blackV _ _ (by omega) (by omega) (by omega) (by omega)
      (Or.inr (Or.inl (by omega))))
    (fun j h1 h2 h3 r hr1 hr2 => whiteV _ _ (by omega) (by omega) (by omega) (by omega))
  have er := detectEdge_hitThenMiss fuel img ((img.width : Int) - 1) 0 (-1)
    (goldenMid ((img.height : Int) - 1)) Orientation.Horizontal (k - 1) (img.width - 1) hy4 hyf
    (Or.inr rfl) (by push_cast [Nat.cast_sub hw1]; ring) (by omega) (by omega)
    (fun j hj => blackH _ _ (by omega) (by omega) (by omega) (by omega)
      (Or.inr (Or.inr (Or.inl (by omega)))))
    (fun j h1 h2 h3 r hr1 hr2 => whiteH _ _ (by omega) (by omega) (by omega) (by omega))
  have eb := detectEdge_hitThenMiss fuel img ((img.height : Int) - 1) ((k : Int) - 1) (-1)
    (goldenMid ((img.width : Int) - 1)) Orientation.Vertical (k - 1)
    ((img.height : Int) - k).toNat hx4 hxf
    (Or.inr rfl) (by rw [Int.toNat_of_nonneg (by omega)]; ring) (by omega) (by omega)
    (fun j hj => blackV _ _ (by omega) (by omega) (by omega) (by omega)
      (Or.inr (Or.inr (Or.inr (by omega)))))
    (fun j h1 h2 h3 r hr1 hr2 => whiteV _ _ (by omega) (by omega) (by omega) (by omega))
  have c1 : (0 : Int) + ((k - 1 : Nat) : Int) * 1 = (k : Int) - 1 := by
    push_cast [Nat.cast_sub hk]; ring
  have c2 : (img.width : Int) - 1 + ((k - 1 : Nat) : Int) * (-1) = (img.width : Int) - k := by
    push_cast [Nat.cast_sub hk]; ring
  have c3 : (img.height : Int) - 1 + ((k - 1 : Nat) : Int) * (-1) = (img.height : Int) - k := by
    push_cast [Nat.cast_sub hk]; ring
  rw [c1] at el et
  rw [c2] at er
  rw [c3] at eb
  refine ⟨detectBorders_of_edges fuel img _ _ _ _ el et er eb, ?_⟩
  have pix : ∀ x y : Int, 0 ≤ x → x < img.width → 0 ≤ y → y < img.height →
      (img.pixelIndex x y = color1 ↔
        (x < k ∨ y < k ∨ (img.width : Int) - k ≤ x ∨ (img.height : Int) - k ≤ y)) := by
    intro x y a b c d
    rw [pixelIndex_eq_color1_iff, hfr x y a b c d]
    constructor
    · exact fun h => h.2.2.2.2
    · exact fun h => ⟨a, b, c, d, h⟩
  have s1 : fineTuneCorner img 1 1 fuel ((k : Int) - 1) ((k : Int) - 1)
      = some ((k : Int), (k : Int)) := by
    have := fineTuneCorner_one_step img 1 1 fuel ((k : Int) - 1) ((k : Int) - 1) (by omega)
      (by
        unfold cornerStuck
        have := (pix ((k : Int) - 1) ((k : Int) - 1) (by omega) (by omega) (by omega)
          (by omega)).mpr (Or.inl (by omega))
        push_neg
        exact ⟨this, by omega, by omega, by omega, by omega⟩)
      (Or.inl (fun h => by
        have := (pix ((k : Int) - 1 + 1) ((k : Int) - 1 + 1) (by omega) (by omega) (by omega)
          (by omega)).mp h
        omega))
    simpa using this
  have s2 : fineTuneCorner img (-1) 1 fuel ((img.width : Int) - k) (k : Int)
      = some ((img.width : Int) - k - 1, (k : Int) + 1) := by
    have := fineTuneCorner_one_step img (-1) 1 fuel ((img.width : Int) - k) (k : Int) (by omega)
      (by
        unfold cornerStuck
        have := (pix ((img.width : Int) - k) (k : Int) (by omega) (by omega) (by omega)
          (by omega)).mpr (Or.inr (Or.inr (Or.inl (by omega))))
        push_neg
        exact ⟨this, by omega, by omega, by omega, by omega⟩)
      (Or.inl (fun h => by
        have := (pix ((img.width : Int) - k + -1) ((k : Int) + 1) (by omega) (by omega)
          (by omega) (by omega)).mp h
        omega))
    simpa [sub_eq_add_neg] using this
  have s3 : fineTuneCorner img 1 (-1) fuel (k : Int) ((img.height : Int) - k)
      = some ((k : Int) + 1, (img.height : Int) - k - 1) := by
    have := fineTuneCorner_one_step img 1 (-1) fuel (k : Int) ((img.height : Int) - k) (by omega)
      (by
        unfold cornerStuck
        have := (pix (k : Int) ((img.height : Int) - k) (by omega) (by omega) (by omega)
          (by omega)).mpr (Or.inr (Or.inr (Or.inr (by omega))))
        push_neg
        exact ⟨this, by omega, by omega, by omega, by omega⟩)
      (Or.inl (fun h => by
        have := (pix ((k : Int) + 1) ((img.height : Int) - k + -1) (by omega) (by omega)
          (by omega) (by omega)).mp h
        omega))
    simpa [sub_eq_add_neg] using this
  have s4 : fineTuneCorner img (-1) (-1) fuel ((img.width : Int) - k - 1)
      ((img.height : Int) - k - 1)
      = some ((img.width : Int) - k - 1, (img.height : Int) - k - 1) :=
    fineTuneCorner_of_stuck img (-1) (-1) fuel _ _ (by omega) (Or.inl (fun h => by
      have := (pix ((img.width : Int) - k - 1) ((img.height : Int) - k - 1) (by omega)
        (by omega) (by omega) (by omega)).mp h
      omega))
  unfold fineTuneCorners
  simp only [QRect.left, QRect.top, QRect.right, QRect.bottom, s1, s2, s3, s4,
    Option.some_bind, QRect.setLeft, QRect.setTop, QRect.setRight, QRect.setBottom]

/-- C17: for every w x h binary image made of a black frame of thickness
k >= 1 around an all-white interior [k, w-k-1] x [k, h-k-1], with
w-2k >= 21, h-2k >= 21 and both sampling bands inside the interior
(k <= mid - mid/4 and mid + mid/4 <= extent - k on each axis, mid being the
midpoint detectBorders computes), the bands are not empty, detectBorders
returns left = top = k-1, right = w-k, bottom = h-k, and fineTuneCorners turns
this rectangle into left = top = k+1, right = w-k-1, bottom = h-k-1. -/
theorem black_frame (img : QImage) (k : Nat) (hk : 1 ≤ k)
    (hw : 2 * (k : Int) + 21 ≤ img.width) (hh : 2 * (k : Int) + 21 ≤ img.height)
    (hfr : ∀ x y : Int, 0 ≤ x → x < img.width → 0 ≤ y → y < img.height →
      (img.black x y = true ↔
        (x < k ∨ y < k ∨ (img.width : Int) - k ≤ x ∨ (img.height : Int) - k ≤ y)))
    (hbx1 : (k : Int) ≤ goldenMid ((img.width : Int) - 1) - quarter (goldenMid ((img.width : Int) - 1)))
    (hbx2 : goldenMid ((img.width : Int) - 1) + quarter (goldenMid ((img.width : Int) - 1))
      ≤ (img.width : Int) - k)
    (hby1 : (k : Int) ≤ goldenMid ((img.height : Int) - 1)
      - quarter (goldenMid ((img.height : Int) - 1)))
    (hby2 : goldenMid ((img.height : Int) - 1) + quarter (goldenMid ((img.height : Int) - 1))
      ≤ (img.height : Int) - k)
    (fuel : Nat) (hf : img.width + img.height < fuel) :
    1 ≤ quarter (goldenMid ((img.width : Int) - 1)) ∧
    1 ≤ quarter (goldenMid ((img.height : Int) - 1)) ∧
    (∃ rect, detectBorders fuel img = some rect ∧
      rect.left = (k : Int) - 1 ∧ rect.top = (k : Int) - 1 ∧
      rect.right = (img.width : Int) - k ∧ rect.bottom = (img.height : Int) - k ∧
      ∃ res, fineTuneCorners fuel img rect = some res ∧ detectAndTune fuel img = some res ∧
        res.left = (k : Int) + 1 ∧ res.top = (k : Int) + 1 ∧
        res.right = (img.width : Int) - k - 1 ∧ res.bottom = (img.height : Int) - k - 1) := by
  obtain ⟨h1, h2⟩ := frame_rects img k hk hw hh hfr hbx1 hbx2 hby1 hby2 fuel hf
  have gx := goldenMid_of_nonneg ((img.width : Int) - 1) (by omega)
  have gy := goldenMid_of_nonneg ((img.height : Int) - 1) (by omega)
  have qx := quarter_of_nonneg (goldenMid ((img.width : Int) - 1)) gx.1
  have qy := quarter_of_nonneg (goldenMid ((img.height : Int) - 1)) gy.1
  have hx4 := gx.2.2 (by omega)
  have hy4 := gy.2.2 (by omega)
  refine ⟨by omega, by omega, _, h1, rfl, rfl, rfl, rfl, _, h2, ?_, rfl, rfl, rfl, rfl⟩
  unfold detectAndTune
  rw [h1, Option.some_bind, h2]

/-- C17, witness: the 25x25 image with a black frame of thickness 2. -/
theorem black_frame_witness :
    (1 ≤ 2 ∧ 2 * ((2 : Nat) : Int) + 21 ≤ (frameImage 25 25 2).width ∧
      2 * ((2 : Nat) : Int) + 21 ≤ (frameImage 25 25 2).height ∧
      (frameImage 25 25 2).width + (frameImage 25 25 2).height < 51) ∧
    ∃ rect, detectBorders 51 (frameImage 25 25 2) = some rect ∧
      rect.left = ((2 : Nat) : Int) - 1 ∧ rect.top = ((2 : Nat) : Int) - 1 ∧
      rect.right = ((frameImage 25 25 2).width : Int) - (2 : Nat) ∧
      rect.bottom = ((frameImage 25 25 2).height : Int) - (2 : Nat) ∧
      ∃ res, fineTuneCorners 51 (frameImage 25 25 2) rect = some res ∧
        detectAndTune 51 (frameImage 25 25 2) = some res ∧
        res.left = ((2 : Nat) : Int) + 1 ∧ res.top = ((2 : Nat) : Int) + 1 ∧
        res.right = ((frameImage 25 25 2).width : Int) - (2 : Nat) - 1 ∧
        res.bottom = ((frameImage 25 25 2).height : Int) - (2 : Nat) - 1 :=
  ⟨⟨by decide, by decide, by decide, by decide⟩,
    (black_frame (frameImage 25 25 2) 2 (by decide) (by decide) (by decide)
      (fun x y _ _ _ _ => by simp [frameImage]) (by decide) (by decide) (by decide) (by decide)
      51 (by decide)).2.2⟩

/-! ## The scan against its reference definition -/

theorem lineHit_iff (img : QImage) (orient : Orientation) (mid i : Int)
    (hq : 0 ≤ quarter mid) :
    lineHit img orient mid i = true ↔
      ∃ j, mid - quarter mid ≤ j ∧ j < mid + quarter mid ∧ sample img orient i j = color1 := by
  unfold lineHit
  simp only [List.any_eq_true, List.mem_range, decide_eq_true_eq]
  constructor
  · rintro ⟨k, hk, hs⟩
    exact ⟨mid - quarter mid + k, by omega, by omega, hs⟩
  · rintro ⟨j, h1, h2, hs⟩
    refine ⟨(j - (mid - quarter mid)).toNat, by omega, ?_⟩
    rw [Int.toNat_of_nonneg (by omega)]
    rw [show mid - quarter mid + (j - (mid - quarter mid)) = j by ring]
    exact hs

/-- The inner loop in terms of `lineHit`: a hit sets `edge` to the line and
clears `gap`, a miss counts once when the band is not empty. -/
theorem scanBand_lineHit (img : QImage) (orient : Orientation) (mid i edge gap : Int)
    (bandFuel : Nat) (hq : 0 ≤ quarter mid) (hbf : (2 * quarter mid).toNat < bandFuel) :
    scanBand img orient i (mid + quarter mid) gap bandFuel (mid - quarter mid) edge gap =
      some (if lineHit img orient mid i = true then (i, 0)
        else (edge, if 1 ≤ quarter mid then gap + 1 else gap)) := by
  by_cases h : lineHit img orient mid i = true
  · rw [if_pos h]
    obtain ⟨j, h1, h2, hs⟩ := (lineHit_iff img orient mid i hq).mp h
    exact scanBand_hit img orient i _ gap j hs h2 bandFuel _ edge gap h1 (by omega)
  · rw [if_neg h]
    have hw : ∀ j, mid - quarter mid ≤ j → j < mid + quarter mid →
        sample img orient i j ≠ color1 :=
      fun j h1 h2 hs => h ((lineHit_iff img orient mid i hq).mpr ⟨j, h1, h2, hs⟩)
    rw [scanBand_miss img orient i _ gap bandFuel _ edge gap (by omega) (by omega) hw]
    congr 2
    by_cases hq1 : 1 ≤ quarter mid
    · rw [if_pos ⟨by omega, rfl⟩, if_pos hq1]
    · rw [if_neg (fun hh => hq1 (by omega)), if_neg hq1]

theorem lastGood_succ (p : Nat → Bool) (n : Nat) :
    lastGood p (n + 1) = if p n = true then some n else lastGood p n :=
  rfl

theorem lastGood_congr (p q : Nat → Bool) :
    ∀ n : Nat, (∀ j, j < n → p j = q j) → lastGood p n = lastGood q n := by
  intro n
  induction n with
  | zero => intro _; rfl
  | succ n ih =>
    intro h
    rw [lastGood_succ, lastGood_succ, h n (by omega), ih (fun j hj => h j (by omega))]

theorem lastGood_drop (p : Nat → Bool) (k : Nat) :
    ∀ m : Nat, (∀ j, k ≤ j → j < k + m → p j = false) → lastGood p (k + m) = lastGood p k := by
  intro m
  induction m with
  | zero => intro _; rfl
  | succ m ih =>
    intro h
    have e : k + (m + 1) = (k + m) + 1 := by omega
    rw [e, lastGood_succ, h (k + m) (by omega) (by omega)]
    simp only [Bool.false_eq_true, if_false]
    exact ih (fun j h1 h2 => h j h1 (by omega))

/-- What `lastGood` returns is the last index at which `good` holds. -/
theorem lastGood_spec (p : Nat → Bool) :
    ∀ n : Nat,
      (∀ k, lastGood p n = some k → k < n ∧ p k = true ∧ ∀ j, k < j → j < n → p j = false) ∧
      (lastGood p n = none → ∀ j, j < n → p j = false) := by
  intro n
  induction n with
  | zero =>
    exact ⟨fun k h => by simp [lastGood] at h, fun _ j hj => by omega⟩
  | succ n ih =>
    rw [lastGood_succ]
    by_cases hp : p n = true
    · rw [if_pos hp]
      refine ⟨fun k h => ?_, fun h => by simp at h⟩
      have : n = k := Option.some.inj h
      subst this
      exact ⟨by omega, hp, fun j h1 h2 => by omega⟩
    · rw [if_neg hp]
      refine ⟨fun k h => ?_, fun h j hj => ?_⟩
      · obtain ⟨a, b, c⟩ := ih.1 k h
        refine ⟨by omega, b, fun j h1 h2 => ?_⟩
        by_cases hj : j = n
        · subst hj; simpa using hp
        · exact c j h1 (by omega)
      · by_cases hj : j = n
        · subst hj; simpa using hp
        · exact ih.2 h j (by omega)

/-- Without a run of 21 misses before line `k`, every hit up to `k` is good. -/
theorem goodLine_eq_hit (hit : Nat → Bool) (k : Nat)
    (hnorun : ∀ a, a + 21 ≤ k → ∃ b, a ≤ b ∧ b < a + 21 ∧ hit b = true) :
    ∀ j, j ≤ k → goodLine hit j = hit j := by
  intro j hj
  unfold goodLine
  have : ¬ missRunBefore hit j := by
    rintro ⟨a, _, h21, hall⟩
    obtain ⟨b, b1, b2, b3⟩ := hnorun a (by omega)
    rw [hall b (by omega) b1 b2] at b3
    exact Bool.false_ne_true b3
  simp [this]

/-- The outer loop against the reference definition, for a band that is not
empty. The loop is about to scan line `k` with `g` trailing misses behind it,
no run of 21 misses so far, and `edge` on the last hit so far. -/
theorem detectEdgeLoop_reference (img : QImage) (end_ inc mid : Int) (orient : Orientation)
    (bandFuel : Nat) (start : Int) (n : Nat) (hit : Nat → Bool)
    (hitdef : ∀ k, hit k = lineHit img orient mid (start + k * inc))
    (hq1 : 1 ≤ quarter mid) (hbf : (2 * quarter mid).toNat < bandFuel) (hinc : inc ≠ 0)
    (he : end_ = start + n * inc) :
    ∀ (m k fuel : Nat) (edge : Int) (g : Nat), k + m = n → m < fuel → g ≤ 20 → g ≤ k →
      (∀ b, k - g ≤ b → b < k → hit b = false) →
      (g = k ∨ hit (k - g - 1) = true) →
      (∀ a, a + 21 ≤ k → ∃ b, a ≤ b ∧ b < a + 21 ∧ hit b = true) →
      edge = lineOrStart start inc (lastGood hit k) →
      ∃ st, detectEdgeLoop img end_ inc mid orient bandFuel fuel (start + k * inc) edge g
          = some st ∧
        st.edge = lineOrStart start inc (lastGood (goodLine hit) n) := by
  intro m
  induction m with
  | zero =>
    intro k fuel edge g hk hf _ _ _ _ hnorun hedge
    obtain ⟨f, rfl⟩ : ∃ f, fuel = f + 1 := ⟨fuel - 1, by omega⟩
    have hkn : k = n := by omega
    subst hkn
    refine ⟨⟨start + k * inc, edge, g⟩, ?_, ?_⟩
    · rw [detectEdgeLoop_succ, if_pos he.symm]
    · show edge = _
      rw [hedge, lastGood_congr (goodLine hit) hit k
        (fun j hj => goodLine_eq_hit hit k hnorun j (by omega))]
  | succ m ih =>
    intro k fuel edge g hk hf hg20 hgk htrail hmax hnorun hedge
    obtain ⟨f, rfl⟩ : ∃ f, fuel = f + 1 := ⟨fuel - 1, by omega⟩
    have hne : start + k * inc ≠ end_ := by
      intro h
      rw [he] at h
      have h' : ((n : Int) - k) * inc = 0 := by linarith
      rcases mul_eq_zero.mp h' with h1 | h1
      · omega
      · exact hinc h1
    have hnext : start + (k : Int) * inc + inc = start + ((k + 1 : Nat) : Int) * inc := by
      push_cast; ring
    have hb := scanBand_lineHit img orient mid (start + k * inc) edge g bandFuel (by omega) hbf
    rw [← hitdef k] at hb
    by_cases hh : hit k = true
    · rw [if_pos hh] at hb
      rw [detectEdgeLoop_step img end_ inc mid orient bandFuel f _ edge g _ _ hne hb,
        if_neg (by norm_num), hnext]
      have := ih (k + 1) f (start + k * inc) 0 (by omega) (by omega) (by omega) (by omega)
        (fun b h1 h2 => by omega) (Or.inr (by simpa using hh))
        (fun a ha => by
          by_cases hak : a + 21 ≤ k
          · exact hnorun a hak
          · exact ⟨k, by omega, by omega, hh⟩)
        (by rw [lastGood_succ, if_pos hh]; rfl)
      simpa using this
    · have hh' : hit k = false := by simpa using hh
      rw [if_neg hh, if_pos hq1] at hb
      rw [detectEdgeLoop_step img end_ inc mid orient bandFuel f _ edge g _ _ hne hb]
      by_cases hstop : (g : Int) + 1 > 20
      · rw [if_pos hstop]
        refine ⟨_, rfl, ?_⟩
        show edge = _
        have hg : g = 20 := by omega
        have hdrop : lastGood (goodLine hit) (k + (m + 1)) = lastGood (goodLine hit) k := by
          apply lastGood_drop
          intro j hj1 hj2
          unfold goodLine
          by_cases hjk : j = k
          · subst hjk
            rw [hh']
            rfl
          · have hrun : missRunBefore hit j := by
              refine ⟨k - 20, by omega, by omega, ?_⟩
              intro b _ hb1 hb2
              by_cases hbk : b = k
              · subst hbk; exact hh'
              · exact htrail b (by omega) (by omega)
            simp [hrun]
        rw [← hk, hdrop, lastGood_congr (goodLine hit) hit k
          (fun j hj => goodLine_eq_hit hit k hnorun j (by omega)), hedge]
      · rw [if_neg hstop, hnext]
        have := ih (k + 1) f edge (g + 1) (by omega) (by omega) (by omega) (by omega)
          (fun b h1 h2 => by
            by_cases hbk : b = k
            · subst hbk; exact hh'
            · exact htrail b (by omega) (by omega))
          (by
            rcases hmax with h | h
            · left; omega
            · right
              rw [show k + 1 - (g + 1) - 1 = k - g - 1 by omega]
              exact h)
          (fun a ha => by
            by_cases hak : a + 21 ≤ k
            · exact hnorun a hak
            · rcases hmax with h | h
              · omega
              · exact ⟨k - g - 1, by omega, by omega, h⟩)
          (by rw [lastGood_succ, if_neg hh]; exact hedge)
        simpa using this

/-! ## C11: the reference definition of one side scan -/

/-- C11: for every image, every band with mid >= 0 and every scan with
inc = +1 and start <= end, or inc = -1 and start >= end, detectEdge returns
the reference edge: the last scan line among start, start+inc, ..., end-inc
that is a hit (some pixel of the band is black) and is not preceded by a run
of 21 consecutive misses, and start when there is no such line. In
particular a hit reached with gap = 20 still moves the edge and the scan goes
on, and the inner loop raises gap by at most one per scan line. -/
theorem detectEdge_is_reference (fuel : Nat) (img : QImage) (start end_ inc mid : Int)
    (orient : Orientation)
    (hdir : (inc = 1 ∧ start ≤ end_) ∨ (inc = -1 ∧ end_ ≤ start)) (hmid : 0 ≤ mid)
    (hbf : mid < fuel) (hf : |end_ - start| < fuel) :
    detectEdge fuel img start end_ inc mid orient
      = some (referenceEdge img orient mid start end_ inc) ∧
    (∀ (i edge : Int) (f : Nat), i ≠ end_ → lineHit img orient mid i = true →
      detectEdgeLoop img end_ inc mid orient fuel (f + 1) i edge 20
        = detectEdgeLoop img end_ inc mid orient fuel f (i + inc) i 0) ∧
    (∀ i edge gap : Int, 0 ≤ gap → ∃ e g,
      scanBand img orient i (mid + quarter mid) gap fuel (mid - quarter mid) edge gap
        = some (e, g) ∧ g ≤ gap + 1) := by
  obtain ⟨hq, hb⟩ := band_fuel mid fuel hmid hbf
  have habs : |end_ - start| = (end_ - start).natAbs := Int.abs_eq_natAbs _
  have hend : end_ = start + ((end_ - start).natAbs : Int) * inc := by
    rcases hdir with ⟨rfl, h⟩ | ⟨rfl, h⟩ <;> omega
  have hinc : inc ≠ 0 := by
    rcases hdir with ⟨rfl, _⟩ | ⟨rfl, _⟩ <;> norm_num
  refine ⟨?_, ?_, ?_⟩
  · by_cases hq1 : 1 ≤ quarter mid
    · obtain ⟨st, hst, hedge⟩ := detectEdgeLoop_reference img end_ inc mid orient fuel start
        (end_ - start).natAbs (fun k : Nat => lineHit img orient mid (start + k * inc))
        (fun _ => rfl) hq1 hb hinc hend (end_ - start).natAbs 0 fuel start 0 (by omega)
        (by omega) (by omega) (by omega) (fun b h1 h2 => by omega) (Or.inl rfl)
        (fun a ha => by omega) rfl
      have hst' : detectEdgeLoop img end_ inc mid orient fuel fuel start start 0 = some st := by
        simpa using hst
      unfold detectEdge referenceEdge
      rw [hst', ← hedge]
      rfl
    · have hmid4 : mid < 4 := by
        have := quarter_of_nonneg mid hmid
        omega
      have hq0 : quarter mid = 0 := by omega
      rw [(detectEdge_emptyBand fuel img start end_ inc mid orient hmid hmid4 hdir hf).2.2.2]
      have hnone : lastGood (goodLine fun k : Nat => lineHit img orient mid (start + k * inc))
          (0 + (end_ - start).natAbs) = none := by
        rw [lastGood_drop]
        · rfl
        · intro j _ _
          unfold goodLine lineHit
          rw [hq0]
          rfl
      rw [Nat.zero_add] at hnone
      unfold referenceEdge
      rw [hnone]
      rfl
  · intro i edge f hi hhit
    have hsb := scanBand_lineHit img orient mid i edge 20 fuel hq hb
    rw [if_pos hhit] at hsb
    rw [detectEdgeLoop_step img end_ inc mid orient fuel f i edge 20 _ _ hi hsb,
      if_neg (by norm_num)]
  · intro i edge gap hgap
    obtain ⟨e, g, h, hcase⟩ := scanBand_total img orient i (mid + quarter mid) gap fuel
      (mid - quarter mid) edge gap (by omega) (by omega)
    refine ⟨e, g, h, ?_⟩
    rcases hcase with ⟨_, _, h2⟩ | ⟨_, h2⟩
    · exact h2
    · omega

/-- C11, witness: the scan of the columns 0 .. 10 of the 12x12 image whose only
black pixel is (5,3), with the band of rows 3 and 4; the reference edge is 5. -/
theorem detectEdge_is_reference_witness :
    ((((1 : Int) = 1 ∧ (0 : Int) ≤ 11) ∨ ((1 : Int) = -1 ∧ (11 : Int) ≤ 0)) ∧ (0 : Int) ≤ 4 ∧
      (4 : Int) < (25 : Nat) ∧ |(11 : Int) - 0| < (25 : Nat)) ∧
    detectEdge 25 speckImage 0 11 1 4 Orientation.Horizontal
      = some (referenceEdge speckImage Orientation.Horizontal 4 0 11 1) ∧
    referenceEdge speckImage Orientation.Horizontal 4 0 11 1 = 5 :=
  have hdir : ((1 : Int) = 1 ∧ (0 : Int) ≤ 11) ∨ ((1 : Int) = -1 ∧ (11 : Int) ≤ 0) :=
    Or.inl ⟨rfl, by decide⟩
  ⟨⟨hdir, by decide, by decide, by decide⟩,
    (detectEdge_is_reference 25 speckImage 0 11 1 4 Orientation.Horizontal hdir (by decide)
      (by decide) (by decide)).1,
    by decide⟩

end PageFinder
